import Mathlib

/-!
Verification of the CPU scheduling engine of the OS-Lab simulator.

The definitions below are a shallow embedding of `process.py` and
`scheduler.py`: each Python class/method is translated to a Lean
definition of the same name (in a namespace mirroring the class).
Python `int` is modelled by `Nat` where the source value is provably
non-negative under the stated preconditions (arrival times, burst
times, the simulation clock) and by `Int` for the derived statistics
fields that the source computes by subtraction (so that the
non-negativity claims about them remain genuine statements).
Python `float` averages are modelled by exact rationals `ℚ`, and
`round(x, 2)` by round-half-to-even on `ℚ`.
The `while` loops of the SJF/Priority and Round-Robin schedulers are
embedded with an explicit fuel parameter (`Option`-valued runs); the
termination theorems show the chosen fuel is never exhausted.
-/

namespace OSLab

/-- `ProcessState` enum from `process.py`. -/
inductive ProcessState where
  | NEW
  | READY
  | RUNNING
  | WAITING
  | TERMINATED
deriving DecidableEq, Repr

/-- The `Process` record from `process.py` (all fields of `__init__`). -/
structure Process where
  pid : Nat
  arrival_time : Nat
  burst_time : Nat
  priority : Int
  state : ProcessState
  remaining_time : Nat
  completion_time : Int
  turnaround_time : Int
  waiting_time : Int
  response_time : Int
  start_time : Int
deriving DecidableEq, Repr

/-- `Process.__init__`: a fresh record with only the immutable inputs set. -/
def Process.init (pid arrival_time burst_time : Nat) (priority : Int) : Process :=
  { pid := pid
    arrival_time := arrival_time
    burst_time := burst_time
    priority := priority
    state := ProcessState.NEW
    remaining_time := burst_time
    completion_time := 0
    turnaround_time := 0
    waiting_time := 0
    response_time := -1
    start_time := -1 }

/-- `Process.execute`: consume `min(time_slice, remaining_time)` CPU units;
no-op unless the state is RUNNING; TERMINATED once remaining time hits 0.
(The Python method also returns the executed amount; no caller in
`scheduler.py` uses that return value, so it is dropped here.) -/
def Process.execute (p : Process) (time_slice : Nat) : Process :=
  if p.state ≠ ProcessState.RUNNING then p
  else
    let executed := min time_slice p.remaining_time
    let rem := p.remaining_time - executed
    { p with remaining_time := rem
             state := if rem = 0 then ProcessState.TERMINATED else p.state }

/-- `Process.is_complete`. -/
def Process.is_complete (p : Process) : Bool :=
  p.remaining_time == 0

/-- The dictionary returned by `Process.get_statistics`. -/
structure Stats where
  pid : Nat
  arrival_time : Nat
  burst_time : Nat
  priority : Int
  completion_time : Int
  turnaround_time : Int
  waiting_time : Int
  response_time : Int
deriving DecidableEq, Repr

/-- `Process.get_statistics`. -/
def Process.get_statistics (p : Process) : Stats :=
  { pid := p.pid
    arrival_time := p.arrival_time
    burst_time := p.burst_time
    priority := p.priority
    completion_time := p.completion_time
    turnaround_time := p.turnaround_time
    waiting_time := p.waiting_time
    response_time := p.response_time }

/-- A Gantt-chart label: either the marker `P{pid}` or `"IDLE"`.
The Python code uses the strings themselves; `pid ↦ "P{pid}"` is
injective and distinct from `"IDLE"`, so an inductive label is a
faithful rendering of the string comparisons in the source. -/
inductive Label where
  | proc (pid : Nat)
  | idle
deriving DecidableEq, Repr

/-- One Gantt-chart entry `(start, end, label)`. -/
abbrev Interval := Nat × Nat × Label

/-- The averages dictionary built by `CPUScheduler.calculate_metrics`. -/
structure Metrics where
  avg_turnaround_time : ℚ
  avg_waiting_time : ℚ
  avg_response_time : ℚ
  total_processes : Nat
deriving DecidableEq, Repr

/-- Round-half-to-even to an integer, the rounding Python's `round`
performs (floats modelled as exact rationals). -/
def roundHalfEven (q : ℚ) : Int :=
  let f := ⌊q⌋
  if q - f < 1 / 2 then f
  else if 1 / 2 < q - f then f + 1
  else if f % 2 = 0 then f else f + 1

/-- `round(x, 2)`: round to 2 decimal places. -/
def round2 (q : ℚ) : ℚ :=
  (roundHalfEven (q * 100) : ℚ) / 100

/-- `CPUScheduler.calculate_metrics`: `none` models the empty dict `{}`
returned when no process has completed. -/
def CPUScheduler.calculate_metrics (completed : List Process) : Option Metrics :=
  let n := completed.length
  if n = 0 then none
  else
    let avg_turnaround := (completed.map (fun p => (p.turnaround_time : ℚ))).sum / n
    let avg_waiting := (completed.map (fun p => (p.waiting_time : ℚ))).sum / n
    let avg_response := (completed.map (fun p => (p.response_time : ℚ))).sum / n
    some { avg_turnaround_time := round2 avg_turnaround
           avg_waiting_time := round2 avg_waiting
           avg_response_time := round2 avg_response
           total_processes := n }

/-- The triple returned by every `schedule` call. -/
structure ScheduleResult where
  stats : List Stats
  metrics : Option Metrics
  gantt : List Interval
deriving DecidableEq, Repr

/-- `CPUScheduler.get_results`. -/
def CPUScheduler.get_results (completed : List Process) (gantt : List Interval) :
    ScheduleResult :=
  { stats := completed.map Process.get_statistics
    metrics := CPUScheduler.calculate_metrics completed
    gantt := gantt }

/-- Stable insertion of `x` into a sorted list: `x` goes in front of the
first element it compares `le` to, so earlier-listed elements with equal
keys stay in front. -/
def insertSorted (le : Process → Process → Bool) (x : Process) :
    List Process → List Process
  | [] => [x]
  | y :: ys => if le x y then x :: y :: ys else y :: insertSorted le x ys

/-- Python's stable `list.sort(key=...)`, modelled as a stable insertion
sort: for a total preorder, every stable sorting algorithm produces the
same output list, so this is extensionally the sort the source performs. -/
def sortBy (le : Process → Process → Bool) : List Process → List Process
  | [] => []
  | x :: xs => insertSorted le x (sortBy le xs)

/-- The sort key `(p.arrival_time, p.pid)` used by every scheduler's
initial sort, as a boolean total preorder. -/
def leArrivalPid (p q : Process) : Bool :=
  decide (p.arrival_time < q.arrival_time ∨
    (p.arrival_time = q.arrival_time ∧ p.pid ≤ q.pid))

/-- Lexicographic order on integer key triples (Python tuple `<=`). -/
abbrev LexLe3 (a b : Int × Int × Int) : Prop :=
  a.1 < b.1 ∨ (a.1 = b.1 ∧ (a.2.1 < b.2.1 ∨ (a.2.1 = b.2.1 ∧ a.2.2 ≤ b.2.2)))

/-- Strict lexicographic order on integer key triples (Python tuple `<`). -/
abbrev LexLt3 (a b : Int × Int × Int) : Prop :=
  a.1 < b.1 ∨ (a.1 = b.1 ∧ (a.2.1 < b.2.1 ∨ (a.2.1 = b.2.1 ∧ a.2.2 < b.2.2)))

def lexLe3 (a b : Int × Int × Int) : Bool := decide (LexLe3 a b)

def lexLt3 (a b : Int × Int × Int) : Bool := decide (LexLt3 a b)

/-- `FCFSScheduler.schedule`, body of the `for process in self.processes`
loop, as a fold over `(current_time, gantt_chart, completed_processes)`. -/
def FCFSScheduler.body (acc : Nat × List Interval × List Process) (p : Process) :
    Nat × List Interval × List Process :=
  let t0 := acc.1
  let gantt0 := acc.2.1
  let completed := acc.2.2
  let t := if t0 < p.arrival_time then p.arrival_time else t0
  let gantt :=
    if t0 < p.arrival_time then gantt0 ++ [(t0, p.arrival_time, Label.idle)] else gantt0
  let p1 := { p with state := ProcessState.RUNNING
                     start_time := (t : Int)
                     response_time := (t : Int) - (p.arrival_time : Int) }
  let tEnd := t + p1.burst_time
  let gantt1 := gantt ++ [(t, tEnd, Label.proc p1.pid)]
  let p2 := { p1 with completion_time := (tEnd : Int)
                      turnaround_time := (tEnd : Int) - (p1.arrival_time : Int)
                      waiting_time :=
                        ((tEnd : Int) - (p1.arrival_time : Int)) - (p1.burst_time : Int)
                      state := ProcessState.TERMINATED
                      remaining_time := 0 }
  (tEnd, gantt1, completed ++ [p2])

/-- `FCFSScheduler.schedule`. -/
def FCFSScheduler.schedule (processes : List Process) : ScheduleResult :=
  let sorted := sortBy leArrivalPid processes
  let acc := sorted.foldl FCFSScheduler.body (0, [], [])
  CPUScheduler.get_results acc.2.2 acc.2.1

/-- Loop state shared by the SJF/Priority and Round-Robin `while` loops:
`(self.current_time, self.gantt_chart, self.completed_processes,
ready_queue, remaining_processes)`. -/
structure LoopState where
  current_time : Nat
  gantt : List Interval
  completed : List Process
  ready : List Process
  remaining : List Process
deriving DecidableEq, Repr

/-- The `while remaining_processes and remaining_processes[0].arrival_time
<= self.current_time` pull loop: moves arrived processes (state set to
READY) from the head of `remaining` to the back of `ready`. -/
def pullArrived (t : Nat) : List Process → List Process → List Process × List Process
  | [], ready => ([], ready)
  | p :: rest, ready =>
    if p.arrival_time ≤ t then
      pullArrived t rest (ready ++ [{ p with state := ProcessState.READY }])
    else (p :: rest, ready)

/-- Initial loop state: `current_time = 0`, the private copy of the input
sorted by `(arrival_time, pid)`. -/
def initState (processes : List Process) : LoopState :=
  { current_time := 0
    gantt := []
    completed := []
    ready := []
    remaining := sortBy leArrivalPid processes }

/-- SJF ready-queue selection key `(burst_time, arrival_time, pid)`. -/
def sjfKey (p : Process) : Int × Int × Int :=
  ((p.burst_time : Int), (p.arrival_time : Int), (p.pid : Int))

/-- Priority ready-queue selection key `(priority, arrival_time, pid)`. -/
def priorityKey (p : Process) : Int × Int × Int :=
  (p.priority, (p.arrival_time : Int), (p.pid : Int))

/-- SRTF key `(remaining_time, arrival_time, pid)`. -/
def srtfKey (p : Process) : Int × Int × Int :=
  ((p.remaining_time : Int), (p.arrival_time : Int), (p.pid : Int))

/-- Non-preemptive dispatch (`SJFScheduler.schedule` lines selecting,
running and finalizing one process; `PriorityScheduler.schedule` is the
same code with a different key): sort the ready queue by `key`, pop its
head, run it to completion in one Gantt interval. The `[]` branch is
unreachable (callers ensure the ready queue is non-empty). -/
def npDispatch (key : Process → Int × Int × Int) (s : LoopState) : LoopState :=
  match sortBy (fun a b => lexLe3 (key a) (key b)) s.ready with
  | [] => s
  | p :: rest =>
    let t := s.current_time
    let p1 := { p with state := ProcessState.RUNNING
                       start_time := (t : Int)
                       response_time := (t : Int) - (p.arrival_time : Int) }
    let tEnd := t + p1.burst_time
    let p2 := { p1 with completion_time := (tEnd : Int)
                        turnaround_time := (tEnd : Int) - (p1.arrival_time : Int)
                        waiting_time :=
                          ((tEnd : Int) - (p1.arrival_time : Int)) - (p1.burst_time : Int)
                        state := ProcessState.TERMINATED
                        remaining_time := 0 }
    { current_time := tEnd
      gantt := s.gantt ++ [(t, tEnd, Label.proc p1.pid)]
      completed := s.completed ++ [p2]
      ready := rest
      remaining := s.remaining }

/-- One pass of the SJF/Priority/Round-Robin `while` body around a given
dispatch action.  When the ready queue is empty after pulling arrivals,
the source emits an IDLE interval up to the next arrival and `continue`s;
the next pass then pulls that arrival and dispatches, which is inlined
here (the inner `[]` branch is unreachable: inside the loop the pools are
not both empty). -/
def stepWith (dispatch : LoopState → LoopState) (s : LoopState) : LoopState :=
  let pulled := pullArrived s.current_time s.remaining s.ready
  let s1 := { s with remaining := pulled.1, ready := pulled.2 }
  if s1.ready.isEmpty then
    match s1.remaining with
    | [] => s1
    | p :: _ =>
      let s2 := { s1 with
        gantt := s1.gantt ++ [(s1.current_time, p.arrival_time, Label.idle)]
        current_time := p.arrival_time }
      let pulled2 := pullArrived s2.current_time s2.remaining s2.ready
      dispatch { s2 with remaining := pulled2.1, ready := pulled2.2 }
  else dispatch s1

/-- One pass of the SJF/Priority `while` body. -/
def npStep (key : Process → Int × Int × Int) : LoopState → LoopState :=
  stepWith (npDispatch key)

/-- The SJF/Priority `while remaining_processes or ready_queue` loop,
with an explicit fuel (each pass completes exactly one process, so fuel
`|remaining| + |ready|` is exactly enough; `none` = fuel exhausted). -/
def npRun (key : Process → Int × Int × Int) : Nat → LoopState → Option LoopState
  | fuel, s =>
    if s.remaining.isEmpty && s.ready.isEmpty then some s
    else
      match fuel with
      | 0 => none
      | f + 1 => npRun key f (npStep key s)

/-- Shared shape of `SJFScheduler.schedule` / `PriorityScheduler.schedule`. -/
def npSchedule (key : Process → Int × Int × Int) (processes : List Process) :
    Option ScheduleResult :=
  (npRun key processes.length (initState processes)).map
    (fun s => CPUScheduler.get_results s.completed s.gantt)

/-- `SJFScheduler.schedule`. -/
def SJFScheduler.schedule : List Process → Option ScheduleResult :=
  npSchedule sjfKey

/-- `PriorityScheduler.schedule`. -/
def PriorityScheduler.schedule : List Process → Option ScheduleResult :=
  npSchedule priorityKey

/-- Round-Robin dispatch (`RoundRobinScheduler.schedule` lines popping
the queue head, running it for `min(time_quantum, remaining_time)`,
pulling the arrivals of that span, then finalizing or re-enqueuing).
The `[]` branch is unreachable (callers ensure a non-empty queue). -/
def rrDispatch (time_quantum : Nat) (s : LoopState) : LoopState :=
  match s.ready with
  | [] => s
  | p :: rest =>
    let t := s.current_time
    let p1 := { p with state := ProcessState.RUNNING }
    let p2 :=
      if p1.start_time = -1 then
        { p1 with start_time := (t : Int)
                  response_time := (t : Int) - (p1.arrival_time : Int) }
      else p1
    let execution_time := min time_quantum p2.remaining_time
    let gantt := s.gantt ++ [(t, t + execution_time, Label.proc p2.pid)]
    let p3 := p2.execute execution_time
    let tEnd := t + execution_time
    let pulled := pullArrived tEnd s.remaining rest
    if p3.is_complete then
      let p4 := { p3 with completion_time := (tEnd : Int)
                          turnaround_time := (tEnd : Int) - (p3.arrival_time : Int)
                          waiting_time :=
                            ((tEnd : Int) - (p3.arrival_time : Int)) - (p3.burst_time : Int) }
      { current_time := tEnd
        gantt := gantt
        completed := s.completed ++ [p4]
        ready := pulled.2
        remaining := pulled.1 }
    else
      { current_time := tEnd
        gantt := gantt
        completed := s.completed
        ready := pulled.2 ++ [{ p3 with state := ProcessState.READY }]
        remaining := pulled.1 }

/-- One pass of the Round-Robin `while` body (idle handling inlined as
in `npStep`). -/
def rrStep (time_quantum : Nat) : LoopState → LoopState :=
  stepWith (rrDispatch time_quantum)

/-- The Round-Robin loop with explicit fuel (each pass executes at least
one unit of work, so the total remaining work is enough fuel). -/
def rrRun (time_quantum : Nat) : Nat → LoopState → Option LoopState
  | fuel, s =>
    if s.remaining.isEmpty && s.ready.isEmpty then some s
    else
      match fuel with
      | 0 => none
      | f + 1 => rrRun time_quantum f (rrStep time_quantum s)

/-- Total remaining work of a list of processes. -/
def totalRem (ps : List Process) : Nat :=
  (ps.map Process.remaining_time).sum

/-- `RoundRobinScheduler.schedule` (with its `time_quantum`). -/
def RoundRobinScheduler.schedule (processes : List Process) (time_quantum : Nat) :
    Option ScheduleResult :=
  (rrRun time_quantum (totalRem processes) (initState processes)).map
    (fun s => CPUScheduler.get_results s.completed s.gantt)

/-- Python's `min(ready_queue, key=...)`: the first element attaining the
minimum key (later elements replace the champion only on strictly
smaller keys). -/
def pyMinBy (key : Process → Int × Int × Int) : List Process → Option Process
  | [] => none
  | p :: rest =>
    some (rest.foldl (fun best x => if lexLt3 (key x) (key best) then x else best) p)

/-- The SRTF Gantt append: extend the last interval's end to `t + 1` when
its label matches, else open a new unit interval `(t, t + 1, l)`. -/
def ganttExtend (gantt : List Interval) (t : Nat) (l : Label) : List Interval :=
  match gantt.getLast? with
  | some last =>
    if last.2.2 = l then gantt.dropLast ++ [(last.1, t + 1, last.2.2)]
    else gantt ++ [(t, t + 1, l)]
  | none => gantt ++ [(t, t + 1, l)]

/-- State of the SRTF `for time in range(max_time + 1)` loop; `done`
models the `break`. -/
structure SRTFState where
  remaining : List Process
  ready : List Process
  current : Option Process
  gantt : List Interval
  completed : List Process
  done : Bool
deriving DecidableEq, Repr

/-- Completion-time bookkeeping shared by the two finalization sites of
`SRTFScheduler.schedule`. -/
def srtfFinalize (p : Process) (t : Nat) : Process :=
  { p with completion_time := (t : Int)
           turnaround_time := (t : Int) - (p.arrival_time : Int)
           waiting_time := ((t : Int) - (p.arrival_time : Int)) - (p.burst_time : Int) }

/-- One iteration of the SRTF loop at time `time` (a no-op once `done`):
(a) pull arrivals, (b) finalize a completed running process, (c) preempt
when the ready queue's minimum-key member has strictly smaller remaining
time, (d) dispatch the minimum-key ready process when the CPU is free,
(e) run one unit (or IDLE) merging the Gantt entry, (f) `break` once no
work remains. -/
def srtfStep (s : SRTFState) (time : Nat) : SRTFState :=
  if s.done then s
  else
    let pulled := pullArrived time s.remaining s.ready
    let sa := { s with remaining := pulled.1, ready := pulled.2 }
    let sb :=
      match sa.current with
      | none => sa
      | some c =>
        if c.is_complete then
          { sa with completed := sa.completed ++ [srtfFinalize c time], current := none }
        else
          match pyMinBy srtfKey sa.ready with
          | none => sa
          | some shortest =>
            if shortest.remaining_time < c.remaining_time then
              { sa with ready := sa.ready ++ [{ c with state := ProcessState.READY }]
                        current := none }
            else sa
    let sc :=
      if sb.current.isNone && !sb.ready.isEmpty then
        match sortBy (fun a b => lexLe3 (srtfKey a) (srtfKey b)) sb.ready with
        | [] => sb
        | p :: rest =>
          let p1 := { p with state := ProcessState.RUNNING }
          let p2 :=
            if p1.start_time = -1 then
              { p1 with start_time := (time : Int)
                        response_time := (time : Int) - (p1.arrival_time : Int) }
            else p1
          { sb with current := some p2, ready := rest }
      else sb
    let sd :=
      match sc.current with
      | some c =>
        { sc with gantt := ganttExtend sc.gantt time (Label.proc c.pid)
                  current := some (c.execute 1) }
      | none => { sc with gantt := ganttExtend sc.gantt time Label.idle }
    if sd.remaining.isEmpty && sd.ready.isEmpty &&
        (match sd.current with | none => true | some c => c.is_complete) then
      match sd.current with
      | some c =>
        { sd with completed := sd.completed ++ [srtfFinalize c (time + 1)]
                  current := none
                  done := true }
      | none => { sd with done := true }
    else sd

/-- Largest arrival time (`max(p.arrival_time for p in self.processes)`;
the schedulers are only invoked on non-empty inputs). -/
def maxArrival (processes : List Process) : Nat :=
  (processes.map Process.arrival_time).foldl max 0

/-- Total burst time. -/
def totalBurst (processes : List Process) : Nat :=
  (processes.map Process.burst_time).sum

/-- `max_time` bound of `SRTFScheduler.schedule`. -/
def srtfMaxTime (processes : List Process) : Nat :=
  totalBurst processes + maxArrival processes

/-- Initial SRTF state. -/
def srtfInit (processes : List Process) : SRTFState :=
  { remaining := sortBy leArrivalPid processes
    ready := []
    current := none
    gantt := []
    completed := []
    done := false }

/-- The full `for time in range(max_time + 1)` loop. -/
def srtfRun (processes : List Process) : SRTFState :=
  (List.range (srtfMaxTime processes + 1)).foldl srtfStep (srtfInit processes)

/-- `SRTFScheduler.schedule`. -/
def SRTFScheduler.schedule (processes : List Process) : ScheduleResult :=
  let s := srtfRun processes
  CPUScheduler.get_results s.completed s.gantt

/-! ### The caller's-store model of `CPUScheduler.__init__`

`__init__` deep-copies every record handed in by the caller
(`self.processes = [copy.deepcopy(p) for p in processes]`) and every
later mutation in `scheduler.py` goes through those copies.  We model
the caller's heap as a list of cells addressed by index: a run fetches
the records at the caller's indices, places independent copies in
freshly allocated cells (appended past the end of the store), computes
on the copies, and leaves their final values in the engine-owned cells. -/

def schedulerRunOnStore {α : Type} (run : List Process → List Process × α)
    (store : List Process) (ids : List Nat) : List Process × α :=
  let copies := ids.filterMap (fun i => store[i]?)
  let res := run copies
  (store ++ res.1, res.2)

/-- `FCFSScheduler.schedule` exposing the final engine-owned records. -/
def FCFSScheduler.runFull (processes : List Process) :
    List Process × ScheduleResult :=
  let sorted := sortBy leArrivalPid processes
  let acc := sorted.foldl FCFSScheduler.body (0, [], [])
  (acc.2.2, CPUScheduler.get_results acc.2.2 acc.2.1)

/-- `npSchedule` exposing the final engine-owned records. -/
def npFull (key : Process → Int × Int × Int) (processes : List Process) :
    List Process × Option ScheduleResult :=
  match npRun key processes.length (initState processes) with
  | none => ([], none)
  | some s => (s.completed, some (CPUScheduler.get_results s.completed s.gantt))

/-- `RoundRobinScheduler.schedule` exposing the final records. -/
def rrFull (time_quantum : Nat) (processes : List Process) :
    List Process × Option ScheduleResult :=
  match rrRun time_quantum (totalRem processes) (initState processes) with
  | none => ([], none)
  | some s => (s.completed, some (CPUScheduler.get_results s.completed s.gantt))

/-- `SRTFScheduler.schedule` exposing the final records. -/
def srtfFull (processes : List Process) : List Process × ScheduleResult :=
  let s := srtfRun processes
  (s.completed, CPUScheduler.get_results s.completed s.gantt)

/-! ### Property vocabulary for the claims -/

/-- `tilesB t0 g t1 = true` iff the intervals of `g` exactly tile the
half-open range `[t0, t1)` in order: each interval starts where the
previous ended, is non-degenerate, the first starts at `t0` and the
last ends at `t1`. -/
def tilesB : Nat → List Interval → Nat → Bool
  | t0, [], t1 => t0 == t1
  | t0, (s, e, _) :: rest, t1 => s == t0 && decide (s < e) && tilesB e rest t1

/-- No two consecutive intervals carry the same label. -/
def noAdjDupB : List Interval → Bool
  | [] => true
  | [_] => true
  | a :: b :: rest => decide (a.2.2 ≠ b.2.2) && noAdjDupB (b :: rest)

/-- The label of the last interval of a Gantt sequence. -/
def lastLabel (g : List Interval) : Option Label :=
  g.getLast?.map (fun iv => iv.2.2)

/-- The label of the interval covering time unit `t`. -/
def labelAt (g : List Interval) (t : Nat) : Option Label :=
  (g.find? (fun iv => decide (iv.1 ≤ t) && decide (t < iv.2.1))).map (fun iv => iv.2.2)

def maxIntOf : List Int → Int
  | [] => 0
  | x :: rest => rest.foldl max x

/-- Largest completion time among the returned statistics. -/
def maxCompletion (stats : List Stats) : Int :=
  maxIntOf (stats.map Stats.completion_time)

/-- Smallest arrival time of the input (0 for an empty input). -/
def minArrival (processes : List Process) : Nat :=
  match processes with
  | [] => 0
  | p :: rest => rest.foldl (fun m q => min m q.arrival_time) p.arrival_time

/-- The completion time reported for a given pid. -/
def completionOf (r : ScheduleResult) (pid : Nat) : Option Int :=
  (r.stats.find? (fun s => s.pid == pid)).map Stats.completion_time

/-- A record as the caller freshly constructs it (`Process.__init__` with
only the immutable inputs chosen). -/
abbrev Process.Fresh (p : Process) : Prop :=
  p = Process.init p.pid p.arrival_time p.burst_time p.priority

/-- The engine's preconditions (spec §4.2): at least one process, unique
pids, positive burst times, records freshly constructed.  (Arrival times
are `Nat`, so `arrival_time ≥ 0` is inherent.) -/
abbrev ValidInput (processes : List Process) : Prop :=
  processes ≠ [] ∧ (processes.map Process.pid).Nodup ∧
    ∀ p ∈ processes, 0 < p.burst_time ∧ p.Fresh

/-- The tiling property claimed in the spec: the Gantt sequence tiles
`[min(arrival_time), max(completion_time))`. -/
def ClaimTiling (processes : List Process) (r : ScheduleResult) : Prop :=
  ∃ tEnd : Nat, tilesB (minArrival processes) r.gantt tEnd = true ∧
    (tEnd : Int) = maxCompletion r.stats

/-- The tiling the code actually produces: the Gantt sequence tiles
`[0, max(completion_time))`. -/
def CodeTiling (r : ScheduleResult) : Prop :=
  ∃ tEnd : Nat, tilesB 0 r.gantt tEnd = true ∧
    (tEnd : Int) = maxCompletion r.stats

/-! ### Concrete inputs used by the claims -/

/-- SRTF preemption scenario of the spec: P1(0,8), P2(1,4), P3(2,2), P4(3,1). -/
def c1Input : List Process :=
  [Process.init 1 0 8 0, Process.init 2 1 4 0, Process.init 3 2 2 0, Process.init 4 3 1 0]

/-- Round-Robin fairness scenario: P1(0,5), P2(1,3), P3(2,1), quantum 2. -/
def c4Input : List Process :=
  [Process.init 1 0 5 0, Process.init 2 1 3 0, Process.init 3 2 1 0]

/-- FCFS scenario: P1(0,4), P2(1,3), P3(2,2). -/
def c8Input : List Process :=
  [Process.init 1 0 4 0, Process.init 2 1 3 0, Process.init 3 2 2 0]

/-- A single process arriving after time 0: the Gantt sequence then opens
with an IDLE interval starting at 0, below the minimum arrival time. -/
def lateArrivalInput : List Process :=
  [Process.init 1 1 1 0]

/-- A single process longer than the quantum: Round-Robin re-dispatches
it back-to-back without merging the equal-label intervals. -/
def rrUnmergedInput : List Process :=
  [Process.init 1 0 5 0]

/-- A small input with an idle gap, used to instantiate the universally
quantified theorems. -/
def witnessInput : List Process :=
  [Process.init 1 0 2 0, Process.init 2 3 1 1]

/-- A concrete mid-run Round-Robin loop state (P1 just dispatched). -/
def c4WitnessState : LoopState :=
  { current_time := 0
    gantt := []
    completed := []
    ready := [Process.init 1 0 5 0]
    remaining := [Process.init 2 1 3 0] }

/-- P1 mid-run: dispatched at 0, one unit left. -/
def c5Running : Process :=
  { Process.init 1 0 2 0 with
      state := ProcessState.RUNNING
      remaining_time := 1
      start_time := 0
      response_time := 0 }

/-- A concrete mid-run SRTF state: P1 running with 1 unit left at time 3,
P4 ready with 1 unit left (the equal-remaining-time tie). -/
def c5WitnessState : SRTFState :=
  { remaining := []
    ready := [{ Process.init 4 3 1 0 with state := ProcessState.READY }]
    current := some c5Running
    gantt := [(0, 3, Label.proc 1)]
    completed := []
    done := false }

/-- Invariant of the SJF/Priority loop, relative to the multiset `pids0`
of input pids. -/
structure NpInv (pids0 : List Nat) (s : LoopState) : Prop where
  tiles : tilesB 0 s.gantt s.current_time = true
  pidsPerm : List.Perm
    (s.completed.map Process.pid ++ s.ready.map Process.pid ++
      s.remaining.map Process.pid) pids0
  readyArr : ∀ p ∈ s.ready, p.arrival_time ≤ s.current_time
  readyBurst : ∀ p ∈ s.ready, 0 < p.burst_time
  remBurst : ∀ p ∈ s.remaining, 0 < p.burst_time
  compOk : ∀ c ∈ s.completed, 0 ≤ c.waiting_time ∧ 0 ≤ c.response_time
  compLe : ∀ c ∈ s.completed, c.completion_time ≤ (s.current_time : Int)
  doneMax : s.remaining = [] → s.ready = [] →
    s.completed ≠ [] ∧
    maxIntOf (s.completed.map Process.completion_time) = (s.current_time : Int)
  noAdj : noAdjDupB s.gantt = true
  lastLab : s.gantt = [] ∨ ∃ q, lastLabel s.gantt = some (Label.proc q) ∧
    q ∈ s.completed.map Process.pid

/-- Invariant of the Round-Robin loop, relative to the multiset `pids0`
of input pids. -/
structure RInv (pids0 : List Nat) (s : LoopState) : Prop where
  tiles : tilesB 0 s.gantt s.current_time = true
  pidsPerm : List.Perm
    (s.completed.map Process.pid ++ s.ready.map Process.pid ++
      s.remaining.map Process.pid) pids0
  readyArr : ∀ p ∈ s.ready, p.arrival_time ≤ s.current_time
  readyPos : ∀ p ∈ s.ready, 0 < p.remaining_time
  readyExec : ∀ p ∈ s.ready,
    (p.burst_time : Int) - (p.remaining_time : Int) ≤
      (s.current_time : Int) - (p.arrival_time : Int)
  readyResp : ∀ p ∈ s.ready,
    (p.start_time = -1 ∧ p.response_time = -1) ∨ 0 ≤ p.response_time
  remFresh : ∀ p ∈ s.remaining,
    p.remaining_time = p.burst_time ∧ 0 < p.burst_time ∧
      p.start_time = -1 ∧ p.response_time = -1
  compOk : ∀ c ∈ s.completed, 0 ≤ c.waiting_time ∧ 0 ≤ c.response_time
  compLe : ∀ c ∈ s.completed, c.completion_time ≤ (s.current_time : Int)
  doneMax : s.remaining = [] → s.ready = [] →
    s.completed ≠ [] ∧
    maxIntOf (s.completed.map Process.completion_time) = (s.current_time : Int)

/-! ### Phase decomposition of the SRTF loop body

`srtfStep` is the composition of the five phases below (proved by
`srtfStep_phases`); each phase is the corresponding `let` block of the
definition, split out so that the loop invariant can be threaded through
one phase at a time. -/

/-- SRTF phase (a): pull arrivals. -/
def srtfPhasePull (time : Nat) (s : SRTFState) : SRTFState :=
  let pulled := pullArrived time s.remaining s.ready
  { s with remaining := pulled.1, ready := pulled.2 }

/-- SRTF phases (b)/(c): finalize a completed running process, or preempt
it when the ready queue's minimum-key member has strictly smaller
remaining time. -/
def srtfPhaseCpu (time : Nat) (sa : SRTFState) : SRTFState :=
  match sa.current with
  | none => sa
  | some c =>
    if c.is_complete then
      { sa with completed := sa.completed ++ [srtfFinalize c time], current := none }
    else
      match pyMinBy srtfKey sa.ready with
      | none => sa
      | some shortest =>
        if shortest.remaining_time < c.remaining_time then
          { sa with ready := sa.ready ++ [{ c with state := ProcessState.READY }]
                    current := none }
        else sa

/-- SRTF phase (d): dispatch the minimum-key ready process when the CPU
is free. -/
def srtfPhaseDispatch (time : Nat) (sb : SRTFState) : SRTFState :=
  if sb.current.isNone && !sb.ready.isEmpty then
    match sortBy (fun a b => lexLe3 (srtfKey a) (srtfKey b)) sb.ready with
    | [] => sb
    | p :: rest =>
      let p1 := { p with state := ProcessState.RUNNING }
      let p2 :=
        if p1.start_time = -1 then
          { p1 with start_time := (time : Int)
                    response_time := (time : Int) - (p1.arrival_time : Int) }
        else p1
      { sb with current := some p2, ready := rest }
  else sb

/-- SRTF phase (e): run one unit (or IDLE), merging the Gantt entry. -/
def srtfPhaseRun (time : Nat) (sc : SRTFState) : SRTFState :=
  match sc.current with
  | some c =>
    { sc with gantt := ganttExtend sc.gantt time (Label.proc c.pid)
              current := some (c.execute 1) }
  | none => { sc with gantt := ganttExtend sc.gantt time Label.idle }

/-- SRTF phase (f): `break` once no work remains. -/
def srtfPhaseBreak (time : Nat) (sd : SRTFState) : SRTFState :=
  if sd.remaining.isEmpty && sd.ready.isEmpty &&
      (match sd.current with | none => true | some c => c.is_complete) then
    match sd.current with
    | some c =>
      { sd with completed := sd.completed ++ [srtfFinalize c (time + 1)]
                current := none
                done := true }
    | none => { sd with done := true }
  else sd

/-- Pid of the running SRTF process, as a (zero- or one-element) list. -/
def currentPids (s : SRTFState) : List Nat :=
  match s.current with
  | none => []
  | some c => [c.pid]

/-- Work units still held by the running SRTF process. -/
def currentRem (s : SRTFState) : Nat :=
  match s.current with
  | none => 0
  | some c => c.remaining_time

/-- Invariant of the SRTF `for` loop before iteration `t`, relative to
the input `ps` (holds while the `break` has not fired). -/
structure SInv (ps : List Process) (t : Nat) (s : SRTFState) : Prop where
  tiles : tilesB 0 s.gantt t = true
  noAdj : noAdjDupB s.gantt = true
  pidsPerm : List.Perm
    (s.completed.map Process.pid ++ currentPids s ++ s.ready.map Process.pid ++
      s.remaining.map Process.pid) (ps.map Process.pid)
  remSorted : s.remaining.Pairwise (fun a b => a.arrival_time ≤ b.arrival_time)
  remArr : ∀ p ∈ s.remaining, t ≤ p.arrival_time
  remSub : ∀ p ∈ s.remaining, p ∈ ps
  remFresh : ∀ p ∈ s.remaining,
    p.remaining_time = p.burst_time ∧ 0 < p.burst_time ∧
      p.start_time = -1 ∧ p.response_time = -1
  readyArr : ∀ p ∈ s.ready, p.arrival_time ≤ t
  readyPos : ∀ p ∈ s.ready, 0 < p.remaining_time
  readyRemLe : ∀ p ∈ s.ready, p.remaining_time ≤ p.burst_time
  readyExec : ∀ p ∈ s.ready,
    (p.burst_time : Int) - (p.remaining_time : Int) ≤ (t : Int) - (p.arrival_time : Int)
  readyResp : ∀ p ∈ s.ready,
    (p.start_time = -1 ∧ p.response_time = -1) ∨ 0 ≤ p.response_time
  curRemLe : ∀ c, s.current = some c → c.remaining_time ≤ c.burst_time
  curExec : ∀ c, s.current = some c →
    (c.burst_time : Int) - (c.remaining_time : Int) ≤ (t : Int) - (c.arrival_time : Int)
  curResp : ∀ c, s.current = some c → 0 ≤ c.response_time
  curState : ∀ c, s.current = some c → 0 < c.remaining_time →
    c.state = ProcessState.RUNNING
  curLive : ∀ c, s.current = some c → c.is_complete = true →
    ¬(s.remaining = [] ∧ s.ready = [])
  live : ¬(s.remaining = [] ∧ s.ready = [] ∧ s.current = none)
  wBound : totalRem s.remaining + totalRem s.ready + currentRem s ≤ totalBurst ps
  compOk : ∀ c ∈ s.completed, 0 ≤ c.waiting_time ∧ 0 ≤ c.response_time
  compLe : ∀ c ∈ s.completed, c.completion_time ≤ (t : Int)

/-- Facts holding of the SRTF state once the `break` has fired. -/
structure SDone (ps : List Process) (s : SRTFState) : Prop where
  remNil : s.remaining = []
  readyNil : s.ready = []
  curNone : s.current = none
  compNe : s.completed ≠ []
  tiles : ∃ tEnd : Nat, tilesB 0 s.gantt tEnd = true ∧
    maxIntOf (s.completed.map Process.completion_time) = (tEnd : Int)
  noAdj : noAdjDupB s.gantt = true
  pidsPerm : List.Perm (s.completed.map Process.pid) (ps.map Process.pid)
  compOk : ∀ c ∈ s.completed, 0 ≤ c.waiting_time ∧ 0 ≤ c.response_time

/-- Disjunctive SRTF loop invariant: either the `break` has not fired and
`SInv` holds at the current iteration index, or it has and `SDone` holds. -/
def srtfInv (ps : List Process) (t : Nat) (s : SRTFState) : Prop :=
  (s.done = false ∧ SInv ps t s) ∨ (s.done = true ∧ SDone ps s)

/-! ## Generic lemmas about the embedding's building blocks -/

theorem insertSorted_perm (le : Process → Process → Bool) (x : Process)
    (l : List Process) : List.Perm (insertSorted le x l) (x :: l) := by
  induction l with
  | nil => simp [insertSorted]
  | cons y ys ih =>
    simp only [insertSorted]
    by_cases h : le x y
    · simp [h]
    · simp only [h, if_neg, Bool.false_eq_true, not_false_eq_true]
      exact (ih.cons y).trans (List.Perm.swap x y ys)

theorem sortBy_perm (le : Process → Process → Bool) (l : List Process) :
    List.Perm (sortBy le l) l := by
  induction l with
  | nil => simp [sortBy]
  | cons x xs ih =>
    simpa [sortBy] using (insertSorted_perm le x (sortBy le xs)).trans (ih.cons x)

theorem insertSorted_pairwise {R : Process → Process → Prop}
    {le : Process → Process → Bool}
    (hF : ∀ a b, le a b = true → R a b) (hT : ∀ a b, le a b = false → R b a)
    (htrans : ∀ a b c, R a b → R b c → R a c)
    (x : Process) (l : List Process) (h : l.Pairwise R) :
    (insertSorted le x l).Pairwise R := by
  induction l with
  | nil => simp [insertSorted]
  | cons y ys ih =>
    rcases List.pairwise_cons.mp h with ⟨hy, hys⟩
    simp only [insertSorted]
    by_cases hxy : le x y = true
    · rw [if_pos hxy]
      refine List.pairwise_cons.mpr ⟨?_, h⟩
      intro z hz
      rcases List.mem_cons.mp hz with rfl | hz
      · exact hF _ _ hxy
      · exact htrans _ _ _ (hF _ _ hxy) (hy z hz)
    · rw [if_neg hxy]
      have hxy' : le x y = false := by simpa using hxy
      refine List.pairwise_cons.mpr ⟨?_, ih hys⟩
      intro z hz
      have hz' := (insertSorted_perm le x ys).mem_iff.mp hz
      rcases List.mem_cons.mp hz' with rfl | hz'
      · exact hT _ _ hxy'
      · exact hy z hz'

theorem sortBy_pairwise {R : Process → Process → Prop}
    {le : Process → Process → Bool}
    (hF : ∀ a b, le a b = true → R a b) (hT : ∀ a b, le a b = false → R b a)
    (htrans : ∀ a b c, R a b → R b c → R a c)
    (l : List Process) : (sortBy le l).Pairwise R := by
  induction l with
  | nil => simp [sortBy]
  | cons x xs ih => exact insertSorted_pairwise hF hT htrans x _ ih

/-- The initial sort leaves the private copy ordered by arrival time. -/
theorem sortBy_arrival_pairwise (l : List Process) :
    (sortBy leArrivalPid l).Pairwise (fun a b => a.arrival_time ≤ b.arrival_time) := by
  refine sortBy_pairwise ?_ ?_ ?_ l
  · intro a b h
    have := of_decide_eq_true h
    omega
  · intro a b h
    have := of_decide_eq_false h
    omega
  · intro a b c
    omega

/-- Decomposition of the arrival-pulling loop: it moves a prefix `xs` of
arrived processes (state set to READY) to the back of the ready queue and
stops at the first process that has not yet arrived. -/
theorem pullArrived_spec (t : Nat) (rem : List Process) : ∀ ready : List Process,
    ∃ xs : List Process,
      rem = xs ++ (pullArrived t rem ready).1 ∧
      (pullArrived t rem ready).2 =
        ready ++ xs.map (fun p => { p with state := ProcessState.READY }) ∧
      (∀ x ∈ xs, x.arrival_time ≤ t) ∧
      ((pullArrived t rem ready).1 = [] ∨
        ∃ y ys, (pullArrived t rem ready).1 = y :: ys ∧ t < y.arrival_time) := by
  induction rem with
  | nil => intro ready; exact ⟨[], by simp [pullArrived]⟩
  | cons p rest ih =>
    intro ready
    by_cases hp : p.arrival_time ≤ t
    · obtain ⟨xs, h1, h2, h3, h4⟩ :=
        ih (ready ++ [{ p with state := ProcessState.READY }])
      refine ⟨p :: xs, ?_, ?_, ?_, ?_⟩
      · simpa [pullArrived, hp] using h1
      · simpa [pullArrived, hp] using h2
      · intro x hx
        rcases List.mem_cons.mp hx with rfl | hx
        · exact hp
        · exact h3 x hx
      · simpa [pullArrived, hp] using h4
    · refine ⟨[], by simp [pullArrived, hp], by simp [pullArrived, hp], by simp, ?_⟩
      right
      exact ⟨p, rest, by simp [pullArrived, hp], by omega⟩

theorem tilesB_le (l : List Interval) : ∀ a b : Nat, tilesB a l b = true → a ≤ b := by
  induction l with
  | nil =>
    intro a b h
    simp only [tilesB, beq_iff_eq] at h
    omega
  | cons iv rest ih =>
    intro a b h
    obtain ⟨s, e, lab⟩ := iv
    simp only [tilesB, Bool.and_eq_true, beq_iff_eq, decide_eq_true_eq] at h
    have := ih e b h.2
    omega

theorem tilesB_bounds (l : List Interval) : ∀ a b : Nat, tilesB a l b = true →
    ∀ iv ∈ l, a ≤ iv.1 ∧ iv.1 < iv.2.1 ∧ iv.2.1 ≤ b := by
  induction l with
  | nil => intro a b _ iv hm; simp at hm
  | cons hd rest ih =>
    intro a b h iv hm
    obtain ⟨s, e, lab⟩ := hd
    simp only [tilesB, Bool.and_eq_true, beq_iff_eq, decide_eq_true_eq] at h
    obtain ⟨⟨rfl, hse⟩, hrest⟩ := h
    rcases List.mem_cons.mp hm with rfl | hm
    · exact ⟨le_refl _, hse, tilesB_le rest e b hrest⟩
    · have := ih e b hrest iv hm
      omega

/-- A tiling has no overlaps: every interval ends no later than any later
interval starts. -/
theorem tilesB_pairwise (l : List Interval) : ∀ a b : Nat, tilesB a l b = true →
    l.Pairwise (fun u v => u.2.1 ≤ v.1) := by
  induction l with
  | nil => intro a b _; simp
  | cons hd rest ih =>
    intro a b h
    obtain ⟨s, e, lab⟩ := hd
    simp only [tilesB, Bool.and_eq_true, beq_iff_eq, decide_eq_true_eq] at h
    obtain ⟨⟨rfl, _⟩, hrest⟩ := h
    refine List.pairwise_cons.mpr ⟨?_, ih e b hrest⟩
    intro v hv
    exact (tilesB_bounds rest e b hrest v hv).1

theorem tilesB_append (l : List Interval) : ∀ (a b e : Nat) (lab : Label),
    tilesB a l b = true → b < e → tilesB a (l ++ [(b, e, lab)]) e = true := by
  induction l with
  | nil =>
    intro a b e lab h hbe
    simp only [tilesB, beq_iff_eq] at h
    subst h
    simp [tilesB, hbe]
  | cons hd rest ih =>
    intro a b e lab h hbe
    obtain ⟨s, e0, lab0⟩ := hd
    simp only [tilesB, Bool.and_eq_true, beq_iff_eq, decide_eq_true_eq] at h ⊢
    exact ⟨h.1, ih e0 b e lab h.2 hbe⟩

theorem tilesB_last_end (l : List Interval) :
    ∀ (a b s e : Nat) (lab : Label),
      tilesB a (l ++ [(s, e, lab)]) b = true → b = e ∧ s < e := by
  induction l with
  | nil =>
    intro a b s e lab h
    simp only [List.nil_append, tilesB, Bool.and_eq_true, beq_iff_eq,
      decide_eq_true_eq] at h
    omega
  | cons hd rest ih =>
    intro a b s e lab h
    obtain ⟨s0, e0, lab0⟩ := hd
    simp only [List.cons_append, tilesB, Bool.and_eq_true, beq_iff_eq,
      decide_eq_true_eq] at h
    exact ih e0 b s e lab h.2

theorem tilesB_extend_last (l : List Interval) :
    ∀ (a s e e2 : Nat) (lab : Label),
      tilesB a (l ++ [(s, e, lab)]) e = true → e < e2 →
      tilesB a (l ++ [(s, e2, lab)]) e2 = true := by
  induction l with
  | nil =>
    intro a s e e2 lab h he
    simp only [List.nil_append, tilesB, Bool.and_eq_true, beq_iff_eq,
      decide_eq_true_eq] at h ⊢
    refine ⟨⟨h.1.1, ?_⟩, trivial⟩
    omega
  | cons hd rest ih =>
    intro a s e e2 lab h he
    obtain ⟨s0, e0, lab0⟩ := hd
    simp only [List.cons_append, tilesB, Bool.and_eq_true, beq_iff_eq,
      decide_eq_true_eq] at h ⊢
    exact ⟨h.1, ih e0 s e e2 lab h.2 he⟩

theorem maxIntOf_append (l : List Int) (x : Int) :
    maxIntOf (l ++ [x]) = if l = [] then x else max (maxIntOf l) x := by
  cases l with
  | nil => simp [maxIntOf]
  | cons h t => simp [maxIntOf, List.foldl_append]

theorem pyMinBy_mem (key : Process → Int × Int × Int) (l : List Process)
    (m : Process) (h : pyMinBy key l = some m) : m ∈ l := by
  cases l with
  | nil => simp [pyMinBy] at h
  | cons p rest =>
    simp only [pyMinBy, Option.some.injEq] at h
    subst h
    induction rest generalizing p with
    | nil => simp
    | cons x xs ih =>
      simp only [List.foldl_cons]
      by_cases hc : lexLt3 (key x) (key p)
      · simp only [hc, if_pos]
        have := ih x
        simp only [List.mem_cons] at this ⊢
        tauto
      · simp only [hc, if_neg, Bool.false_eq_true, not_false_eq_true]
        have := ih p
        simp only [List.mem_cons] at this ⊢
        tauto

theorem noAdjDupB_append (g : List Interval) (iv : Interval)
    (h : noAdjDupB g = true)
    (hlast : ∀ lab, lastLabel g = some lab → lab ≠ iv.2.2) :
    noAdjDupB (g ++ [iv]) = true := by
  induction g with
  | nil => simp [noAdjDupB]
  | cons a tail ih =>
    cases tail with
    | nil =>
      have ha := hlast a.2.2 (by simp [lastLabel])
      simp [noAdjDupB, ha]
    | cons b rest =>
      simp only [noAdjDupB, Bool.and_eq_true] at h
      have := ih h.2 (fun lab hl => hlast lab (by
        simp only [lastLabel, List.getLast?_cons_cons] at hl ⊢
        exact hl))
      simp only [List.cons_append, noAdjDupB, Bool.and_eq_true]
      refine ⟨by simpa using h.1, ?_⟩
      simpa [List.cons_append] using this

theorem noAdjDupB_set_last (g : List Interval) (s e e2 : Nat) (lab : Label) :
    noAdjDupB (g ++ [(s, e, lab)]) = noAdjDupB (g ++ [(s, e2, lab)]) := by
  induction g with
  | nil => simp [noAdjDupB]
  | cons a tail ih =>
    cases tail with
    | nil => simp [noAdjDupB]
    | cons b rest =>
      calc noAdjDupB ((a :: b :: rest) ++ [(s, e, lab)])
          = (decide (a.2.2 ≠ b.2.2) && noAdjDupB ((b :: rest) ++ [(s, e, lab)])) := rfl
        _ = (decide (a.2.2 ≠ b.2.2) && noAdjDupB ((b :: rest) ++ [(s, e2, lab)])) := by
            rw [ih]
        _ = noAdjDupB ((a :: b :: rest) ++ [(s, e2, lab)]) := rfl

theorem tilesB_ganttExtend (g : List Interval) (t : Nat) (lab : Label)
    (h : tilesB 0 g t = true) :
    tilesB 0 (ganttExtend g t lab) (t + 1) = true := by
  rcases List.eq_nil_or_concat g with rfl | ⟨g0, iv, rfl⟩
  · have ht : (0 : Nat) = t := by simpa [tilesB] using h
    subst ht
    simp [ganttExtend, tilesB]
  · rw [List.concat_eq_append] at h ⊢
    obtain ⟨s, e, lab0⟩ := iv
    have hle := tilesB_last_end g0 0 t s e lab0 h
    by_cases hl : lab0 = lab
    · simp only [ganttExtend, List.getLast?_concat, hl, if_pos, List.dropLast_concat]
      have h' : tilesB 0 (g0 ++ [(s, e, lab0)]) e = true := hle.1 ▸ h
      have := tilesB_extend_last g0 0 s e (t + 1) lab0 h' (by omega)
      simpa [hl] using this
    · simp only [ganttExtend, List.getLast?_concat, hl, if_neg]
      exact tilesB_append _ 0 t (t + 1) lab h (by omega)

theorem noAdjDupB_ganttExtend (g : List Interval) (t : Nat) (lab : Label)
    (h : noAdjDupB g = true) :
    noAdjDupB (ganttExtend g t lab) = true := by
  rcases List.eq_nil_or_concat g with rfl | ⟨g0, iv, rfl⟩
  · simp [ganttExtend, noAdjDupB]
  · rw [List.concat_eq_append] at h ⊢
    obtain ⟨s, e, lab0⟩ := iv
    by_cases hl : lab0 = lab
    · subst hl
      simp only [ganttExtend, List.getLast?_concat, if_pos, List.dropLast_concat]
      exact (noAdjDupB_set_last g0 s e (t + 1) lab0 ▸ h : _)
    · simp only [ganttExtend, List.getLast?_concat, hl, if_neg]
      exact noAdjDupB_append _ _ h (by
        intro lab2 hl2
        simp only [lastLabel, List.getLast?_concat, Option.map_some] at hl2
        cases hl2
        simpa using hl)

theorem lastLabel_ganttExtend (g : List Interval) (t : Nat) (lab : Label) :
    lastLabel (ganttExtend g t lab) = some lab := by
  rcases List.eq_nil_or_concat g with rfl | ⟨g0, iv, rfl⟩
  · simp [ganttExtend, lastLabel]
  · rw [List.concat_eq_append]
    obtain ⟨s, e, lab0⟩ := iv
    by_cases hl : lab0 = lab
    · simp [ganttExtend, List.getLast?_concat, hl, lastLabel]
    · simp [ganttExtend, List.getLast?_concat, hl, lastLabel]

theorem lastLabel_append (g : List Interval) (iv : Interval) :
    lastLabel (g ++ [iv]) = some iv.2.2 := by
  simp [lastLabel, List.getLast?_concat]

/-- Casting an integer list sum into `ℚ` elementwise. -/
theorem castSumInt (l : List Int) :
    ((l.sum : Int) : ℚ) = (l.map (Int.cast : Int → ℚ)).sum := by
  induction l with
  | nil => simp
  | cons x xs ih => simp [ih]

/-- `Process.execute` on a RUNNING process. -/
theorem execute_running (p : Process) (k : Nat)
    (hs : p.state = ProcessState.RUNNING) :
    p.execute k = { p with
      remaining_time := p.remaining_time - min k p.remaining_time
      state := if p.remaining_time - min k p.remaining_time = 0 then
          ProcessState.TERMINATED else ProcessState.RUNNING } := by
  simp [Process.execute, hs]

/-! ## Claim C1 (corrected) -/

/-- C1 as stated is false: on P1(0,8), P2(1,4), P3(2,2), P4(3,1), SRTF
does NOT run P4 at time 3 (P3 and P4 tie at one remaining unit and the
strict `<` preemption test leaves P3 running), and P1 completes at 15
(the sum of all bursts), not 16. -/
theorem c1_counterexample :
    ¬ (labelAt (SRTFScheduler.schedule c1Input).gantt 3 = some (Label.proc 4) ∧
       completionOf (SRTFScheduler.schedule c1Input) 1 = some 16) := by
  decide

/-- C1 amended: on P1(0,8), P2(1,4), P3(2,2), P4(3,1), the process
occupying the CPU during time unit 3 is P3 (equal remaining times do not
preempt), and P1's completion_time in the returned statistics is 15. -/
theorem c1_amended :
    labelAt (SRTFScheduler.schedule c1Input).gantt 3 = some (Label.proc 3) ∧
    completionOf (SRTFScheduler.schedule c1Input) 1 = some 15 := by
  decide

/-! ## Claim C8 (confirmed) -/

/-- C8: FCFS on P1(0,4), P2(1,3), P3(2,2) reports completion times
4, 7, 9, turnaround times 4, 6, 7 and waiting times 0, 3, 5. -/
theorem c8_theorem :
    (FCFSScheduler.schedule c8Input).stats.map
        (fun s => (s.pid, s.completion_time, s.turnaround_time, s.waiting_time)) =
      [(1, 4, 4, 0), (2, 7, 6, 3), (3, 9, 7, 5)] := by
  decide

/-! ## Claim C2, counterexample part -/

/-- C2 as stated is false: for FCFS on the single process P1(arrival=1,
burst=1), the Gantt sequence opens with an IDLE interval starting at
time 0, so it does not tile `[min(arrival_time), max(completion_time))`
(which would start at 1): simulated time always starts at 0. -/
theorem c2_counterexample :
    ¬ ClaimTiling lateArrivalInput (FCFSScheduler.schedule lateArrivalInput) := by
  rintro ⟨tEnd, h, -⟩
  have hg : (FCFSScheduler.schedule lateArrivalInput).gantt =
      [(0, 1, Label.idle), (1, 2, Label.proc 1)] := by decide
  have hm : minArrival lateArrivalInput = 1 := by decide
  rw [hg, hm] at h
  simp [tilesB] at h

/-! ## Claim C3, counterexample part -/

/-- C3 as stated is false: Round-Robin appends one Gantt interval per
dispatch without merging, so a process re-dispatched back-to-back
(here P1(0,5) with quantum 2) yields the adjacent equal-label intervals
(0,2,P1),(2,4,P1). -/
theorem c3_counterexample :
    (RoundRobinScheduler.schedule rrUnmergedInput 2).map
        (fun r => (r.gantt, noAdjDupB r.gantt)) =
      some ([(0, 2, Label.proc 1), (2, 4, Label.proc 1), (4, 5, Label.proc 1)], false) := by
  decide

/-! ## Claim C10 (confirmed) -/

/-- C10: metrics aggregation returns `none` (the empty dict) when no
process has completed — no division by zero — and otherwise the
arithmetic means of turnaround, waiting and response time rounded to two
decimal places together with the completed count. -/
theorem c10_theorem :
    CPUScheduler.calculate_metrics [] = none ∧
    ∀ completed : List Process, completed ≠ [] →
      CPUScheduler.calculate_metrics completed =
        some { avg_turnaround_time :=
                 round2 ((((completed.map Process.turnaround_time).sum : Int) : ℚ) /
                   (completed.length : ℚ))
               avg_waiting_time :=
                 round2 ((((completed.map Process.waiting_time).sum : Int) : ℚ) /
                   (completed.length : ℚ))
               avg_response_time :=
                 round2 ((((completed.map Process.response_time).sum : Int) : ℚ) /
                   (completed.length : ℚ))
               total_processes := completed.length } := by
  constructor
  · rfl
  · intro completed hne
    have hn : completed.length ≠ 0 := by simpa using hne
    simp only [CPUScheduler.calculate_metrics, hn, if_false, Option.some.injEq,
      Metrics.mk.injEq, ite_false]
    refine ⟨?_, ?_, ?_, trivial⟩
    all_goals
      rw [castSumInt, List.map_map]
      rfl

/-- Witness for C10's non-empty branch at the one-element list. -/
theorem c10_witness :
    [Process.init 1 0 2 0] ≠ ([] : List Process) ∧
    CPUScheduler.calculate_metrics [Process.init 1 0 2 0] =
      some { avg_turnaround_time :=
               round2 (((([Process.init 1 0 2 0].map Process.turnaround_time).sum : Int) : ℚ) /
                 (([Process.init 1 0 2 0] : List Process).length : ℚ))
             avg_waiting_time :=
               round2 (((([Process.init 1 0 2 0].map Process.waiting_time).sum : Int) : ℚ) /
                 (([Process.init 1 0 2 0] : List Process).length : ℚ))
             avg_response_time :=
               round2 (((([Process.init 1 0 2 0].map Process.response_time).sum : Int) : ℚ) /
                 (([Process.init 1 0 2 0] : List Process).length : ℚ))
             total_processes := ([Process.init 1 0 2 0] : List Process).length } :=
  ⟨by decide, c10_theorem.2 [Process.init 1 0 2 0] (by decide)⟩

/-! ## Claim C6 (confirmed) -/

/-- C6: a schedule run operates on deep copies placed in engine-owned
cells, so the caller's records are unchanged by the run, and the result
is a function of the fetched records alone, so two runs constructed from
the same input sequence return identical statistics, metrics and Gantt
sequences.  `run` ranges over the record-and-result semantics of any of
the five policies (`FCFSScheduler.runFull`, `npFull sjfKey`,
`npFull priorityKey`, `rrFull q`, `srtfFull`). -/
theorem c6_theorem {α : Type} (run : List Process → List Process × α)
    (store : List Process) (ids : List Nat) :
    (∀ i, i < store.length →
      (schedulerRunOnStore run store ids).1[i]? = store[i]?) ∧
    (∀ (store2 : List Process) (ids2 : List Nat),
      ids.filterMap (fun i => store[i]?) = ids2.filterMap (fun i => store2[i]?) →
      (schedulerRunOnStore run store ids).2 = (schedulerRunOnStore run store2 ids2).2) := by
  constructor
  · intro i hi
    simp only [schedulerRunOnStore]
    exact List.getElem?_append_left hi
  · intro store2 ids2 hread
    simp only [schedulerRunOnStore, hread]

/-- Witness for C6: an FCFS run over a two-cell store leaves the caller's
first cell untouched, and a Round-Robin run over two stores holding equal
records returns the same result. -/
theorem c6_witness :
    (0 < witnessInput.length ∧
      (schedulerRunOnStore FCFSScheduler.runFull witnessInput [0, 1]).1[0]? =
        witnessInput[0]?) ∧
    ([0, 1].filterMap (fun i => witnessInput[i]?) =
        [0, 1].filterMap (fun i => witnessInput[i]?) ∧
      (schedulerRunOnStore (rrFull 2) witnessInput [0, 1]).2 =
        (schedulerRunOnStore (rrFull 2) witnessInput [0, 1]).2) :=
  ⟨⟨by decide,
      (c6_theorem FCFSScheduler.runFull witnessInput [0, 1]).1 0 (by decide)⟩,
    ⟨rfl,
      (c6_theorem (rrFull 2) witnessInput [0, 1]).2 witnessInput [0, 1] rfl⟩⟩

/-! ## Claim C4 (confirmed) -/

/-- C4: after a Round-Robin quantum in which the dispatched process does
not finish, every process that arrived by the new current time is pulled
into the ready queue before the just-run process is re-enqueued (the
incumbent always goes last), and in particular with quantum 2 on P1(0,5),
P2(1,3), P3(2,1) the Gantt sequence begins (0,2,P1), (2,4,P2). -/
theorem c4_theorem :
    (∀ (time_quantum : Nat) (s : LoopState) (p : Process) (rest : List Process),
        s.ready = p :: rest →
        min time_quantum p.remaining_time < p.remaining_time →
        ∃ (newlyArrived : List Process) (incumbent : Process),
          incumbent.pid = p.pid ∧
          (rrDispatch time_quantum s).ready = rest ++ newlyArrived ++ [incumbent] ∧
          (∀ x ∈ newlyArrived,
            x.arrival_time ≤ s.current_time + min time_quantum p.remaining_time) ∧
          (s.remaining.Pairwise (fun a b => a.arrival_time ≤ b.arrival_time) →
            ∀ x ∈ (rrDispatch time_quantum s).remaining,
              s.current_time + min time_quantum p.remaining_time < x.arrival_time)) ∧
    (RoundRobinScheduler.schedule c4Input 2).map (fun r => r.gantt.take 2) =
      some [(0, 2, Label.proc 1), (2, 4, Label.proc 2)] := by
  constructor
  · intro time_quantum s p rest hready hlt
    have hmin : min (min time_quantum p.remaining_time) p.remaining_time
        = min time_quantum p.remaining_time := by omega
    have hne : ¬(p.remaining_time - min time_quantum p.remaining_time = 0) := by omega
    obtain ⟨xs, h1, h2, h3, h4⟩ :=
      pullArrived_spec (s.current_time + min time_quantum p.remaining_time) s.remaining rest
    refine ⟨xs.map (fun y => { y with state := ProcessState.READY }),
      (if p.start_time = -1 then
        { p with state := ProcessState.READY
                 remaining_time := p.remaining_time - min time_quantum p.remaining_time
                 start_time := (s.current_time : Int)
                 response_time := (s.current_time : Int) - (p.arrival_time : Int) }
       else
        { p with state := ProcessState.READY
                 remaining_time := p.remaining_time - min time_quantum p.remaining_time }),
      ?_, ?_, ?_, ?_⟩
    · by_cases hst : p.start_time = -1 <;> simp [hst]
    · by_cases hst : p.start_time = -1 <;>
        simp [rrDispatch, hready, hst, Process.execute, Process.is_complete, hmin, hne,
          h2, List.append_assoc]
    · intro x hx
      simp only [List.mem_map] at hx
      obtain ⟨y, hy, rfl⟩ := hx
      simpa using h3 y hy
    · intro hsort x hxm
      have hrem : (rrDispatch time_quantum s).remaining =
          (pullArrived (s.current_time + min time_quantum p.remaining_time)
            s.remaining rest).1 := by
        by_cases hst : p.start_time = -1 <;>
          simp [rrDispatch, hready, hst, Process.execute, Process.is_complete, hmin, hne]
      rw [hrem] at hxm
      rcases h4 with hnil | ⟨y, ys, heq, hy⟩
      · rw [hnil] at hxm
        simp at hxm
      · rw [heq] at hxm
        have hsub : (y :: ys).Pairwise (fun a b => a.arrival_time ≤ b.arrival_time) := by
          rw [h1, heq] at hsort
          exact hsort.sublist (List.sublist_append_right _ _)
        rcases List.mem_cons.mp hxm with rfl | hxm
        · exact hy
        · have := (List.pairwise_cons.mp hsub).1 x hxm
          omega
  · decide

/-- Witness for C4's universal part: quantum 2 dispatching P1(0,5) from
`c4WitnessState` (P2(1,3) still unscheduled). -/
theorem c4_witness :
    c4WitnessState.ready = Process.init 1 0 5 0 :: [] ∧
    min 2 (Process.init 1 0 5 0).remaining_time < (Process.init 1 0 5 0).remaining_time ∧
    ∃ (newlyArrived : List Process) (incumbent : Process),
      incumbent.pid = (Process.init 1 0 5 0).pid ∧
      (rrDispatch 2 c4WitnessState).ready = [] ++ newlyArrived ++ [incumbent] ∧
      (∀ x ∈ newlyArrived,
        x.arrival_time ≤ c4WitnessState.current_time +
          min 2 (Process.init 1 0 5 0).remaining_time) ∧
      (c4WitnessState.remaining.Pairwise (fun a b => a.arrival_time ≤ b.arrival_time) →
        ∀ x ∈ (rrDispatch 2 c4WitnessState).remaining,
          c4WitnessState.current_time +
            min 2 (Process.init 1 0 5 0).remaining_time < x.arrival_time) :=
  ⟨by decide, by decide,
    c4_theorem.1 2 c4WitnessState (Process.init 1 0 5 0) [] (by decide) (by decide)⟩

/-! ## Claim C5 (confirmed) -/

/-- C5: in SRTF, when the minimum remaining time in the (post-arrival)
ready queue equals the running process's remaining time, the strict `<`
preemption test fails and the running process keeps the CPU for the next
unit: the step's Gantt entry carries its label and it remains the current
process after executing one unit. -/
theorem c5_theorem (s : SRTFState) (time : Nat) (c : Process)
    (hdone : s.done = false)
    (hcur : s.current = some c)
    (hnc : c.is_complete = false)
    (hne2 : (pullArrived time s.remaining s.ready).2 ≠ [])
    (hmin : ∀ x ∈ (pullArrived time s.remaining s.ready).2,
      c.remaining_time ≤ x.remaining_time) :
    (srtfStep s time).current = some (c.execute 1) ∧
    (srtfStep s time).gantt = ganttExtend s.gantt time (Label.proc c.pid) := by
  rcases hready : (pullArrived time s.remaining s.ready).2 with - | ⟨r, rs⟩
  · exact absurd hready hne2
  · have hm : (rs.foldl
        (fun best x => if lexLt3 (srtfKey x) (srtfKey best) then x else best) r) ∈
        r :: rs :=
      pyMinBy_mem srtfKey (r :: rs) _ rfl
    have hnotlt : ¬ ((rs.foldl
        (fun best x => if lexLt3 (srtfKey x) (srtfKey best) then x else best)
          r).remaining_time < c.remaining_time) :=
      not_lt.mpr (hmin _ (hready ▸ hm))
    constructor <;>
      simp [srtfStep, hdone, hcur, hready, hnc, pyMinBy, hnotlt]

/-- Witness for C5: at time 3, P1 (1 unit left) keeps the CPU over the
equally short P4 in `c5WitnessState`. -/
theorem c5_witness :
    (srtfStep c5WitnessState 3).current = some (c5Running.execute 1) ∧
    (srtfStep c5WitnessState 3).gantt =
      ganttExtend c5WitnessState.gantt 3 (Label.proc c5Running.pid) :=
  c5_theorem c5WitnessState 3 c5Running (by decide) rfl (by decide) (by decide)
    (by decide)

/-! ## FCFS master induction -/

theorem map_pid_setReady (xs : List Process) :
    (xs.map (fun y => { y with state := ProcessState.READY })).map Process.pid =
      xs.map Process.pid := by
  rw [List.map_map]
  rfl

theorem fcfs_fold (l : List Process) :
    ∀ (t : Nat) (g : List Interval) (comp : List Process),
      (comp.map Process.pid ++ l.map Process.pid).Nodup →
      (∀ p ∈ l, 0 < p.burst_time) →
      tilesB 0 g t = true →
      (comp = [] → t = 0 ∧ g = []) →
      (comp ≠ [] → maxIntOf (comp.map Process.completion_time) = (t : Int)) →
      (∀ c ∈ comp, 0 ≤ c.waiting_time ∧ 0 ≤ c.response_time) →
      noAdjDupB g = true →
      (g = [] ∨ ∃ q, lastLabel g = some (Label.proc q) ∧ q ∈ comp.map Process.pid) →
      tilesB 0 (l.foldl FCFSScheduler.body (t, g, comp)).2.1
          (l.foldl FCFSScheduler.body (t, g, comp)).1 = true ∧
      ((l.foldl FCFSScheduler.body (t, g, comp)).2.2 = [] →
        (l.foldl FCFSScheduler.body (t, g, comp)).1 = 0 ∧
        (l.foldl FCFSScheduler.body (t, g, comp)).2.1 = []) ∧
      ((l.foldl FCFSScheduler.body (t, g, comp)).2.2 ≠ [] →
        maxIntOf ((l.foldl FCFSScheduler.body (t, g, comp)).2.2.map
            Process.completion_time) =
          ((l.foldl FCFSScheduler.body (t, g, comp)).1 : Int)) ∧
      (∀ c ∈ (l.foldl FCFSScheduler.body (t, g, comp)).2.2,
        0 ≤ c.waiting_time ∧ 0 ≤ c.response_time) ∧
      noAdjDupB (l.foldl FCFSScheduler.body (t, g, comp)).2.1 = true ∧
      (l.foldl FCFSScheduler.body (t, g, comp)).2.2.map Process.pid =
        comp.map Process.pid ++ l.map Process.pid := by
  induction l with
  | nil =>
    intro t g comp _ _ htiles hempty hmax hcomp hnoadj _
    exact ⟨htiles, hempty, hmax, hcomp, hnoadj, by simp⟩
  | cons p rest ih =>
    intro t g comp hnodup hburst htiles hempty hmax hcomp hnoadj hlast
    have hpb : 0 < p.burst_time := hburst p (List.mem_cons_self p rest)
    set t1 := if t < p.arrival_time then p.arrival_time else t with ht1
    set g1 := if t < p.arrival_time then g ++ [(t, p.arrival_time, Label.idle)] else g
      with hg1
    set p2 : Process := { p with
        state := ProcessState.TERMINATED
        remaining_time := 0
        start_time := (t1 : Int)
        response_time := (t1 : Int) - (p.arrival_time : Int)
        completion_time := ((t1 + p.burst_time : Nat) : Int)
        turnaround_time := ((t1 + p.burst_time : Nat) : Int) - (p.arrival_time : Int)
        waiting_time := (((t1 + p.burst_time : Nat) : Int) - (p.arrival_time : Int)) -
          (p.burst_time : Int) } with hp2
    have htle : t ≤ t1 := by
      rw [ht1]; split <;> omega
    have harr : p.arrival_time ≤ t1 := by
      rw [ht1]; split <;> omega
    have hbody : FCFSScheduler.body (t, g, comp) p =
        (t1 + p.burst_time, g1 ++ [(t1, t1 + p.burst_time, Label.proc p.pid)],
          comp ++ [p2]) := rfl
    have htiles1 : tilesB 0 g1 t1 = true := by
      rw [hg1, ht1]
      split
      · next hidle => exact tilesB_append g 0 t p.arrival_time Label.idle htiles (by omega)
      · exact htiles
    have hnoadj1 : noAdjDupB g1 = true := by
      rw [hg1]
      split
      · refine noAdjDupB_append g _ hnoadj ?_
        intro lab hl
        rcases hlast with rfl | ⟨q, hq, -⟩
        · simp [lastLabel] at hl
        · rw [hq] at hl
          cases hl
          simp
      · exact hnoadj
    have hnodup1 : ((comp ++ [p2]).map Process.pid ++ rest.map Process.pid).Nodup := by
      have h2 := hnodup
      simp only [List.map_cons] at h2
      simpa [hp2, List.append_assoc] using h2
    have hburst1 : ∀ q ∈ rest, 0 < q.burst_time :=
      fun q hq => hburst q (List.mem_cons_of_mem p hq)
    have htiles2 : tilesB 0 (g1 ++ [(t1, t1 + p.burst_time, Label.proc p.pid)])
        (t1 + p.burst_time) = true :=
      tilesB_append g1 0 t1 (t1 + p.burst_time) (Label.proc p.pid) htiles1 (by omega)
    have hempty2 : comp ++ [p2] = [] → t1 + p.burst_time = 0 ∧
        g1 ++ [(t1, t1 + p.burst_time, Label.proc p.pid)] = [] := by
      intro habs
      exact absurd habs (by simp)
    have hmax2 : comp ++ [p2] ≠ [] →
        maxIntOf ((comp ++ [p2]).map Process.completion_time) =
          ((t1 + p.burst_time : Nat) : Int) := by
      intro _
      rw [List.map_append]
      have hone : [p2].map Process.completion_time = [((t1 + p.burst_time : Nat) : Int)] := by
        simp [hp2]
      rw [hone, maxIntOf_append]
      by_cases hc : comp = []
      · subst hc
        simp
      · have hmn : comp.map Process.completion_time ≠ [] := by
          simpa using hc
        rw [if_neg hmn, hmax hc]
        refine max_eq_right ?_
        push_cast
        omega
    have hcomp2 : ∀ c ∈ comp ++ [p2], 0 ≤ c.waiting_time ∧ 0 ≤ c.response_time := by
      intro c hc
      rcases List.mem_append.mp hc with hc | hc
      · exact hcomp c hc
      · rcases List.mem_singleton.mp hc with rfl
        rw [hp2]
        constructor
        · simp only
          omega
        · simp only
          omega
    have hnoadj2 : noAdjDupB (g1 ++ [(t1, t1 + p.burst_time, Label.proc p.pid)]) = true := by
      refine noAdjDupB_append g1 _ hnoadj1 ?_
      intro lab hl
      rw [hg1] at hl
      by_cases hidle : t < p.arrival_time
      · rw [if_pos hidle, lastLabel_append] at hl
        cases hl
        simp
      · rw [if_neg hidle] at hl
        rcases hlast with rfl | ⟨q, hq, hqmem⟩
        · simp [lastLabel] at hl
        · rw [hq] at hl
          cases hl
          simp only [ne_eq, Label.proc.injEq]
          intro hqp
          subst hqp
          have hn : (comp.map Process.pid ++ (p :: rest).map Process.pid).Nodup := hnodup
          rw [List.nodup_append] at hn
          exact hn.2.2 hqmem (by simp)
    have hlast2 : g1 ++ [(t1, t1 + p.burst_time, Label.proc p.pid)] = [] ∨
        ∃ q, lastLabel (g1 ++ [(t1, t1 + p.burst_time, Label.proc p.pid)]) =
          some (Label.proc q) ∧ q ∈ (comp ++ [p2]).map Process.pid := by
      right
      refine ⟨p.pid, by rw [lastLabel_append], ?_⟩
      simp [hp2]
    have hres := ih (t1 + p.burst_time) (g1 ++ [(t1, t1 + p.burst_time, Label.proc p.pid)])
      (comp ++ [p2]) hnodup1 hburst1 htiles2 hempty2 hmax2 hcomp2 hnoadj2 hlast2
    rw [List.foldl_cons, hbody]
    refine ⟨hres.1, hres.2.1, hres.2.2.1, hres.2.2.2.1, hres.2.2.2.2.1, ?_⟩
    rw [hres.2.2.2.2.2]
    simp [hp2, List.append_assoc]

theorem stats_pid_map (comp : List Process) :
    (comp.map Process.get_statistics).map Stats.pid = comp.map Process.pid := by
  rw [List.map_map]
  rfl

theorem stats_completion_map (comp : List Process) :
    (comp.map Process.get_statistics).map Stats.completion_time =
      comp.map Process.completion_time := by
  rw [List.map_map]
  rfl

/-- Bundle of facts about one FCFS run on a valid input: tiling of
`[0, max completion)`, merged adjacent labels, one statistics entry per
input pid, and non-negative waiting/response times. -/
theorem fcfs_master (ps : List Process) (hv : ValidInput ps) :
    ∃ tEnd : Nat,
      tilesB 0 (FCFSScheduler.schedule ps).gantt tEnd = true ∧
      (tEnd : Int) = maxCompletion (FCFSScheduler.schedule ps).stats ∧
      noAdjDupB (FCFSScheduler.schedule ps).gantt = true ∧
      List.Perm ((FCFSScheduler.schedule ps).stats.map Stats.pid)
        (ps.map Process.pid) ∧
      ∀ st ∈ (FCFSScheduler.schedule ps).stats,
        0 ≤ st.waiting_time ∧ 0 ≤ st.response_time := by
  obtain ⟨hne, hnodup, hpos⟩ := hv
  have hperm : List.Perm ((sortBy leArrivalPid ps).map Process.pid)
      (ps.map Process.pid) := (sortBy_perm leArrivalPid ps).map Process.pid
  have hsnodup : (([] : List Process).map Process.pid ++
      (sortBy leArrivalPid ps).map Process.pid).Nodup := by
    simpa using hperm.nodup_iff.mpr hnodup
  have hsburst : ∀ p ∈ sortBy leArrivalPid ps, 0 < p.burst_time := by
    intro p hp
    have : p ∈ ps := (sortBy_perm leArrivalPid ps).mem_iff.mp hp
    exact (hpos p this).1
  have hres := fcfs_fold (sortBy leArrivalPid ps) 0 [] [] hsnodup hsburst
    (by rfl) (fun _ => ⟨rfl, rfl⟩) (fun h => absurd rfl h) (by simp)
    (by rfl) (Or.inl rfl)
  obtain ⟨htiles, -, hmax, hcomp, hnoadj, hpids⟩ := hres
  set acc := (sortBy leArrivalPid ps).foldl FCFSScheduler.body (0, [], []) with hacc
  have hgantt : (FCFSScheduler.schedule ps).gantt = acc.2.1 := rfl
  have hstats : (FCFSScheduler.schedule ps).stats =
      acc.2.2.map Process.get_statistics := rfl
  have hcompne : acc.2.2 ≠ [] := by
    intro habs
    have : acc.2.2.map Process.pid = [] := by rw [habs]; rfl
    rw [hpids] at this
    simp only [List.map_nil, List.nil_append] at this
    have : ps.map Process.pid = [] := List.Perm.eq_nil (this ▸ hperm.symm)
    exact hne (by simpa using this)
  refine ⟨acc.1, ?_, ?_, ?_, ?_, ?_⟩
  · rw [hgantt]
    exact htiles
  · rw [hstats, maxCompletion, stats_completion_map]
    exact (hmax hcompne).symm
  · rw [hgantt]
    exact hnoadj
  · rw [hstats, stats_pid_map, hpids]
    simpa using hperm
  · intro st hst
    rw [hstats] at hst
    obtain ⟨c, hc, rfl⟩ := List.mem_map.mp hst
    have := hcomp c hc
    exact ⟨this.1, this.2⟩

theorem totalRem_append (l1 l2 : List Process) :
    totalRem (l1 ++ l2) = totalRem l1 + totalRem l2 := by
  simp [totalRem]

theorem totalRem_setReady (xs : List Process) :
    totalRem (xs.map (fun y => { y with state := ProcessState.READY })) =
      totalRem xs := by
  have hfun : (fun y => ({ y with state := ProcessState.READY } : Process).remaining_time) =
      Process.remaining_time := funext fun y => rfl
  simp [totalRem, List.map_map, Function.comp_def, hfun]

/-- The shared pre-dispatch phase of one SJF/Priority/Round-Robin loop
pass: pull arrivals and, if the queue is still empty, emit the IDLE
interval up to the next arrival and pull again.  The dispatch action is
then invoked on a state `s1` with a non-empty ready queue whose
components relate to `s` as listed. -/
theorem stepWith_pre (dispatch : LoopState → LoopState) (s : LoopState)
    (hne : ¬(s.remaining = [] ∧ s.ready = []))
    (htiles : tilesB 0 s.gantt s.current_time = true)
    (hreadyArr : ∀ p ∈ s.ready, p.arrival_time ≤ s.current_time) :
    ∃ s1 : LoopState,
      stepWith dispatch s = dispatch s1 ∧
      s1.ready ≠ [] ∧
      s1.completed = s.completed ∧
      s.current_time ≤ s1.current_time ∧
      s1.remaining.length + s1.ready.length =
        s.remaining.length + s.ready.length ∧
      totalRem s1.remaining + totalRem s1.ready =
        totalRem s.remaining + totalRem s.ready ∧
      List.Perm (s1.ready.map Process.pid ++ s1.remaining.map Process.pid)
        (s.ready.map Process.pid ++ s.remaining.map Process.pid) ∧
      tilesB 0 s1.gantt s1.current_time = true ∧
      (noAdjDupB s.gantt = true →
        (s.gantt = [] ∨ ∃ q, lastLabel s.gantt = some (Label.proc q) ∧
          q ∈ s.completed.map Process.pid) →
        noAdjDupB s1.gantt = true ∧
        (s1.gantt = [] ∨ lastLabel s1.gantt = some Label.idle ∨
          ∃ q, lastLabel s1.gantt = some (Label.proc q) ∧
            q ∈ s1.completed.map Process.pid)) ∧
      (∀ p ∈ s1.ready, p.arrival_time ≤ s1.current_time) ∧
      (∀ p ∈ s1.ready, p ∈ s.ready ∨ ∃ x ∈ s.remaining,
        p = { x with state := ProcessState.READY }) ∧
      (∀ p ∈ s1.remaining, p ∈ s.remaining) := by
  obtain ⟨xs, h1, h2, h3, h4⟩ :=
    pullArrived_spec s.current_time s.remaining s.ready
  rcases hP2 : (pullArrived s.current_time s.remaining s.ready).2 with - | ⟨r, rs⟩
  · -- ready still empty after the pull: the idle path
    rw [hP2] at h2
    have hready0 : s.ready = [] := by
      rcases List.append_eq_nil.mp h2.symm with ⟨ha, -⟩
      exact ha
    have hxs0 : xs = [] := by
      rcases List.append_eq_nil.mp h2.symm with ⟨-, hb⟩
      exact List.map_eq_nil_iff.mp hb
    rw [hxs0, List.nil_append] at h1
    have hrem_ne : s.remaining ≠ [] := fun habs => hne ⟨habs, hready0⟩
    rcases h4 with hnil | ⟨y, ys, hyy, hty⟩
    · exact absurd (h1.trans hnil) hrem_ne
    obtain ⟨xs2, g1, g2, g3, g4⟩ :=
      pullArrived_spec y.arrival_time (y :: ys) []
    rw [List.nil_append] at g2
    refine ⟨{ current_time := y.arrival_time
              gantt := s.gantt ++ [(s.current_time, y.arrival_time, Label.idle)]
              completed := s.completed
              ready := (pullArrived y.arrival_time (y :: ys) []).2
              remaining := (pullArrived y.arrival_time (y :: ys) []).1 },
      ?_, ?_, rfl, ?_, ?_, ?_, ?_, ?_, ?_, ?_, ?_, ?_⟩
    · show stepWith dispatch s = _
      rw [stepWith]
      simp only [hP2, hyy, List.isEmpty_nil, if_pos]
    · intro habs
      have hxs2ne : xs2 ≠ [] := by
        intro habs2
        rw [habs2, List.nil_append] at g1
        rcases g4 with gnil | ⟨z, zs, hz, htz⟩
        · rw [gnil] at g1
          cases g1
        · rw [hz] at g1
          cases g1
          omega
      rw [g2] at habs
      exact hxs2ne (List.map_eq_nil_iff.mp habs)
    · exact Nat.le_of_lt hty
    · have l1 := congrArg List.length g1
      rw [List.length_append] at l1
      have l2 : (pullArrived y.arrival_time (y :: ys) []).2.length = xs2.length := by
        rw [g2, List.length_map]
      have e1 := congrArg List.length (h1.trans hyy)
      have e2 := congrArg List.length hready0
      simp only [List.length_nil] at e2
      simp only [List.length_cons] at l1 e1 ⊢
      omega
    · have l1 := congrArg totalRem g1
      rw [totalRem_append] at l1
      have l2 : totalRem (pullArrived y.arrival_time (y :: ys) []).2 =
          totalRem xs2 := by
        rw [g2, totalRem_setReady]
      have e1 := congrArg totalRem (h1.trans hyy)
      have e2 : totalRem s.ready = 0 := by
        rw [hready0]
        rfl
      dsimp only
      omega
    · have e1 : s.remaining = y :: ys := h1.trans hyy
      rw [e1, hready0]
      rw [g2, map_pid_setReady]
      have hpids := congrArg (List.map Process.pid) g1
      rw [List.map_append] at hpids
      rw [hpids]
      simp
    · exact tilesB_append s.gantt 0 s.current_time y.arrival_time Label.idle htiles
        (by omega)
    · intro hnoadj hlast
      constructor
      · refine noAdjDupB_append s.gantt _ hnoadj ?_
        intro lab hl
        rcases hlast with hg | ⟨q, hq, -⟩
        · rw [hg] at hl
          simp [lastLabel] at hl
        · rw [hq] at hl
          cases hl
          simp
      · right
        left
        rw [lastLabel_append]
    · intro p hp
      rw [g2] at hp
      obtain ⟨x, hx, rfl⟩ := List.mem_map.mp hp
      simpa using g3 x hx
    · intro p hp
      rw [g2] at hp
      obtain ⟨x, hx, rfl⟩ := List.mem_map.mp hp
      right
      refine ⟨x, ?_, rfl⟩
      rw [h1, hyy]
      exact g1 ▸ List.mem_append_left _ hx
    · intro p hp
      have : p ∈ y :: ys := g1 ▸ List.mem_append_right _ hp
      rw [h1, hyy]
      exact this
  · -- ready non-empty after the pull: dispatch directly
    refine ⟨{ current_time := s.current_time
              gantt := s.gantt
              completed := s.completed
              ready := (pullArrived s.current_time s.remaining s.ready).2
              remaining := (pullArrived s.current_time s.remaining s.ready).1 },
      ?_, ?_, rfl, le_refl _, ?_, ?_, ?_, htiles, ?_, ?_, ?_, ?_⟩
    · show stepWith dispatch s = _
      rw [stepWith]
      simp only [hP2, List.isEmpty_cons, if_neg, Bool.false_eq_true,
        not_false_eq_true]
    · rw [hP2]
      exact List.cons_ne_nil r rs
    · have l1 := congrArg List.length h1
      rw [List.length_append] at l1
      have l2 := congrArg List.length h2
      rw [List.length_append, List.length_map] at l2
      dsimp only
      omega
    · have l1 := congrArg totalRem h1
      rw [totalRem_append] at l1
      have l2 := congrArg totalRem h2
      rw [totalRem_append, totalRem_setReady] at l2
      dsimp only
      omega
    · have hp2 := congrArg (List.map Process.pid) h2
      rw [List.map_append, map_pid_setReady] at hp2
      have hp1 := congrArg (List.map Process.pid) h1
      rw [List.map_append] at hp1
      rw [hp2, hp1, List.append_assoc]
    · intro hnoadj hlast
      refine ⟨hnoadj, ?_⟩
      rcases hlast with hg | ⟨q, hq, hqm⟩
      · left
        exact hg
      · right
        right
        exact ⟨q, hq, hqm⟩
    · intro p hp
      rw [h2] at hp
      rcases List.mem_append.mp hp with hp | hp
      · exact hreadyArr p hp
      · obtain ⟨x, hx, rfl⟩ := List.mem_map.mp hp
        simpa using h3 x hx
    · intro p hp
      rw [h2] at hp
      rcases List.mem_append.mp hp with hp | hp
      · exact Or.inl hp
      · obtain ⟨x, hx, rfl⟩ := List.mem_map.mp hp
        exact Or.inr ⟨x, h1 ▸ List.mem_append_left _ hx, rfl⟩
    · intro p hp
      exact h1 ▸ List.mem_append_right _ hp

theorem foldl_max_le (b : Int) : ∀ (l : List Int) (x : Int), x ≤ b →
    (∀ z ∈ l, z ≤ b) → l.foldl max x ≤ b
  | [], x, hx, _ => hx
  | y :: ys, x, hx, h => by
    simp only [List.foldl_cons]
    exact foldl_max_le b ys (max x y) (max_le hx (h y (by simp)))
      (fun z hz => h z (by simp [hz]))

theorem maxIntOf_le (l : List Int) (b : Int) (h0 : 0 ≤ b)
    (h : ∀ x ∈ l, x ≤ b) : maxIntOf l ≤ b := by
  cases l with
  | nil => exact h0
  | cons x rest =>
    exact foldl_max_le b rest x (h x (by simp)) (fun z hz => h z (by simp [hz]))

/-- One non-preemptive dispatch preserves the SJF/Priority invariant and
completes exactly one process. -/
theorem npDispatch_spec (key : Process → Int × Int × Int) (pids0 : List Nat)
    (hnodup0 : pids0.Nodup) (s : LoopState)
    (hready_ne : s.ready ≠ [])
    (htiles : tilesB 0 s.gantt s.current_time = true)
    (hperm : List.Perm (s.completed.map Process.pid ++ s.ready.map Process.pid ++
      s.remaining.map Process.pid) pids0)
    (hreadyArr : ∀ p ∈ s.ready, p.arrival_time ≤ s.current_time)
    (hreadyBurst : ∀ p ∈ s.ready, 0 < p.burst_time)
    (hremBurst : ∀ p ∈ s.remaining, 0 < p.burst_time)
    (hcompOk : ∀ c ∈ s.completed, 0 ≤ c.waiting_time ∧ 0 ≤ c.response_time)
    (hcompLe : ∀ c ∈ s.completed, c.completion_time ≤ (s.current_time : Int))
    (hnoadj : noAdjDupB s.gantt = true)
    (hlast : s.gantt = [] ∨ lastLabel s.gantt = some Label.idle ∨
      ∃ q, lastLabel s.gantt = some (Label.proc q) ∧
        q ∈ s.completed.map Process.pid) :
    NpInv pids0 (npDispatch key s) ∧
    (npDispatch key s).remaining.length + (npDispatch key s).ready.length + 1 =
      s.remaining.length + s.ready.length := by
  rcases hs : sortBy (fun a b => lexLe3 (key a) (key b)) s.ready with - | ⟨p, rest⟩
  · have hp := sortBy_perm (fun a b => lexLe3 (key a) (key b)) s.ready
    rw [hs] at hp
    exact absurd hp.symm.eq_nil hready_ne
  have hsp : List.Perm (p :: rest) s.ready := by
    have hp := sortBy_perm (fun a b => lexLe3 (key a) (key b)) s.ready
    rw [hs] at hp
    exact hp
  have hpmem : p ∈ s.ready := hsp.subset (List.mem_cons_self p rest)
  have hparr : p.arrival_time ≤ s.current_time := hreadyArr p hpmem
  have hpburst : 0 < p.burst_time := hreadyBurst p hpmem
  have hD : npDispatch key s =
      { current_time := s.current_time + p.burst_time
        gantt := s.gantt ++ [(s.current_time, s.current_time + p.burst_time,
          Label.proc p.pid)]
        completed := s.completed ++ [{ p with
          state := ProcessState.TERMINATED
          remaining_time := 0
          start_time := (s.current_time : Int)
          response_time := (s.current_time : Int) - (p.arrival_time : Int)
          completion_time := ((s.current_time + p.burst_time : Nat) : Int)
          turnaround_time := ((s.current_time + p.burst_time : Nat) : Int) -
            (p.arrival_time : Int)
          waiting_time := (((s.current_time + p.burst_time : Nat) : Int) -
            (p.arrival_time : Int)) - (p.burst_time : Int) }]
        ready := rest
        remaining := s.remaining } := by
    simp only [npDispatch, hs]
  have hnodupAll : ((s.completed.map Process.pid ++ s.ready.map Process.pid) ++
      s.remaining.map Process.pid).Nodup := hperm.nodup_iff.mpr hnodup0
  have hdisj : ∀ q ∈ s.completed.map Process.pid, q ∉ s.ready.map Process.pid := by
    intro q hq hq2
    rw [List.nodup_append] at hnodupAll
    rcases hnodupAll with ⟨hn1, -, -⟩
    rw [List.nodup_append] at hn1
    exact hn1.2.2 hq hq2
  have hrperm : List.Perm (p.pid :: rest.map Process.pid)
      (s.ready.map Process.pid) := by
    simpa using hsp.map Process.pid
  rw [hD]
  constructor
  · refine ⟨?_, ?_, ?_, ?_, ?_, ?_, ?_, ?_, ?_, ?_⟩
    · exact tilesB_append s.gantt 0 s.current_time (s.current_time + p.burst_time)
        (Label.proc p.pid) htiles (by omega)
    · dsimp only
      rw [List.map_append]
      have hone : [({ p with
          state := ProcessState.TERMINATED
          remaining_time := 0
          start_time := (s.current_time : Int)
          response_time := (s.current_time : Int) - (p.arrival_time : Int)
          completion_time := ((s.current_time + p.burst_time : Nat) : Int)
          turnaround_time := ((s.current_time + p.burst_time : Nat) : Int) -
            (p.arrival_time : Int)
          waiting_time := (((s.current_time + p.burst_time : Nat) : Int) -
            (p.arrival_time : Int)) - (p.burst_time : Int) } : Process)].map
            Process.pid = [p.pid] := rfl
      rw [hone]
      simp only [List.append_assoc, List.singleton_append]
      have hperm2 := hperm
      simp only [List.append_assoc] at hperm2
      refine (List.Perm.append_left (s.completed.map Process.pid) ?_).trans hperm2
      simpa using hrperm.append_right (s.remaining.map Process.pid)
    · intro q hq
      have : q ∈ s.ready :=
        hsp.subset (List.mem_cons_of_mem p hq)
      have := hreadyArr q this
      dsimp only
      omega
    · intro q hq
      exact hreadyBurst q (hsp.subset (List.mem_cons_of_mem p hq))
    · exact hremBurst
    · intro c hc
      rcases List.mem_append.mp hc with hc | hc
      · exact hcompOk c hc
      · rcases List.mem_singleton.mp hc with rfl
        constructor
        · dsimp only
          omega
        · dsimp only
          omega
    · intro c hc
      dsimp only
      rcases List.mem_append.mp hc with hc | hc
      · have := hcompLe c hc
        push_cast
        omega
      · rcases List.mem_singleton.mp hc with rfl
        dsimp only
        push_cast
        omega
    · intro _ _
      refine ⟨by simp, ?_⟩
      dsimp only
      rw [List.map_append]
      have hone : [({ p with
          state := ProcessState.TERMINATED
          remaining_time := 0
          start_time := (s.current_time : Int)
          response_time := (s.current_time : Int) - (p.arrival_time : Int)
          completion_time := ((s.current_time + p.burst_time : Nat) : Int)
          turnaround_time := ((s.current_time + p.burst_time : Nat) : Int) -
            (p.arrival_time : Int)
          waiting_time := (((s.current_time + p.burst_time : Nat) : Int) -
            (p.arrival_time : Int)) - (p.burst_time : Int) } : Process)].map
            Process.completion_time =
          [((s.current_time + p.burst_time : Nat) : Int)] := rfl
      rw [hone, maxIntOf_append]
      by_cases hc : s.completed.map Process.completion_time = []
      · rw [if_pos hc]
      · rw [if_neg hc]
        refine max_eq_right ?_
        refine le_trans (maxIntOf_le _ (s.current_time : Int)
          (Int.natCast_nonneg _) ?_) ?_
        · intro x hx
          obtain ⟨c, hcm, rfl⟩ := List.mem_map.mp hx
          exact hcompLe c hcm
        · push_cast
          omega
    · refine noAdjDupB_append s.gantt _ hnoadj ?_
      intro lab hl
      rcases hlast with hg | hidle | ⟨q, hq, hqmem⟩
      · rw [hg] at hl
        simp [lastLabel] at hl
      · rw [hidle] at hl
        cases hl
        simp
      · rw [hq] at hl
        cases hl
        simp only [ne_eq, Label.proc.injEq]
        intro hqp
        subst hqp
        exact hdisj p.pid hqmem (List.mem_map.mpr ⟨p, hpmem, rfl⟩)
    · right
      refine ⟨p.pid, by rw [lastLabel_append], ?_⟩
      dsimp only
      simp
  · have := hrperm.length_eq
    simp only [List.length_cons, List.length_map] at this
    dsimp only
    omega

/-- One full SJF/Priority loop pass preserves the invariant and
completes exactly one process. -/
theorem npStep_spec (key : Process → Int × Int × Int) (pids0 : List Nat)
    (hnodup0 : pids0.Nodup) (s : LoopState) (hinv : NpInv pids0 s)
    (hne : ¬(s.remaining = [] ∧ s.ready = [])) :
    NpInv pids0 (npStep key s) ∧
    (npStep key s).remaining.length + (npStep key s).ready.length + 1 =
      s.remaining.length + s.ready.length := by
  obtain ⟨s1, heq, hne1, hcomp1, htime1, hlen1, -, hperm1, htiles1, hgimpl,
    harr1, hmem1, hrem1⟩ :=
    stepWith_pre (npDispatch key) s hne hinv.tiles hinv.readyArr
  obtain ⟨hnoadj1, hlast1⟩ := hgimpl hinv.noAdj hinv.lastLab
  have hperm2 : List.Perm (s1.completed.map Process.pid ++
      s1.ready.map Process.pid ++ s1.remaining.map Process.pid) pids0 := by
    rw [hcomp1, List.append_assoc]
    refine List.Perm.trans (List.Perm.append_left _ hperm1) ?_
    rw [← List.append_assoc]
    exact hinv.pidsPerm
  have hrb : ∀ p ∈ s1.ready, 0 < p.burst_time := by
    intro p hp
    rcases hmem1 p hp with hp | ⟨x, hx, rfl⟩
    · exact hinv.readyBurst p hp
    · exact hinv.remBurst x hx
  have hmb : ∀ p ∈ s1.remaining, 0 < p.burst_time :=
    fun p hp => hinv.remBurst p (hrem1 p hp)
  have hcOk : ∀ c ∈ s1.completed, 0 ≤ c.waiting_time ∧ 0 ≤ c.response_time := by
    rw [hcomp1]
    exact hinv.compOk
  have hcLe : ∀ c ∈ s1.completed, c.completion_time ≤ (s1.current_time : Int) := by
    rw [hcomp1]
    intro c hcm
    have := hinv.compLe c hcm
    have h2 : (s.current_time : Int) ≤ (s1.current_time : Int) := by
      exact_mod_cast htime1
    omega
  have hres := npDispatch_spec key pids0 hnodup0 s1 hne1 htiles1 hperm2 harr1
    hrb hmb hcOk hcLe hnoadj1 (by
      rcases hlast1 with h | h | h
      · exact Or.inl h
      · exact Or.inr (Or.inl h)
      · exact Or.inr (Or.inr h))
  have hstep : npStep key s = npDispatch key s1 := heq
  rw [hstep]
  exact ⟨hres.1, by omega⟩

/-- The SJF/Priority loop terminates within fuel
`|remaining| + |ready|` and its final state satisfies the invariant with
both pools empty. -/
theorem npRun_master (key : Process → Int × Int × Int) (pids0 : List Nat)
    (hnodup0 : pids0.Nodup) : ∀ (fuel : Nat) (s : LoopState),
    NpInv pids0 s → s.remaining.length + s.ready.length ≤ fuel →
    ∃ s2, npRun key fuel s = some s2 ∧ s2.remaining = [] ∧ s2.ready = [] ∧
      NpInv pids0 s2 := by
  intro fuel
  induction fuel with
  | zero =>
    intro s hinv hle
    have he : s.remaining = [] ∧ s.ready = [] := by
      constructor <;> (apply List.eq_nil_of_length_eq_zero; omega)
    exact ⟨s, by rw [npRun]; simp [he.1, he.2], he.1, he.2, hinv⟩
  | succ f ih =>
    intro s hinv hle
    by_cases hdone : s.remaining = [] ∧ s.ready = []
    · exact ⟨s, by rw [npRun]; simp [hdone.1, hdone.2], hdone.1, hdone.2, hinv⟩
    · obtain ⟨hinv2, hmeas⟩ := npStep_spec key pids0 hnodup0 s hinv hdone
      obtain ⟨s2, hrun, hr1, hr2, hi2⟩ := ih (npStep key s) hinv2 (by omega)
      refine ⟨s2, ?_, hr1, hr2, hi2⟩
      rw [npRun]
      have hcond : (s.remaining.isEmpty && s.ready.isEmpty) = false := by
        rcases not_and_or.mp hdone with h | h <;>
          simp [List.isEmpty_eq_true, h]
      rw [hcond]
      simpa using hrun

/-- Bundle of facts about one SJF or Priority run on a valid input. -/
theorem np_master (key : Process → Int × Int × Int) (ps : List Process)
    (hv : ValidInput ps) :
    ∃ r : ScheduleResult, npSchedule key ps = some r ∧
      (∃ tEnd : Nat, tilesB 0 r.gantt tEnd = true ∧
        (tEnd : Int) = maxCompletion r.stats) ∧
      noAdjDupB r.gantt = true ∧
      List.Perm (r.stats.map Stats.pid) (ps.map Process.pid) ∧
      ∀ st ∈ r.stats, 0 ≤ st.waiting_time ∧ 0 ≤ st.response_time := by
  obtain ⟨hne, hnodup, hpos⟩ := hv
  have hperm0 : List.Perm ((sortBy leArrivalPid ps).map Process.pid)
      (ps.map Process.pid) := (sortBy_perm leArrivalPid ps).map Process.pid
  have hsne : sortBy leArrivalPid ps ≠ [] := by
    intro habs
    have : ps.map Process.pid = [] := by
      have := hperm0.symm
      rw [habs] at this
      exact this.eq_nil
    exact hne (by simpa using this)
  have hinv0 : NpInv (ps.map Process.pid) (initState ps) := by
    refine ⟨rfl, by simpa [initState] using hperm0, ?_, ?_, ?_, ?_, ?_, ?_, rfl,
      Or.inl rfl⟩
    · intro p hp
      simp [initState] at hp
    · intro p hp
      simp [initState] at hp
    · intro p hp
      have : p ∈ ps := (sortBy_perm leArrivalPid ps).mem_iff.mp hp
      exact (hpos p this).1
    · intro c hcm
      simp [initState] at hcm
    · intro c hcm
      simp [initState] at hcm
    · intro h0 _
      exact absurd h0 hsne
  have hlen0 : (initState ps).remaining.length + (initState ps).ready.length ≤
      ps.length := by
    have := hperm0.length_eq
    simp only [List.length_map] at this
    simp [initState, this]
  obtain ⟨s2, hrun, hr1, hr2, hi2⟩ :=
    npRun_master key (ps.map Process.pid) (by simpa using hnodup) ps.length
      (initState ps) hinv0 hlen0
  obtain ⟨hcne, hmax⟩ := hi2.doneMax hr1 hr2
  refine ⟨CPUScheduler.get_results s2.completed s2.gantt, ?_, ?_, ?_, ?_, ?_⟩
  · rw [npSchedule, hrun]
    rfl
  · refine ⟨s2.current_time, hi2.tiles, ?_⟩
    rw [maxCompletion]
    show (s2.current_time : Int) =
      maxIntOf ((s2.completed.map Process.get_statistics).map Stats.completion_time)
    rw [stats_completion_map]
    exact hmax.symm
  · exact hi2.noAdj
  · show List.Perm ((s2.completed.map Process.get_statistics).map Stats.pid) _
    rw [stats_pid_map]
    have := hi2.pidsPerm
    rw [hr1, hr2] at this
    simpa using this
  · intro st hst
    obtain ⟨c, hcm, rfl⟩ := List.mem_map.mp hst
    exact hi2.compOk c hcm

/-- Full case analysis of one Round-Robin dispatch: the head of the
queue runs for `min(time_quantum, remaining_time)` units; `st2`/`rs2` are
its start/response times after the first-dispatch update; it is then
either finalized (burst exhausted) or re-enqueued behind the arrivals of
the executed span. -/
theorem rrDispatch_cases (time_quantum : Nat) (s : LoopState) (p : Process)
    (rest : List Process) (hr : s.ready = p :: rest) :
    ∃ st2 rs2 : Int,
      ((p.start_time = -1 ∧ st2 = (s.current_time : Int) ∧
        rs2 = (s.current_time : Int) - (p.arrival_time : Int)) ∨
       (p.start_time ≠ -1 ∧ st2 = p.start_time ∧ rs2 = p.response_time)) ∧
      ((p.remaining_time ≤ time_quantum ∧
        rrDispatch time_quantum s =
          { current_time := s.current_time + min time_quantum p.remaining_time
            gantt := s.gantt ++ [(s.current_time,
              s.current_time + min time_quantum p.remaining_time,
              Label.proc p.pid)]
            completed := s.completed ++ [{ p with
              state := ProcessState.TERMINATED
              remaining_time := 0
              start_time := st2
              response_time := rs2
              completion_time :=
                ((s.current_time + min time_quantum p.remaining_time : Nat) : Int)
              turnaround_time :=
                ((s.current_time + min time_quantum p.remaining_time : Nat) : Int) -
                  (p.arrival_time : Int)
              waiting_time :=
                (((s.current_time + min time_quantum p.remaining_time : Nat) : Int) -
                  (p.arrival_time : Int)) - (p.burst_time : Int) }]
            ready := (pullArrived
              (s.current_time + min time_quantum p.remaining_time)
              s.remaining rest).2
            remaining := (pullArrived
              (s.current_time + min time_quantum p.remaining_time)
              s.remaining rest).1 }) ∨
       (time_quantum < p.remaining_time ∧
        rrDispatch time_quantum s =
          { current_time := s.current_time + min time_quantum p.remaining_time
            gantt := s.gantt ++ [(s.current_time,
              s.current_time + min time_quantum p.remaining_time,
              Label.proc p.pid)]
            completed := s.completed
            ready := (pullArrived
              (s.current_time + min time_quantum p.remaining_time)
              s.remaining rest).2 ++
              [{ p with
                state := ProcessState.READY
                remaining_time := p.remaining_time - min time_quantum p.remaining_time
                start_time := st2
                response_time := rs2 }]
            remaining := (pullArrived
              (s.current_time + min time_quantum p.remaining_time)
              s.remaining rest).1 })) := by
  have hmin : min (min time_quantum p.remaining_time) p.remaining_time =
      min time_quantum p.remaining_time := by omega
  by_cases hst : p.start_time = -1 <;> by_cases hcm : p.remaining_time ≤ time_quantum
  · refine ⟨(s.current_time : Int),
      (s.current_time : Int) - (p.arrival_time : Int),
      Or.inl ⟨hst, rfl, rfl⟩, Or.inl ⟨hcm, ?_⟩⟩
    have hzero : p.remaining_time - min time_quantum p.remaining_time = 0 := by
      omega
    simp [rrDispatch, hr, hst, Process.execute, Process.is_complete, hmin, hzero]
  · refine ⟨(s.current_time : Int),
      (s.current_time : Int) - (p.arrival_time : Int),
      Or.inl ⟨hst, rfl, rfl⟩, Or.inr ⟨by omega, ?_⟩⟩
    have hnz : ¬(p.remaining_time - min time_quantum p.remaining_time = 0) := by
      omega
    simp [rrDispatch, hr, hst, Process.execute, Process.is_complete, hmin, hnz]
  · refine ⟨p.start_time, p.response_time,
      Or.inr ⟨hst, rfl, rfl⟩, Or.inl ⟨hcm, ?_⟩⟩
    have hzero : p.remaining_time - min time_quantum p.remaining_time = 0 := by
      omega
    simp [rrDispatch, hr, hst, Process.execute, Process.is_complete, hmin, hzero]
  · refine ⟨p.start_time, p.response_time,
      Or.inr ⟨hst, rfl, rfl⟩, Or.inr ⟨by omega, ?_⟩⟩
    have hnz : ¬(p.remaining_time - min time_quantum p.remaining_time = 0) := by
      omega
    simp [rrDispatch, hr, hst, Process.execute, Process.is_complete, hmin, hnz]

/-- One Round-Robin dispatch preserves the invariant and executes at
least one unit of work. -/
theorem rrDispatch_spec (time_quantum : Nat) (pids0 : List Nat) (s : LoopState)
    (hq : 0 < time_quantum)
    (hready_ne : s.ready ≠ [])
    (htiles : tilesB 0 s.gantt s.current_time = true)
    (hperm : List.Perm (s.completed.map Process.pid ++ s.ready.map Process.pid ++
      s.remaining.map Process.pid) pids0)
    (hreadyArr : ∀ p ∈ s.ready, p.arrival_time ≤ s.current_time)
    (hreadyPos : ∀ p ∈ s.ready, 0 < p.remaining_time)
    (hreadyExec : ∀ p ∈ s.ready,
      (p.burst_time : Int) - (p.remaining_time : Int) ≤
        (s.current_time : Int) - (p.arrival_time : Int))
    (hreadyResp : ∀ p ∈ s.ready,
      (p.start_time = -1 ∧ p.response_time = -1) ∨ 0 ≤ p.response_time)
    (hremFresh : ∀ p ∈ s.remaining,
      p.remaining_time = p.burst_time ∧ 0 < p.burst_time ∧
        p.start_time = -1 ∧ p.response_time = -1)
    (hcompOk : ∀ c ∈ s.completed, 0 ≤ c.waiting_time ∧ 0 ≤ c.response_time)
    (hcompLe : ∀ c ∈ s.completed, c.completion_time ≤ (s.current_time : Int)) :
    RInv pids0 (rrDispatch time_quantum s) ∧
    totalRem (rrDispatch time_quantum s).remaining +
        totalRem (rrDispatch time_quantum s).ready <
      totalRem s.remaining + totalRem s.ready := by
  rcases hr : s.ready with - | ⟨p, rest⟩
  · exact absurd hr hready_ne
  have hpmem : p ∈ s.ready := by rw [hr]; simp
  have hparr : p.arrival_time ≤ s.current_time := hreadyArr p hpmem
  have hppos : 0 < p.remaining_time := hreadyPos p hpmem
  have hpexec := hreadyExec p hpmem
  have hemin : 0 < min time_quantum p.remaining_time := by omega
  obtain ⟨st2, rs2, hst, hcases⟩ := rrDispatch_cases time_quantum s p rest hr
  have hrs2 : 0 ≤ rs2 := by
    rcases hst with ⟨-, -, hr2⟩ | ⟨hne1, -, hr2⟩
    · rw [hr2]
      omega
    · rcases hreadyResp p hpmem with ⟨habs, -⟩ | hge
      · exact absurd habs hne1
      · rw [hr2]
        exact hge
  obtain ⟨xs, h1, h2, h3, h4⟩ := pullArrived_spec
    (s.current_time + min time_quantum p.remaining_time) s.remaining rest
  have htot_ready : totalRem s.ready = p.remaining_time + totalRem rest := by
    rw [hr]
    simp [totalRem]
  have htot_rem := congrArg totalRem h1
  rw [totalRem_append] at htot_rem
  have htot_p2 := congrArg totalRem h2
  rw [totalRem_append, totalRem_setReady] at htot_p2
  have hreadyPids : s.ready.map Process.pid = p.pid :: rest.map Process.pid := by
    rw [hr]
    rfl
  have hxs_facts : ∀ x ∈ xs, x.remaining_time = x.burst_time ∧ 0 < x.burst_time ∧
      x.start_time = -1 ∧ x.response_time = -1 ∧
      x.arrival_time ≤ s.current_time + min time_quantum p.remaining_time := by
    intro x hx
    have hxrem : x ∈ s.remaining := h1 ▸ List.mem_append_left _ hx
    exact ⟨(hremFresh x hxrem).1, (hremFresh x hxrem).2.1,
      (hremFresh x hxrem).2.2.1, (hremFresh x hxrem).2.2.2, h3 x hx⟩
  have hrest_facts : ∀ x ∈ rest, x ∈ s.ready := by
    intro x hx
    rw [hr]
    exact List.mem_cons_of_mem p hx
  -- facts about the post-pull queue, shared by both outcome branches
  have hq_arr : ∀ x ∈ (pullArrived
      (s.current_time + min time_quantum p.remaining_time) s.remaining rest).2,
      x.arrival_time ≤ s.current_time + min time_quantum p.remaining_time := by
    intro x hx
    rw [h2] at hx
    rcases List.mem_append.mp hx with hx | hx
    · have := hreadyArr x (hrest_facts x hx)
      omega
    · obtain ⟨z, hz, rfl⟩ := List.mem_map.mp hx
      simpa using (hxs_facts z hz).2.2.2.2
  have hq_pos : ∀ x ∈ (pullArrived
      (s.current_time + min time_quantum p.remaining_time) s.remaining rest).2,
      0 < x.remaining_time := by
    intro x hx
    rw [h2] at hx
    rcases List.mem_append.mp hx with hx | hx
    · exact hreadyPos x (hrest_facts x hx)
    · obtain ⟨z, hz, rfl⟩ := List.mem_map.mp hx
      have := hxs_facts z hz
      simp only
      omega
  have hq_exec : ∀ x ∈ (pullArrived
      (s.current_time + min time_quantum p.remaining_time) s.remaining rest).2,
      (x.burst_time : Int) - (x.remaining_time : Int) ≤
        ((s.current_time + min time_quantum p.remaining_time : Nat) : Int) -
          (x.arrival_time : Int) := by
    intro x hx
    rw [h2] at hx
    rcases List.mem_append.mp hx with hx | hx
    · have := hreadyExec x (hrest_facts x hx)
      push_cast
      push_cast at this
      omega
    · obtain ⟨z, hz, rfl⟩ := List.mem_map.mp hx
      have hz2 := hxs_facts z hz
      simp only
      push_cast
      omega
  have hq_resp : ∀ x ∈ (pullArrived
      (s.current_time + min time_quantum p.remaining_time) s.remaining rest).2,
      (x.start_time = -1 ∧ x.response_time = -1) ∨ 0 ≤ x.response_time := by
    intro x hx
    rw [h2] at hx
    rcases List.mem_append.mp hx with hx | hx
    · exact hreadyResp x (hrest_facts x hx)
    · obtain ⟨z, hz, rfl⟩ := List.mem_map.mp hx
      have hz2 := hxs_facts z hz
      left
      exact ⟨hz2.2.2.1, hz2.2.2.2.1⟩
  have hq_fresh : ∀ x ∈ (pullArrived
      (s.current_time + min time_quantum p.remaining_time) s.remaining rest).1,
      x.remaining_time = x.burst_time ∧ 0 < x.burst_time ∧
        x.start_time = -1 ∧ x.response_time = -1 := by
    intro x hx
    exact hremFresh x (h1 ▸ List.mem_append_right _ hx)
  have hq_pidseq : (pullArrived
      (s.current_time + min time_quantum p.remaining_time)
        s.remaining rest).2.map Process.pid ++
      (pullArrived (s.current_time + min time_quantum p.remaining_time)
        s.remaining rest).1.map Process.pid =
      rest.map Process.pid ++ s.remaining.map Process.pid := by
    have e2 := congrArg (List.map Process.pid) h2
    rw [List.map_append, map_pid_setReady] at e2
    have e1 := congrArg (List.map Process.pid) h1
    rw [List.map_append] at e1
    rw [e2, e1, List.append_assoc]
  rcases hcases with ⟨hcm, hD⟩ | ⟨hcm, hD⟩
  · -- the dispatched process finishes
    rw [hD]
    constructor
    · refine ⟨?_, ?_, ?_, ?_, ?_, ?_, ?_, ?_, ?_, ?_⟩
      · exact tilesB_append s.gantt 0 s.current_time _ (Label.proc p.pid) htiles
          (by omega)
      · dsimp only
        rw [List.map_append]
        have hone : ∀ z : Process, [z].map Process.pid = [z.pid] := fun z => rfl
        rw [hone]
        dsimp only
        refine List.Perm.trans ?_ hperm
        rw [hreadyPids]
        simp only [List.append_assoc, List.singleton_append, List.cons_append]
        refine List.Perm.append_left _ ?_
        simp only [List.nil_append]
        rw [hq_pidseq]
      · exact hq_arr
      · exact hq_pos
      · exact hq_exec
      · exact hq_resp
      · exact hq_fresh
      · intro c hc
        rcases List.mem_append.mp hc with hc | hc
        · exact hcompOk c hc
        · rcases List.mem_singleton.mp hc with rfl
          refine ⟨?_, by simpa using hrs2⟩
          simp only
          push_cast
          omega
      · intro c hc
        dsimp only
        rcases List.mem_append.mp hc with hc | hc
        · have := hcompLe c hc
          push_cast
          omega
        · rcases List.mem_singleton.mp hc with rfl
          simp only
          push_cast
          omega
      · intro _ _
        refine ⟨by simp, ?_⟩
        dsimp only
        rw [List.map_append]
        have hone : [({ p with
            state := ProcessState.TERMINATED
            remaining_time := 0
            start_time := st2
            response_time := rs2
            completion_time :=
              ((s.current_time + min time_quantum p.remaining_time : Nat) : Int)
            turnaround_time :=
              ((s.current_time + min time_quantum p.remaining_time : Nat) : Int) -
                (p.arrival_time : Int)
            waiting_time :=
              (((s.current_time + min time_quantum p.remaining_time : Nat) : Int) -
                (p.arrival_time : Int)) - (p.burst_time : Int) } : Process)].map
              Process.completion_time =
            [((s.current_time + min time_quantum p.remaining_time : Nat) : Int)] :=
          rfl
        rw [hone, maxIntOf_append]
        by_cases hc0 : s.completed.map Process.completion_time = []
        · rw [if_pos hc0]
        · rw [if_neg hc0]
          refine max_eq_right ?_
          refine le_trans (maxIntOf_le _ (s.current_time : Int)
            (Int.natCast_nonneg _) ?_) ?_
          · intro x hx
            obtain ⟨c, hcm2, rfl⟩ := List.mem_map.mp hx
            exact hcompLe c hcm2
          · push_cast
            omega
    · dsimp only
      rw [htot_rem, htot_p2]
      have hc : totalRem (p :: rest) = p.remaining_time + totalRem rest := by
        simp [totalRem]
      omega
  · -- the dispatched process is re-enqueued behind the pulled arrivals
    rw [hD]
    constructor
    · refine ⟨?_, ?_, ?_, ?_, ?_, ?_, ?_, ?_, ?_, ?_⟩
      · exact tilesB_append s.gantt 0 s.current_time _ (Label.proc p.pid) htiles
          (by omega)
      · dsimp only
        rw [List.map_append]
        have hone : ∀ z : Process, [z].map Process.pid = [z.pid] := fun z => rfl
        rw [hone]
        dsimp only
        refine List.Perm.trans ?_ hperm
        rw [hreadyPids]
        simp only [List.append_assoc, List.singleton_append, List.cons_append]
        refine List.Perm.append_left _ ?_
        simp only [List.nil_append]
        refine List.Perm.trans List.perm_middle ?_
        rw [hq_pidseq]
      · intro x hx
        rcases List.mem_append.mp hx with hx | hx
        · exact hq_arr x hx
        · rcases List.mem_singleton.mp hx with rfl
          simp only
          omega
      · intro x hx
        rcases List.mem_append.mp hx with hx | hx
        · exact hq_pos x hx
        · rcases List.mem_singleton.mp hx with rfl
          simp only
          omega
      · intro x hx
        rcases List.mem_append.mp hx with hx | hx
        · exact hq_exec x hx
        · rcases List.mem_singleton.mp hx with rfl
          simp only
          push_cast
          push_cast at hpexec
          omega
      · intro x hx
        rcases List.mem_append.mp hx with hx | hx
        · exact hq_resp x hx
        · rcases List.mem_singleton.mp hx with rfl
          right
          simpa using hrs2
      · exact hq_fresh
      · exact hcompOk
      · intro c hc
        dsimp only
        have := hcompLe c hc
        push_cast
        omega
      · intro _ habs
        exact absurd habs (by simp)
    · dsimp only
      rw [totalRem_append]
      have hsing : totalRem [({ p with
          state := ProcessState.READY
          remaining_time := p.remaining_time - min time_quantum p.remaining_time
          start_time := st2
          response_time := rs2 } : Process)] =
          p.remaining_time - min time_quantum p.remaining_time := by
        simp [totalRem]
      rw [hsing, htot_rem, htot_p2]
      have hc : totalRem (p :: rest) = p.remaining_time + totalRem rest := by
        simp [totalRem]
      omega

/-- One full Round-Robin loop pass preserves the invariant and executes
at least one unit of work. -/
theorem rrStep_spec (time_quantum : Nat) (pids0 : List Nat)
    (hq : 0 < time_quantum) (s : LoopState) (hinv : RInv pids0 s)
    (hne : ¬(s.remaining = [] ∧ s.ready = [])) :
    RInv pids0 (rrStep time_quantum s) ∧
    totalRem (rrStep time_quantum s).remaining +
        totalRem (rrStep time_quantum s).ready <
      totalRem s.remaining + totalRem s.ready := by
  obtain ⟨s1, heq, hne1, hcomp1, htime1, -, htot1, hperm1, htiles1, -,
    harr1, hmem1, hrem1⟩ :=
    stepWith_pre (rrDispatch time_quantum) s hne hinv.tiles hinv.readyArr
  have hperm2 : List.Perm (s1.completed.map Process.pid ++
      s1.ready.map Process.pid ++ s1.remaining.map Process.pid) pids0 := by
    rw [hcomp1, List.append_assoc]
    refine List.Perm.trans (List.Perm.append_left _ hperm1) ?_
    rw [← List.append_assoc]
    exact hinv.pidsPerm
  have hpos1 : ∀ p ∈ s1.ready, 0 < p.remaining_time := by
    intro p hp
    rcases hmem1 p hp with hp | ⟨x, hx, rfl⟩
    · exact hinv.readyPos p hp
    · have := hinv.remFresh x hx
      simp only
      omega
  have hexec1 : ∀ p ∈ s1.ready,
      (p.burst_time : Int) - (p.remaining_time : Int) ≤
        (s1.current_time : Int) - (p.arrival_time : Int) := by
    intro p hp
    have harr := harr1 p hp
    rcases hmem1 p hp with hp | ⟨x, hx, rfl⟩
    · have := hinv.readyExec p hp
      have h2 : (s.current_time : Int) ≤ (s1.current_time : Int) := by
        exact_mod_cast htime1
      omega
    · have := (hinv.remFresh x hx).1
      simp only
      simp only at harr
      omega
  have hresp1 : ∀ p ∈ s1.ready,
      (p.start_time = -1 ∧ p.response_time = -1) ∨ 0 ≤ p.response_time := by
    intro p hp
    rcases hmem1 p hp with hp | ⟨x, hx, rfl⟩
    · exact hinv.readyResp p hp
    · have := hinv.remFresh x hx
      left
      exact ⟨this.2.2.1, this.2.2.2⟩
  have hfresh1 : ∀ p ∈ s1.remaining,
      p.remaining_time = p.burst_time ∧ 0 < p.burst_time ∧
        p.start_time = -1 ∧ p.response_time = -1 :=
    fun p hp => hinv.remFresh p (hrem1 p hp)
  have hcOk : ∀ c ∈ s1.completed, 0 ≤ c.waiting_time ∧ 0 ≤ c.response_time := by
    rw [hcomp1]
    exact hinv.compOk
  have hcLe : ∀ c ∈ s1.completed, c.completion_time ≤ (s1.current_time : Int) := by
    rw [hcomp1]
    intro c hcm
    have := hinv.compLe c hcm
    have h2 : (s.current_time : Int) ≤ (s1.current_time : Int) := by
      exact_mod_cast htime1
    omega
  have hres := rrDispatch_spec time_quantum pids0 s1 hq hne1 htiles1 hperm2
    harr1 hpos1 hexec1 hresp1 hfresh1 hcOk hcLe
  have hstep : rrStep time_quantum s = rrDispatch time_quantum s1 := heq
  rw [hstep]
  exact ⟨hres.1, by omega⟩

/-- The Round-Robin loop terminates within fuel equal to the total
remaining work and the final state satisfies the invariant with both
pools empty. -/
theorem rrRun_master (time_quantum : Nat) (pids0 : List Nat)
    (hq : 0 < time_quantum) : ∀ (fuel : Nat) (s : LoopState),
    RInv pids0 s → totalRem s.remaining + totalRem s.ready ≤ fuel →
    ∃ s2, rrRun time_quantum fuel s = some s2 ∧ s2.remaining = [] ∧
      s2.ready = [] ∧ RInv pids0 s2 := by
  intro fuel
  induction fuel with
  | zero =>
    intro s hinv hle
    by_cases hdone : s.remaining = [] ∧ s.ready = []
    · exact ⟨s, by rw [rrRun]; simp [hdone.1, hdone.2], hdone.1, hdone.2, hinv⟩
    · obtain ⟨-, hmeas⟩ := rrStep_spec time_quantum pids0 hq s hinv hdone
      omega
  | succ f ih =>
    intro s hinv hle
    by_cases hdone : s.remaining = [] ∧ s.ready = []
    · exact ⟨s, by rw [rrRun]; simp [hdone.1, hdone.2], hdone.1, hdone.2, hinv⟩
    · obtain ⟨hinv2, hmeas⟩ := rrStep_spec time_quantum pids0 hq s hinv hdone
      obtain ⟨s2, hrun, hr1, hr2, hi2⟩ :=
        ih (rrStep time_quantum s) hinv2 (by omega)
      refine ⟨s2, ?_, hr1, hr2, hi2⟩
      rw [rrRun]
      have hcond : (s.remaining.isEmpty && s.ready.isEmpty) = false := by
        rcases not_and_or.mp hdone with h | h <;>
          simp [List.isEmpty_eq_true, h]
      rw [hcond]
      simpa using hrun

/-- Bundle of facts about one Round-Robin run on a valid input. -/
theorem rr_master (ps : List Process) (time_quantum : Nat)
    (hv : ValidInput ps) (hq : 0 < time_quantum) :
    ∃ r : ScheduleResult,
      RoundRobinScheduler.schedule ps time_quantum = some r ∧
      (∃ tEnd : Nat, tilesB 0 r.gantt tEnd = true ∧
        (tEnd : Int) = maxCompletion r.stats) ∧
      List.Perm (r.stats.map Stats.pid) (ps.map Process.pid) ∧
      ∀ st ∈ r.stats, 0 ≤ st.waiting_time ∧ 0 ≤ st.response_time := by
  obtain ⟨hne, hnodup, hpos⟩ := hv
  have hperm0 : List.Perm ((sortBy leArrivalPid ps).map Process.pid)
      (ps.map Process.pid) := (sortBy_perm leArrivalPid ps).map Process.pid
  have hsne : sortBy leArrivalPid ps ≠ [] := by
    intro habs
    have : ps.map Process.pid = [] := by
      have := hperm0.symm
      rw [habs] at this
      exact this.eq_nil
    exact hne (by simpa using this)
  have hfresh0 : ∀ p ∈ sortBy leArrivalPid ps,
      p.remaining_time = p.burst_time ∧ 0 < p.burst_time ∧
        p.start_time = -1 ∧ p.response_time = -1 := by
    intro p hp
    have hmem : p ∈ ps := (sortBy_perm leArrivalPid ps).mem_iff.mp hp
    obtain ⟨hb, hf⟩ := hpos p hmem
    constructor
    · conv_lhs => rw [hf]
      rfl
    · refine ⟨hb, ?_, ?_⟩
      · conv_lhs => rw [hf]
        rfl
      · conv_lhs => rw [hf]
        rfl
  have hinv0 : RInv (ps.map Process.pid) (initState ps) := by
    refine ⟨rfl, by simpa [initState] using hperm0, ?_, ?_, ?_, ?_, ?_, ?_, ?_,
      ?_⟩
    · intro p hp
      simp [initState] at hp
    · intro p hp
      simp [initState] at hp
    · intro p hp
      simp [initState] at hp
    · intro p hp
      simp [initState] at hp
    · exact hfresh0
    · intro c hcm
      simp [initState] at hcm
    · intro c hcm
      simp [initState] at hcm
    · intro h0 _
      exact absurd h0 hsne
  have htot0 : totalRem (initState ps).remaining + totalRem (initState ps).ready ≤
      totalRem ps := by
    have : List.Perm ((sortBy leArrivalPid ps).map Process.remaining_time)
        (ps.map Process.remaining_time) :=
      (sortBy_perm leArrivalPid ps).map Process.remaining_time
    have hsum := this.sum_eq
    simp [initState, totalRem, hsum]
  obtain ⟨s2, hrun, hr1, hr2, hi2⟩ :=
    rrRun_master time_quantum (ps.map Process.pid) hq (totalRem ps)
      (initState ps) hinv0 htot0
  obtain ⟨hcne, hmax⟩ := hi2.doneMax hr1 hr2
  refine ⟨CPUScheduler.get_results s2.completed s2.gantt, ?_, ?_, ?_, ?_⟩
  · rw [RoundRobinScheduler.schedule, hrun]
    rfl
  · refine ⟨s2.current_time, hi2.tiles, ?_⟩
    rw [maxCompletion]
    show (s2.current_time : Int) =
      maxIntOf ((s2.completed.map Process.get_statistics).map Stats.completion_time)
    rw [stats_completion_map]
    exact hmax.symm
  · show List.Perm ((s2.completed.map Process.get_statistics).map Stats.pid) _
    rw [stats_pid_map]
    have := hi2.pidsPerm
    rw [hr1, hr2] at this
    simpa using this
  · intro st hst
    obtain ⟨c, hcm, rfl⟩ := List.mem_map.mp hst
    exact hi2.compOk c hcm

/-! ## The SRTF loop: phase decomposition and invariant -/

theorem srtfStep_phases (s : SRTFState) (t : Nat) (hdone : s.done = false) :
    srtfStep s t = srtfPhaseBreak t (srtfPhaseRun t
      (srtfPhaseDispatch t (srtfPhaseCpu t (srtfPhasePull t s)))) := by
  have heq : srtfStep s t = if s.done then s else srtfPhaseBreak t (srtfPhaseRun t
      (srtfPhaseDispatch t (srtfPhaseCpu t (srtfPhasePull t s)))) := rfl
  rw [heq, if_neg (by simp [hdone])]

theorem srtfStep_done (s : SRTFState) (t : Nat) (hdone : s.done = true) :
    srtfStep s t = s := by
  have heq : srtfStep s t = if s.done then s else srtfPhaseBreak t (srtfPhaseRun t
      (srtfPhaseDispatch t (srtfPhaseCpu t (srtfPhasePull t s)))) := rfl
  rw [heq, if_pos hdone]

theorem srtfFold_done (s : SRTFState) (hdone : s.done = true) :
    ∀ l : List Nat, l.foldl srtfStep s = s
  | [] => rfl
  | t :: ts => by
    rw [List.foldl_cons, srtfStep_done s t hdone]
    exact srtfFold_done s hdone ts

/-- Running one unit of a RUNNING process with positive remaining time. -/
theorem execute_one (c : Process) (hst : c.state = ProcessState.RUNNING)
    (hpos : 0 < c.remaining_time) :
    c.execute 1 = { c with remaining_time := c.remaining_time - 1
                           state := if c.remaining_time - 1 = 0 then
                             ProcessState.TERMINATED else ProcessState.RUNNING } := by
  rw [execute_running c 1 hst]
  have hmin : min 1 c.remaining_time = 1 := by omega
  rw [hmin]

theorem is_complete_iff (p : Process) :
    p.is_complete = true ↔ p.remaining_time = 0 := by
  simp [Process.is_complete]

theorem pyMinBy_eq_none (key : Process → Int × Int × Int) (l : List Process)
    (h : pyMinBy key l = none) : l = [] := by
  cases l with
  | nil => rfl
  | cons p rest => simp [pyMinBy] at h

theorem sortBy_eq_nil (le : Process → Process → Bool) (l : List Process)
    (h : sortBy le l = []) : l = [] := by
  have := sortBy_perm le l
  rw [h] at this
  exact this.symm.eq_nil

theorem nat_foldl_max_init_le : ∀ (l : List Nat) (a : Nat), a ≤ l.foldl max a
  | [], _ => le_refl _
  | y :: ys, a => le_trans (le_max_left a y) (nat_foldl_max_init_le ys (max a y))

theorem nat_le_foldl_max : ∀ (l : List Nat) (a x : Nat), x ∈ l → x ≤ l.foldl max a
  | y :: ys, a, x, h => by
    rcases List.mem_cons.mp h with rfl | h
    · exact le_trans (le_max_right a x) (nat_foldl_max_init_le ys (max a x))
    · exact nat_le_foldl_max ys (max a y) x h

/-- Every input arrival time is bounded by `maxArrival`. -/
theorem le_maxArrival (ps : List Process) (p : Process) (h : p ∈ ps) :
    p.arrival_time ≤ maxArrival ps :=
  nat_le_foldl_max (ps.map Process.arrival_time) 0 p.arrival_time
    (List.mem_map.mpr ⟨p, h, rfl⟩)

theorem totalRem_eq_zero (l : List Process) (h : totalRem l = 0) :
    ∀ p ∈ l, p.remaining_time = 0 := by
  intro p hp
  have := List.sum_eq_zero_iff.mp h
  exact this _ (List.mem_map.mpr ⟨p, hp, rfl⟩)

theorem totalRem_perm {l1 l2 : List Process} (h : List.Perm l1 l2) :
    totalRem l1 = totalRem l2 :=
  (h.map Process.remaining_time).sum_eq

/-- The run-one-unit and break phases, entered with a RUNNING process on
the CPU: the invariant is re-established at `t + 1` (or the final-state
facts hold if the `break` fires), the remaining pool is untouched, and
one unit of work is consumed. -/
theorem srtfRunBreak_spec (ps : List Process) (t : Nat) (sc : SRTFState)
    (c : Process)
    (hdone : sc.done = false)
    (hcur : sc.current = some c)
    (hcrem : 0 < c.remaining_time)
    (hcst : c.state = ProcessState.RUNNING)
    (hcle : c.remaining_time ≤ c.burst_time)
    (hcexec : (c.burst_time : Int) - (c.remaining_time : Int) ≤
      (t : Int) - (c.arrival_time : Int))
    (hcresp : 0 ≤ c.response_time)
    (htiles : tilesB 0 sc.gantt t = true)
    (hnoadj : noAdjDupB sc.gantt = true)
    (hperm : List.Perm (sc.completed.map Process.pid ++ [c.pid] ++
      sc.ready.map Process.pid ++ sc.remaining.map Process.pid)
      (ps.map Process.pid))
    (hremS : sc.remaining.Pairwise (fun a b => a.arrival_time ≤ b.arrival_time))
    (hremA : ∀ p ∈ sc.remaining, t + 1 ≤ p.arrival_time)
    (hremSub : ∀ p ∈ sc.remaining, p ∈ ps)
    (hremF : ∀ p ∈ sc.remaining, p.remaining_time = p.burst_time ∧
      0 < p.burst_time ∧ p.start_time = -1 ∧ p.response_time = -1)
    (hrdyA : ∀ p ∈ sc.ready, p.arrival_time ≤ t)
    (hrdyP : ∀ p ∈ sc.ready, 0 < p.remaining_time)
    (hrdyL : ∀ p ∈ sc.ready, p.remaining_time ≤ p.burst_time)
    (hrdyE : ∀ p ∈ sc.ready, (p.burst_time : Int) - (p.remaining_time : Int) ≤
      (t : Int) - (p.arrival_time : Int))
    (hrdyR : ∀ p ∈ sc.ready,
      (p.start_time = -1 ∧ p.response_time = -1) ∨ 0 ≤ p.response_time)
    (hW : totalRem sc.remaining + totalRem sc.ready + c.remaining_time ≤
      totalBurst ps)
    (hcOk : ∀ q ∈ sc.completed, 0 ≤ q.waiting_time ∧ 0 ≤ q.response_time)
    (hcLe : ∀ q ∈ sc.completed, q.completion_time ≤ (t : Int)) :
    srtfInv ps (t + 1) (srtfPhaseBreak t (srtfPhaseRun t sc)) ∧
      (srtfPhaseBreak t (srtfPhaseRun t sc)).remaining = sc.remaining ∧
      ((srtfPhaseBreak t (srtfPhaseRun t sc)).done = true ∨
        totalRem (srtfPhaseBreak t (srtfPhaseRun t sc)).ready +
            currentRem (srtfPhaseBreak t (srtfPhaseRun t sc)) + 1 =
          totalRem sc.ready + c.remaining_time) := by
  have hc1 := execute_one c hcst hcrem
  have hc1pid : (c.execute 1).pid = c.pid := by rw [hc1]
  have hc1arr : (c.execute 1).arrival_time = c.arrival_time := by rw [hc1]
  have hc1burst : (c.execute 1).burst_time = c.burst_time := by rw [hc1]
  have hc1rem : (c.execute 1).remaining_time = c.remaining_time - 1 := by rw [hc1]
  have hc1resp : (c.execute 1).response_time = c.response_time := by rw [hc1]
  have hrun : srtfPhaseRun t sc =
      { sc with gantt := ganttExtend sc.gantt t (Label.proc c.pid)
                current := some (c.execute 1) } := by
    simp only [srtfPhaseRun, hcur]
  rw [hrun]
  unfold srtfPhaseBreak
  simp only
  split
  · -- the break fires: the pools are empty and the executed unit was the last
    rename_i hb
    rw [Bool.and_eq_true, Bool.and_eq_true] at hb
    obtain ⟨⟨hbr, hby⟩, hbc⟩ := hb
    have hremNil : sc.remaining = [] := by
      simpa using hbr
    have hrdyNil : sc.ready = [] := by
      simpa using hby
    have hc1c : (c.execute 1).remaining_time = 0 := (is_complete_iff _).mp hbc
    have hcrem1 : c.remaining_time = 1 := by omega
    refine ⟨Or.inr ⟨rfl, ?_, ?_, ?_, ?_, ?_, ?_, ?_, ?_⟩, rfl, Or.inl rfl⟩
    · exact hremNil
    · exact hrdyNil
    · rfl
    · simp
    · refine ⟨t + 1, tilesB_ganttExtend sc.gantt t _ htiles, ?_⟩
      simp only [List.map_append, List.map_cons, List.map_nil]
      have hfin : (srtfFinalize (c.execute 1) (t + 1)).completion_time =
          ((t + 1 : Nat) : Int) := rfl
      rw [hfin, maxIntOf_append]
      split
      · rfl
      · rename_i hnil
        have hle : maxIntOf (sc.completed.map Process.completion_time) ≤
            ((t + 1 : Nat) : Int) := by
          refine maxIntOf_le _ _ (by positivity) ?_
          intro x hx
          obtain ⟨q, hq, rfl⟩ := List.mem_map.mp hx
          have := hcLe q hq
          push_cast
          push_cast at this
          omega
        omega
    · exact noAdjDupB_ganttExtend sc.gantt t _ hnoadj
    · have : (sc.completed ++ [srtfFinalize (c.execute 1) (t + 1)]).map Process.pid =
          sc.completed.map Process.pid ++ [c.pid] := by
        simp [srtfFinalize, hc1pid]
      rw [this]
      have := hperm
      rw [hremNil, hrdyNil] at this
      simpa using this
    · intro q hq
      rcases List.mem_append.mp hq with hq | hq
      · exact hcOk q hq
      · have hqe : q = srtfFinalize (c.execute 1) (t + 1) := by simpa using hq
        subst hqe
        constructor
        · show 0 ≤ (((t + 1 : Nat) : Int) - ((c.execute 1).arrival_time : Int)) -
            ((c.execute 1).burst_time : Int)
          rw [hc1arr, hc1burst]
          push_cast
          omega
        · show 0 ≤ (c.execute 1).response_time
          rw [hc1resp]
          exact hcresp
  · -- no break: the invariant continues at `t + 1`
    rename_i hb
    have hnb : ¬(sc.remaining.isEmpty = true ∧ sc.ready.isEmpty = true ∧
        (c.execute 1).is_complete = true) := by
      intro ⟨h1, h2, h3⟩
      exact hb (by rw [h1, h2, h3]; rfl)
    refine ⟨Or.inl ⟨hdone, ?_⟩, rfl, Or.inr ?_⟩
    · refine ⟨tilesB_ganttExtend sc.gantt t _ htiles,
        noAdjDupB_ganttExtend sc.gantt t _ hnoadj, ?_, hremS, ?_, hremSub, hremF,
        ?_, hrdyP, hrdyL, ?_, hrdyR, ?_, ?_, ?_, ?_, ?_, ?_, ?_, hcOk, ?_⟩
      · show List.Perm (sc.completed.map Process.pid ++ [(c.execute 1).pid] ++
          sc.ready.map Process.pid ++ sc.remaining.map Process.pid) _
        rw [hc1pid]
        exact hperm
      · intro p hp
        exact hremA p hp
      · intro p hp
        exact le_trans (hrdyA p hp) (by omega)
      · intro p hp
        have := hrdyE p hp
        push_cast
        push_cast at this
        omega
      · intro c' hc'
        have hce : c.execute 1 = c' := by
          simpa using hc'
        subst hce
        rw [hc1rem, hc1burst]
        omega
      · intro c' hc'
        have hce : c.execute 1 = c' := by
          simpa using hc'
        subst hce
        rw [hc1rem, hc1burst, hc1arr]
        push_cast
        omega
      · intro c' hc'
        have hce : c.execute 1 = c' := by
          simpa using hc'
        subst hce
        rw [hc1resp]
        exact hcresp
      · intro c' hc' hpos
        have hce : c.execute 1 = c' := by
          simpa using hc'
        subst hce
        rw [hc1rem] at hpos
        rw [hc1]
        simp only
        rw [if_neg (by omega)]
      · intro c' hc' hcomp
        have hce : c.execute 1 = c' := by
          simpa using hc'
        subst hce
        intro ⟨h1, h2⟩
        have h1' : sc.remaining = [] := h1
        have h2' : sc.ready = [] := h2
        exact hnb ⟨by simp [h1'], by simp [h2'], hcomp⟩
      · intro ⟨_, _, h3⟩
        simp at h3
      · show totalRem sc.remaining + totalRem sc.ready +
          currentRem { sc with gantt := ganttExtend sc.gantt t (Label.proc c.pid)
                               current := some (c.execute 1) } ≤ totalBurst ps
        have : currentRem { sc with
            gantt := ganttExtend sc.gantt t (Label.proc c.pid)
            current := some (c.execute 1) } = c.remaining_time - 1 := by
          simp [currentRem, hc1rem]
        rw [this]
        omega
      · intro q hq
        have := hcLe q hq
        push_cast
        push_cast at this
        omega
    · show totalRem sc.ready + currentRem { sc with
          gantt := ganttExtend sc.gantt t (Label.proc c.pid)
          current := some (c.execute 1) } + 1 = totalRem sc.ready + c.remaining_time
      have : currentRem { sc with
          gantt := ganttExtend sc.gantt t (Label.proc c.pid)
          current := some (c.execute 1) } = c.remaining_time - 1 := by
        simp [currentRem, hc1rem]
      rw [this]
      omega

/-- The run-one-unit and break phases, entered with a free CPU, an empty
ready queue and a non-empty remaining pool: one IDLE unit is emitted and
the invariant continues at `t + 1`. -/
theorem srtfIdle_spec (ps : List Process) (t : Nat) (sc : SRTFState)
    (hdone : sc.done = false)
    (hcur : sc.current = none)
    (hready : sc.ready = [])
    (hrem : sc.remaining ≠ [])
    (htiles : tilesB 0 sc.gantt t = true)
    (hnoadj : noAdjDupB sc.gantt = true)
    (hperm : List.Perm (sc.completed.map Process.pid ++
      sc.remaining.map Process.pid) (ps.map Process.pid))
    (hremS : sc.remaining.Pairwise (fun a b => a.arrival_time ≤ b.arrival_time))
    (hremA : ∀ p ∈ sc.remaining, t + 1 ≤ p.arrival_time)
    (hremSub : ∀ p ∈ sc.remaining, p ∈ ps)
    (hremF : ∀ p ∈ sc.remaining, p.remaining_time = p.burst_time ∧
      0 < p.burst_time ∧ p.start_time = -1 ∧ p.response_time = -1)
    (hW : totalRem sc.remaining ≤ totalBurst ps)
    (hcOk : ∀ q ∈ sc.completed, 0 ≤ q.waiting_time ∧ 0 ≤ q.response_time)
    (hcLe : ∀ q ∈ sc.completed, q.completion_time ≤ (t : Int)) :
    srtfInv ps (t + 1) (srtfPhaseBreak t (srtfPhaseRun t sc)) ∧
      (srtfPhaseBreak t (srtfPhaseRun t sc)).remaining = sc.remaining := by
  have hrun : srtfPhaseRun t sc =
      { sc with gantt := ganttExtend sc.gantt t Label.idle } := by
    simp only [srtfPhaseRun, hcur]
  rw [hrun]
  unfold srtfPhaseBreak
  simp only
  have hremE : sc.remaining.isEmpty = false := by
    cases h : sc.remaining with
    | nil => exact absurd h hrem
    | cons a l => rfl
  rw [if_neg (by rw [hremE]; simp)]
  refine ⟨Or.inl ⟨hdone, ?_⟩, rfl⟩
  refine ⟨tilesB_ganttExtend sc.gantt t _ htiles,
    noAdjDupB_ganttExtend sc.gantt t _ hnoadj, ?_, hremS, hremA, hremSub, hremF,
    ?_, ?_, ?_, ?_, ?_, ?_, ?_, ?_, ?_, ?_, ?_, ?_, hcOk, ?_⟩
  · show List.Perm (sc.completed.map Process.pid ++
      currentPids { sc with gantt := ganttExtend sc.gantt t Label.idle } ++
      sc.ready.map Process.pid ++ sc.remaining.map Process.pid) _
    have hcp : currentPids { sc with gantt := ganttExtend sc.gantt t Label.idle } =
        [] := by
      simp [currentPids, hcur]
    rw [hcp, hready]
    simpa using hperm
  · intro p hp
    rw [hready] at hp
    simp at hp
  · intro p hp
    rw [hready] at hp
    simp at hp
  · intro p hp
    rw [hready] at hp
    simp at hp
  · intro p hp
    rw [hready] at hp
    simp at hp
  · intro p hp
    rw [hready] at hp
    simp at hp
  · intro c' hc'
    rw [hcur] at hc'
    simp at hc'
  · intro c' hc'
    rw [hcur] at hc'
    simp at hc'
  · intro c' hc'
    rw [hcur] at hc'
    simp at hc'
  · intro c' hc' _
    rw [hcur] at hc'
    simp at hc'
  · intro c' hc' _
    rw [hcur] at hc'
    simp at hc'
  · intro ⟨h1, _, _⟩
    exact hrem h1
  · show totalRem sc.remaining + totalRem sc.ready +
      currentRem { sc with gantt := ganttExtend sc.gantt t Label.idle } ≤
        totalBurst ps
    have hcr : currentRem { sc with gantt := ganttExtend sc.gantt t Label.idle } =
        0 := by
      simp [currentRem, hcur]
    rw [hcr, hready]
    simpa [totalRem] using hW
  · intro q hq
    have := hcLe q hq
    push_cast
    omega

/-- Characterization of the SRTF dispatch phase on a free CPU with a
non-empty ready queue. -/
theorem srtfDispatch_spec (t : Nat) (sb : SRTFState) (p : Process)
    (rest : List Process) (hcur : sb.current = none)
    (hsort : sortBy (fun a b => lexLe3 (srtfKey a) (srtfKey b)) sb.ready =
      p :: rest) :
    ∃ p2 : Process,
      srtfPhaseDispatch t sb = { sb with current := some p2, ready := rest } ∧
      p2.pid = p.pid ∧ p2.arrival_time = p.arrival_time ∧
      p2.burst_time = p.burst_time ∧ p2.remaining_time = p.remaining_time ∧
      p2.state = ProcessState.RUNNING ∧
      ((p.start_time = -1 ∧
          p2.response_time = (t : Int) - (p.arrival_time : Int)) ∨
        (¬p.start_time = -1 ∧ p2.response_time = p.response_time)) := by
  have hne : sb.ready.isEmpty = false := by
    cases h : sb.ready with
    | nil =>
      rw [h] at hsort
      simp [sortBy] at hsort
    | cons a l => rfl
  have hguard : (sb.current.isNone && !sb.ready.isEmpty) = true := by
    rw [hcur, hne]
    rfl
  by_cases hstart : p.start_time = -1
  · refine ⟨{ p with
        state := ProcessState.RUNNING
        start_time := (t : Int)
        response_time := (t : Int) - (p.arrival_time : Int) },
      ?_, rfl, rfl, rfl, rfl, rfl, Or.inl ⟨hstart, rfl⟩⟩
    unfold srtfPhaseDispatch
    rw [if_pos hguard, hsort]
    simp [hstart]
  · refine ⟨{ p with state := ProcessState.RUNNING }, ?_, rfl, rfl, rfl, rfl,
      rfl, Or.inr ⟨hstart, rfl⟩⟩
    unfold srtfPhaseDispatch
    rw [if_pos hguard, hsort]
    simp [hstart]

/-- One SRTF iteration preserves the loop invariant; moreover once the
remaining pool is empty, each iteration either fires the break or
consumes one unit of work. -/
theorem srtfStep_spec (ps : List Process) (t : Nat) (s : SRTFState)
    (hdone : s.done = false) (hinv : SInv ps t s) :
    srtfInv ps (t + 1) (srtfStep s t) ∧
      (s.remaining = [] → (srtfStep s t).remaining = [] ∧
        ((srtfStep s t).done = true ∨
          totalRem (srtfStep s t).ready + currentRem (srtfStep s t) + 1 ≤
            totalRem s.ready + currentRem s)) := by
  obtain ⟨xs, hxs, hQ, hxsA, hrest⟩ := pullArrived_spec t s.remaining s.ready
  generalize hRdef : (pullArrived t s.remaining s.ready).1 = R at hxs hrest
  generalize hQdef : (pullArrived t s.remaining s.ready).2 = Q at hQ
  have hsa : srtfPhasePull t s = { s with remaining := R, ready := Q } := by
    rw [← hRdef, ← hQdef]
    rfl
  -- facts about the post-pull remaining pool
  have hRmem : ∀ p ∈ R, p ∈ s.remaining := by
    intro p hp
    rw [hxs]
    exact List.mem_append.mpr (Or.inr hp)
  have hRsorted : R.Pairwise (fun a b => a.arrival_time ≤ b.arrival_time) := by
    have := hinv.remSorted
    rw [hxs] at this
    exact (List.pairwise_append.mp this).2.1
  have hRSub : ∀ p ∈ R, p ∈ ps := fun p hp => hinv.remSub p (hRmem p hp)
  have hRF : ∀ p ∈ R, p.remaining_time = p.burst_time ∧ 0 < p.burst_time ∧
      p.start_time = -1 ∧ p.response_time = -1 :=
    fun p hp => hinv.remFresh p (hRmem p hp)
  have hRA1 : ∀ p ∈ R, t + 1 ≤ p.arrival_time := by
    rcases hrest with hR0 | ⟨y, ys, hRy, hy⟩
    · rw [hR0]
      intro p hp
      simp at hp
    · rw [hRy]
      intro p hp
      rcases List.mem_cons.mp hp with rfl | hp
      · omega
      · have hpair := hRsorted
        rw [hRy] at hpair
        have := (List.pairwise_cons.mp hpair).1 p hp
        omega
  -- facts about the post-pull ready queue
  have hxsF : ∀ x ∈ xs, x.remaining_time = x.burst_time ∧ 0 < x.burst_time ∧
      x.start_time = -1 ∧ x.response_time = -1 := by
    intro x hx
    refine hinv.remFresh x ?_
    rw [hxs]
    exact List.mem_append.mpr (Or.inl hx)
  have hQmem : ∀ p ∈ Q, p ∈ s.ready ∨
      ∃ x ∈ xs, p = { x with state := ProcessState.READY } := by
    intro p hp
    rw [hQ] at hp
    rcases List.mem_append.mp hp with h | h
    · exact Or.inl h
    · obtain ⟨x, hx, rfl⟩ := List.mem_map.mp h
      exact Or.inr ⟨x, hx, rfl⟩
  have hQA : ∀ p ∈ Q, p.arrival_time ≤ t := by
    intro p hp
    rcases hQmem p hp with h | ⟨x, hx, rfl⟩
    · exact hinv.readyArr p h
    · exact hxsA x hx
  have hQP : ∀ p ∈ Q, 0 < p.remaining_time := by
    intro p hp
    rcases hQmem p hp with h | ⟨x, hx, rfl⟩
    · exact hinv.readyPos p h
    · show 0 < x.remaining_time
      have := hxsF x hx
      omega
  have hQL : ∀ p ∈ Q, p.remaining_time ≤ p.burst_time := by
    intro p hp
    rcases hQmem p hp with h | ⟨x, hx, rfl⟩
    · exact hinv.readyRemLe p h
    · show x.remaining_time ≤ x.burst_time
      have := hxsF x hx
      omega
  have hQE : ∀ p ∈ Q, (p.burst_time : Int) - (p.remaining_time : Int) ≤
      (t : Int) - (p.arrival_time : Int) := by
    intro p hp
    rcases hQmem p hp with h | ⟨x, hx, rfl⟩
    · exact hinv.readyExec p h
    · show (x.burst_time : Int) - (x.remaining_time : Int) ≤
        (t : Int) - (x.arrival_time : Int)
      have h1 := hxsF x hx
      have h2 := hxsA x hx
      omega
  have hQR : ∀ p ∈ Q,
      (p.start_time = -1 ∧ p.response_time = -1) ∨ 0 ≤ p.response_time := by
    intro p hp
    rcases hQmem p hp with h | ⟨x, hx, rfl⟩
    · exact hinv.readyResp p h
    · exact Or.inl ⟨(hxsF x hx).2.2.1, (hxsF x hx).2.2.2⟩
  -- bookkeeping of pids and of total remaining work across the pull
  have hQpids : Q.map Process.pid =
      s.ready.map Process.pid ++ xs.map Process.pid := by
    rw [hQ, List.map_append, map_pid_setReady]
  have hRempids : s.remaining.map Process.pid =
      xs.map Process.pid ++ R.map Process.pid := by
    rw [hxs, List.map_append]
  have hP0 : List.Perm (s.completed.map Process.pid ++ (currentPids s ++
      (Q.map Process.pid ++ R.map Process.pid))) (ps.map Process.pid) := by
    have := hinv.pidsPerm
    rw [hRempids] at this
    rw [hQpids]
    simpa [List.append_assoc] using this
  have hremsum : totalRem s.remaining = totalRem xs + totalRem R := by
    rw [hxs, totalRem_append]
  have hWQ : totalRem Q = totalRem s.ready + totalRem xs := by
    rw [hQ, totalRem_append, totalRem_setReady]
  cases hc : s.current with
  | none =>
    have hcurA : ({ s with remaining := R, ready := Q } : SRTFState).current =
        none := hc
    have hsb : srtfPhaseCpu t { s with remaining := R, ready := Q } =
        { s with remaining := R, ready := Q } := by
      simp only [srtfPhaseCpu, hc]
    have hcur0 : currentPids s = [] := by simp [currentPids, hc]
    have hcrem0 : currentRem s = 0 := by simp [currentRem, hc]
    by_cases hQnil : Q = []
    · -- nothing arrived and nothing ready: idle (or contradict liveness)
      have hQsplit := hQ
      rw [hQnil] at hQsplit
      have hsready : s.ready = [] := (List.append_eq_nil.mp hQsplit.symm).1
      have hxsnil : xs = [] := by
        have := (List.append_eq_nil.mp hQsplit.symm).2
        exact List.map_eq_nil_iff.mp this
      by_cases hRnil : R = []
      · exfalso
        refine hinv.live ⟨?_, hsready, hc⟩
        rw [hxs, hxsnil, hRnil]
        rfl
      · have hready' : ({ s with remaining := R, ready := Q } : SRTFState).ready =
            ([] : List Process) := hQnil
        have hsc : srtfPhaseDispatch t { s with remaining := R, ready := Q } =
            { s with remaining := R, ready := Q } := by
          simp [srtfPhaseDispatch, hQnil]
        have hpermA1 : List.Perm (s.completed.map Process.pid ++
            R.map Process.pid) (ps.map Process.pid) := by
          have := hP0
          rw [hcur0, hQnil] at this
          simpa using this
        have hwA1 : totalRem R ≤ totalBurst ps := by
          have := hinv.wBound
          rw [hcrem0] at this
          omega
        obtain ⟨hidle, hrem'⟩ := srtfIdle_spec ps t
          { s with remaining := R, ready := Q } hdone hcurA hready' hRnil
          hinv.tiles hinv.noAdj hpermA1 hRsorted hRA1 hRSub hRF hwA1
          hinv.compOk hinv.compLe
        have hstep : srtfStep s t = srtfPhaseBreak t (srtfPhaseRun t
            { s with remaining := R, ready := Q }) := by
          rw [srtfStep_phases s t hdone, hsa, hsb, hsc]
        rw [hstep]
        refine ⟨hidle, ?_⟩
        intro h0
        exfalso
        have hx2 := hxs
        rw [h0, hxsnil] at hx2
        simp at hx2
        exact hRnil hx2
    · -- a ready process is dispatched onto the free CPU
      cases hsort : sortBy (fun a b => lexLe3 (srtfKey a) (srtfKey b)) Q with
      | nil => exact absurd (sortBy_eq_nil _ _ hsort) hQnil
      | cons p rest =>
        have hsort' : sortBy (fun a b => lexLe3 (srtfKey a) (srtfKey b))
            ({ s with remaining := R, ready := Q } : SRTFState).ready =
            p :: rest := hsort
        obtain ⟨p2, hdisp, hp2pid, hp2arr, hp2burst, hp2rem, hp2st, hp2resp⟩ :=
          srtfDispatch_spec t { s with remaining := R, ready := Q } p rest
            hcurA hsort'
        have hpQ : p ∈ Q := by
          refine (sortBy_perm (fun a b => lexLe3 (srtfKey a) (srtfKey b)) Q).mem_iff.mp ?_
          rw [hsort]
          exact List.mem_cons_self p rest
        have hrestQ : ∀ q ∈ rest, q ∈ Q := by
          intro q hq
          refine (sortBy_perm (fun a b => lexLe3 (srtfKey a) (srtfKey b)) Q).mem_iff.mp ?_
          rw [hsort]
          exact List.mem_cons_of_mem p hq
        have hp2resp' : 0 ≤ p2.response_time := by
          rcases hp2resp with ⟨hst, hre⟩ | ⟨hst, hre⟩
          · rw [hre]
            have := hQA p hpQ
            omega
          · rcases hQR p hpQ with ⟨h1, _⟩ | h1
            · exact absurd h1 hst
            · rw [hre]
              exact h1
        have hsumsort : totalRem (p :: rest) = totalRem Q := by
          refine totalRem_perm ?_
          rw [← hsort]
          exact sortBy_perm _ Q
        have hconsrem : totalRem (p :: rest) =
            p.remaining_time + totalRem rest := by
          simp [totalRem]
        have hperm2 : List.Perm (p.pid :: rest.map Process.pid)
            (Q.map Process.pid) := by
          have := (sortBy_perm (fun a b => lexLe3 (srtfKey a) (srtfKey b))
            Q).map Process.pid
          rw [hsort] at this
          simpa using this
        have hpermA2 : List.Perm (s.completed.map Process.pid ++ [p2.pid] ++
            rest.map Process.pid ++ R.map Process.pid) (ps.map Process.pid) := by
          rw [hp2pid]
          have hmid : List.Perm ((p.pid :: rest.map Process.pid) ++
              R.map Process.pid) (Q.map Process.pid ++ R.map Process.pid) :=
            hperm2.append_right _
          have hfull : List.Perm (s.completed.map Process.pid ++
              ((p.pid :: rest.map Process.pid) ++ R.map Process.pid))
              (ps.map Process.pid) := by
            refine List.Perm.trans (List.Perm.append_left _ hmid) ?_
            have := hP0
            rw [hcur0] at this
            simpa [List.append_assoc] using this
          simpa [List.append_assoc] using hfull
        have hwA2 : totalRem R + totalRem rest + p2.remaining_time ≤
            totalBurst ps := by
          rw [hp2rem]
          have := hinv.wBound
          rw [hcrem0] at this
          omega
        obtain ⟨hfin, hrem', hdec⟩ := srtfRunBreak_spec ps t
          { remaining := R, ready := rest, current := some p2, gantt := s.gantt,
            completed := s.completed, done := s.done } p2 hdone rfl
          (by rw [hp2rem]; exact hQP p hpQ) hp2st
          (by rw [hp2rem, hp2burst]; exact hQL p hpQ)
          (by rw [hp2rem, hp2burst, hp2arr]; exact hQE p hpQ)
          hp2resp' hinv.tiles hinv.noAdj hpermA2 hRsorted hRA1 hRSub hRF
          (fun q hq => hQA q (hrestQ q hq)) (fun q hq => hQP q (hrestQ q hq))
          (fun q hq => hQL q (hrestQ q hq)) (fun q hq => hQE q (hrestQ q hq))
          (fun q hq => hQR q (hrestQ q hq)) hwA2 hinv.compOk hinv.compLe
        have hstep : srtfStep s t = srtfPhaseBreak t (srtfPhaseRun t
            { remaining := R, ready := rest, current := some p2,
              gantt := s.gantt, completed := s.completed, done := s.done }) := by
          rw [srtfStep_phases s t hdone, hsa, hsb, hdisp]
        rw [hstep]
        refine ⟨hfin, ?_⟩
        intro h0
        have hx2 := hxs
        rw [h0] at hx2
        have hxsnil : xs = [] := (List.append_eq_nil.mp hx2.symm).1
        have hRnil : R = [] := (List.append_eq_nil.mp hx2.symm).2
        constructor
        · rw [hrem']
          exact hRnil
        · rcases hdec with hd | hd
          · exact Or.inl hd
          · right
            dsimp only at hd
            rw [hcrem0]
            have hxs0 : totalRem xs = 0 := by
              rw [hxsnil]
              rfl
            rw [hp2rem] at hd
            omega
  | some c =>
    have hcurS : ({ s with remaining := R, ready := Q } : SRTFState).current =
        some c := hc
    have hcur1 : currentPids s = [c.pid] := by simp [currentPids, hc]
    have hcrem1 : currentRem s = c.remaining_time := by simp [currentRem, hc]
    by_cases hcompl : c.is_complete = true
    · -- phase (b): the running process finished during the previous unit
      have hcrem0 : c.remaining_time = 0 := (is_complete_iff c).mp hcompl
      have hsb : srtfPhaseCpu t { s with remaining := R, ready := Q } =
          { remaining := R, ready := Q, current := none, gantt := s.gantt,
            completed := s.completed ++ [srtfFinalize c t], done := s.done } := by
        simp [srtfPhaseCpu, hc, hcompl]
      have hfinOk : 0 ≤ (srtfFinalize c t).waiting_time ∧
          0 ≤ (srtfFinalize c t).response_time := by
        constructor
        · show 0 ≤ ((t : Int) - (c.arrival_time : Int)) - (c.burst_time : Int)
          have := hinv.curExec c hc
          omega
        · show 0 ≤ c.response_time
          exact hinv.curResp c hc
      have hcompOk' : ∀ q ∈ s.completed ++ [srtfFinalize c t],
          0 ≤ q.waiting_time ∧ 0 ≤ q.response_time := by
        intro q hq
        rcases List.mem_append.mp hq with h | h
        · exact hinv.compOk q h
        · rw [List.mem_singleton.mp h]
          exact hfinOk
      have hcompLe' : ∀ q ∈ s.completed ++ [srtfFinalize c t],
          q.completion_time ≤ (t : Int) := by
        intro q hq
        rcases List.mem_append.mp hq with h | h
        · exact hinv.compLe q h
        · rw [List.mem_singleton.mp h]
          show (t : Int) ≤ (t : Int)
          exact le_refl _
      have hcpid : (s.completed ++ [srtfFinalize c t]).map Process.pid =
          s.completed.map Process.pid ++ [c.pid] := by
        simp [srtfFinalize]
      by_cases hQnil : Q = []
      · -- no ready work: idle one unit (remaining is non-empty by `curLive`)
        have hQsplit := hQ
        rw [hQnil] at hQsplit
        have hsready : s.ready = [] := (List.append_eq_nil.mp hQsplit.symm).1
        have hxsnil : xs = [] := by
          have := (List.append_eq_nil.mp hQsplit.symm).2
          exact List.map_eq_nil_iff.mp this
        have hsremne : s.remaining ≠ [] := by
          intro h0
          exact hinv.curLive c hc hcompl ⟨h0, hsready⟩
        have hRnil' : R ≠ [] := by
          intro h0
          apply hsremne
          rw [hxs, hxsnil, h0]
          rfl
        have hsc : srtfPhaseDispatch t
            { remaining := R, ready := Q, current := none, gantt := s.gantt,
              completed := s.completed ++ [srtfFinalize c t], done := s.done } =
            { remaining := R, ready := Q, current := none, gantt := s.gantt,
              completed := s.completed ++ [srtfFinalize c t], done := s.done } := by
          simp [srtfPhaseDispatch, hQnil]
        have hpermB1 : List.Perm
            ((s.completed ++ [srtfFinalize c t]).map Process.pid ++
              R.map Process.pid) (ps.map Process.pid) := by
          rw [hcpid]
          have := hP0
          rw [hcur1, hQnil] at this
          simpa [List.append_assoc] using this
        have hwB1 : totalRem R ≤ totalBurst ps := by
          have := hinv.wBound
          omega
        obtain ⟨hidle, hrem'⟩ := srtfIdle_spec ps t
          { remaining := R, ready := Q, current := none, gantt := s.gantt,
            completed := s.completed ++ [srtfFinalize c t], done := s.done }
          hdone rfl hQnil hRnil' hinv.tiles hinv.noAdj hpermB1 hRsorted hRA1
          hRSub hRF hwB1 hcompOk' hcompLe'
        have hstep : srtfStep s t = srtfPhaseBreak t (srtfPhaseRun t
            { remaining := R, ready := Q, current := none, gantt := s.gantt,
              completed := s.completed ++ [srtfFinalize c t],
              done := s.done }) := by
          rw [srtfStep_phases s t hdone, hsa, hsb, hsc]
        rw [hstep]
        refine ⟨hidle, ?_⟩
        intro h0
        exact absurd h0 hsremne
      · -- finalize then dispatch the next ready process
        cases hsort : sortBy (fun a b => lexLe3 (srtfKey a) (srtfKey b)) Q with
        | nil => exact absurd (sortBy_eq_nil _ _ hsort) hQnil
        | cons p rest =>
          have hsort' : sortBy (fun a b => lexLe3 (srtfKey a) (srtfKey b))
              ({ remaining := R, ready := Q, current := none, gantt := s.gantt,
                 completed := s.completed ++ [srtfFinalize c t],
                 done := s.done } : SRTFState).ready = p :: rest := hsort
          obtain ⟨p2, hdisp, hp2pid, hp2arr, hp2burst, hp2rem, hp2st, hp2resp⟩ :=
            srtfDispatch_spec t
              { remaining := R, ready := Q, current := none, gantt := s.gantt,
                completed := s.completed ++ [srtfFinalize c t], done := s.done }
              p rest rfl hsort'
          have hpQ : p ∈ Q := by
            refine (sortBy_perm (fun a b => lexLe3 (srtfKey a) (srtfKey b)) Q).mem_iff.mp ?_
            rw [hsort]
            exact List.mem_cons_self p rest
          have hrestQ : ∀ q ∈ rest, q ∈ Q := by
            intro q hq
            refine (sortBy_perm (fun a b => lexLe3 (srtfKey a) (srtfKey b)) Q).mem_iff.mp ?_
            rw [hsort]
            exact List.mem_cons_of_mem p hq
          have hp2resp' : 0 ≤ p2.response_time := by
            rcases hp2resp with ⟨hst, hre⟩ | ⟨hst, hre⟩
            · rw [hre]
              have := hQA p hpQ
              omega
            · rcases hQR p hpQ with ⟨h1, _⟩ | h1
              · exact absurd h1 hst
              · rw [hre]
                exact h1
          have hsumsort : totalRem (p :: rest) = totalRem Q := by
            refine totalRem_perm ?_
            rw [← hsort]
            exact sortBy_perm _ Q
          have hconsrem : totalRem (p :: rest) =
              p.remaining_time + totalRem rest := by
            simp [totalRem]
          have hperm2 : List.Perm (p.pid :: rest.map Process.pid)
              (Q.map Process.pid) := by
            have := (sortBy_perm (fun a b => lexLe3 (srtfKey a) (srtfKey b))
              Q).map Process.pid
            rw [hsort] at this
            simpa using this
          have hpermB2 : List.Perm
              ((s.completed ++ [srtfFinalize c t]).map Process.pid ++ [p2.pid] ++
                rest.map Process.pid ++ R.map Process.pid)
              (ps.map Process.pid) := by
            rw [hcpid, hp2pid]
            have hmid : List.Perm ((p.pid :: rest.map Process.pid) ++
                R.map Process.pid) (Q.map Process.pid ++ R.map Process.pid) :=
              hperm2.append_right _
            have hfull : List.Perm (s.completed.map Process.pid ++
                ([c.pid] ++ ((p.pid :: rest.map Process.pid) ++
                  R.map Process.pid))) (ps.map Process.pid) := by
              refine List.Perm.trans
                (List.Perm.append_left _ (List.Perm.append_left _ hmid)) ?_
              have := hP0
              rw [hcur1] at this
              simpa [List.append_assoc] using this
            simpa [List.append_assoc] using hfull
          have hwB2 : totalRem R + totalRem rest + p2.remaining_time ≤
              totalBurst ps := by
            rw [hp2rem]
            have := hinv.wBound
            rw [hcrem1] at this
            omega
          obtain ⟨hfin, hrem', hdec⟩ := srtfRunBreak_spec ps t
            { remaining := R, ready := rest, current := some p2,
              gantt := s.gantt,
              completed := s.completed ++ [srtfFinalize c t],
              done := s.done } p2 hdone rfl
            (by rw [hp2rem]; exact hQP p hpQ) hp2st
            (by rw [hp2rem, hp2burst]; exact hQL p hpQ)
            (by rw [hp2rem, hp2burst, hp2arr]; exact hQE p hpQ)
            hp2resp' hinv.tiles hinv.noAdj hpermB2 hRsorted hRA1 hRSub hRF
            (fun q hq => hQA q (hrestQ q hq)) (fun q hq => hQP q (hrestQ q hq))
            (fun q hq => hQL q (hrestQ q hq)) (fun q hq => hQE q (hrestQ q hq))
            (fun q hq => hQR q (hrestQ q hq)) hwB2 hcompOk' hcompLe'
          have hstep : srtfStep s t = srtfPhaseBreak t (srtfPhaseRun t
              { remaining := R, ready := rest, current := some p2,
                gantt := s.gantt,
                completed := s.completed ++ [srtfFinalize c t],
                done := s.done }) := by
            rw [srtfStep_phases s t hdone, hsa, hsb, hdisp]
          rw [hstep]
          refine ⟨hfin, ?_⟩
          intro h0
          have hx2 := hxs
          rw [h0] at hx2
          have hxsnil : xs = [] := (List.append_eq_nil.mp hx2.symm).1
          have hRnil : R = [] := (List.append_eq_nil.mp hx2.symm).2
          constructor
          · rw [hrem']
            exact hRnil
          · rcases hdec with hd | hd
            · exact Or.inl hd
            · right
              dsimp only at hd
              rw [hcrem1]
              have hxs0 : totalRem xs = 0 := by
                rw [hxsnil]
                rfl
              rw [hp2rem] at hd
              omega
    · -- phases (c)/(d): the running process continues or is preempted
      have hcpos : 0 < c.remaining_time := by
        rcases Nat.eq_zero_or_pos c.remaining_time with h0 | h0
        · exact absurd ((is_complete_iff c).mpr h0) hcompl
        · exact h0
      have hcst : c.state = ProcessState.RUNNING := hinv.curState c hc hcpos
      by_cases hpre : ∃ shortest, pyMinBy srtfKey Q = some shortest ∧
          shortest.remaining_time < c.remaining_time
      · -- preemption: the incumbent joins the ready queue, shortest wins
        obtain ⟨shortest, hmin, hlt⟩ := hpre
        have hminS : pyMinBy srtfKey
            ({ s with remaining := R, ready := Q } : SRTFState).ready =
            some shortest := hmin
        have hsb : srtfPhaseCpu t { s with remaining := R, ready := Q } =
            { remaining := R,
              ready := Q ++ [{ c with state := ProcessState.READY }],
              current := none, gantt := s.gantt, completed := s.completed,
              done := s.done } := by
          simp [srtfPhaseCpu, hc, hcompl, hminS, hlt]
        have hcarr : c.arrival_time ≤ t := by
          have h1 := hinv.curExec c hc
          have h2 := hinv.curRemLe c hc
          omega
        have hr2mem : ∀ q ∈ Q ++ [{ c with state := ProcessState.READY }],
            q ∈ Q ∨ q = { c with state := ProcessState.READY } := by
          intro q hq
          rcases List.mem_append.mp hq with h | h
          · exact Or.inl h
          · exact Or.inr (List.mem_singleton.mp h)
        have hr2A : ∀ q ∈ Q ++ [{ c with state := ProcessState.READY }],
            q.arrival_time ≤ t := by
          intro q hq
          rcases hr2mem q hq with h | rfl
          · exact hQA q h
          · exact hcarr
        have hr2P : ∀ q ∈ Q ++ [{ c with state := ProcessState.READY }],
            0 < q.remaining_time := by
          intro q hq
          rcases hr2mem q hq with h | rfl
          · exact hQP q h
          · exact hcpos
        have hr2L : ∀ q ∈ Q ++ [{ c with state := ProcessState.READY }],
            q.remaining_time ≤ q.burst_time := by
          intro q hq
          rcases hr2mem q hq with h | rfl
          · exact hQL q h
          · exact hinv.curRemLe c hc
        have hr2E : ∀ q ∈ Q ++ [{ c with state := ProcessState.READY }],
            (q.burst_time : Int) - (q.remaining_time : Int) ≤
              (t : Int) - (q.arrival_time : Int) := by
          intro q hq
          rcases hr2mem q hq with h | rfl
          · exact hQE q h
          · exact hinv.curExec c hc
        have hr2R : ∀ q ∈ Q ++ [{ c with state := ProcessState.READY }],
            (q.start_time = -1 ∧ q.response_time = -1) ∨
              0 ≤ q.response_time := by
          intro q hq
          rcases hr2mem q hq with h | rfl
          · exact hQR q h
          · exact Or.inr (hinv.curResp c hc)
        cases hsort : sortBy (fun a b => lexLe3 (srtfKey a) (srtfKey b))
            (Q ++ [{ c with state := ProcessState.READY }]) with
        | nil =>
          exfalso
          have := sortBy_eq_nil _ _ hsort
          simp at this
        | cons p rest =>
          have hsort' : sortBy (fun a b => lexLe3 (srtfKey a) (srtfKey b))
              ({ remaining := R,
                 ready := Q ++ [{ c with state := ProcessState.READY }],
                 current := none, gantt := s.gantt, completed := s.completed,
                 done := s.done } : SRTFState).ready = p :: rest := hsort
          obtain ⟨p2, hdisp, hp2pid, hp2arr, hp2burst, hp2rem, hp2st, hp2resp⟩ :=
            srtfDispatch_spec t
              { remaining := R,
                ready := Q ++ [{ c with state := ProcessState.READY }],
                current := none
                gantt := s.gantt
                completed := s.completed
                done := s.done } p rest rfl hsort'
          have hpR2 : p ∈ Q ++ [{ c with state := ProcessState.READY }] := by
            refine (sortBy_perm (fun a b => lexLe3 (srtfKey a) (srtfKey b)) (Q ++ [{ c with state := ProcessState.READY }])).mem_iff.mp ?_
            rw [hsort]
            exact List.mem_cons_self p rest
          have hrestR2 : ∀ q ∈ rest,
              q ∈ Q ++ [{ c with state := ProcessState.READY }] := by
            intro q hq
            refine (sortBy_perm (fun a b => lexLe3 (srtfKey a) (srtfKey b)) (Q ++ [{ c with state := ProcessState.READY }])).mem_iff.mp ?_
            rw [hsort]
            exact List.mem_cons_of_mem p hq
          have hp2resp' : 0 ≤ p2.response_time := by
            rcases hp2resp with ⟨hst, hre⟩ | ⟨hst, hre⟩
            · rw [hre]
              have := hr2A p hpR2
              omega
            · rcases hr2R p hpR2 with ⟨h1, _⟩ | h1
              · exact absurd h1 hst
              · rw [hre]
                exact h1
          have hsumsort : totalRem (p :: rest) =
              totalRem (Q ++ [{ c with state := ProcessState.READY }]) := by
            refine totalRem_perm ?_
            rw [← hsort]
            exact sortBy_perm _ _
          have hconsrem : totalRem (p :: rest) =
              p.remaining_time + totalRem rest := by
            simp [totalRem]
          have hr2sum : totalRem (Q ++ [{ c with state := ProcessState.READY }]) =
              totalRem Q + c.remaining_time := by
            rw [totalRem_append]
            simp [totalRem]
          have hr2pids : (Q ++ [{ c with state := ProcessState.READY }]).map
              Process.pid = Q.map Process.pid ++ [c.pid] := by
            simp
          have hperm2 : List.Perm (p.pid :: rest.map Process.pid)
              (Q.map Process.pid ++ [c.pid]) := by
            have := (sortBy_perm (fun a b => lexLe3 (srtfKey a) (srtfKey b))
              (Q ++ [{ c with state := ProcessState.READY }])).map Process.pid
            rw [hsort, hr2pids] at this
            simpa using this
          have hpermD : List.Perm (s.completed.map Process.pid ++ [p2.pid] ++
              rest.map Process.pid ++ R.map Process.pid)
              (ps.map Process.pid) := by
            rw [hp2pid]
            have hmid : List.Perm ((p.pid :: rest.map Process.pid) ++
                R.map Process.pid)
                ((Q.map Process.pid ++ [c.pid]) ++ R.map Process.pid) :=
              hperm2.append_right _
            have hcomm : List.Perm
                ((Q.map Process.pid ++ [c.pid]) ++ R.map Process.pid)
                (([c.pid] ++ Q.map Process.pid) ++ R.map Process.pid) :=
              (List.perm_append_comm).append_right _
            have hfull : List.Perm (s.completed.map Process.pid ++
                ((p.pid :: rest.map Process.pid) ++ R.map Process.pid))
                (ps.map Process.pid) := by
              refine List.Perm.trans (List.Perm.append_left _ hmid) ?_
              refine List.Perm.trans (List.Perm.append_left _ hcomm) ?_
              have := hP0
              rw [hcur1] at this
              simpa [List.append_assoc] using this
            simpa [List.append_assoc] using hfull
          have hwD : totalRem R + totalRem rest + p2.remaining_time ≤
              totalBurst ps := by
            rw [hp2rem]
            have := hinv.wBound
            rw [hcrem1] at this
            omega
          obtain ⟨hfin, hrem', hdec⟩ := srtfRunBreak_spec ps t
            { remaining := R, ready := rest, current := some p2,
              gantt := s.gantt, completed := s.completed,
              done := s.done } p2 hdone rfl
            (by rw [hp2rem]; exact hr2P p hpR2) hp2st
            (by rw [hp2rem, hp2burst]; exact hr2L p hpR2)
            (by rw [hp2rem, hp2burst, hp2arr]; exact hr2E p hpR2)
            hp2resp' hinv.tiles hinv.noAdj hpermD hRsorted hRA1 hRSub hRF
            (fun q hq => hr2A q (hrestR2 q hq))
            (fun q hq => hr2P q (hrestR2 q hq))
            (fun q hq => hr2L q (hrestR2 q hq))
            (fun q hq => hr2E q (hrestR2 q hq))
            (fun q hq => hr2R q (hrestR2 q hq)) hwD hinv.compOk hinv.compLe
          have hstep : srtfStep s t = srtfPhaseBreak t (srtfPhaseRun t
              { remaining := R, ready := rest, current := some p2,
                gantt := s.gantt, completed := s.completed,
                done := s.done }) := by
            rw [srtfStep_phases s t hdone, hsa, hsb, hdisp]
          rw [hstep]
          refine ⟨hfin, ?_⟩
          intro h0
          have hx2 := hxs
          rw [h0] at hx2
          have hxsnil : xs = [] := (List.append_eq_nil.mp hx2.symm).1
          have hRnil : R = [] := (List.append_eq_nil.mp hx2.symm).2
          constructor
          · rw [hrem']
            exact hRnil
          · rcases hdec with hd | hd
            · exact Or.inl hd
            · right
              dsimp only at hd
              rw [hcrem1]
              have hxs0 : totalRem xs = 0 := by
                rw [hxsnil]
                rfl
              rw [hp2rem] at hd
              omega
      · -- no preemption: the incumbent keeps the CPU
        have hsb : srtfPhaseCpu t { s with remaining := R, ready := Q } =
            { s with remaining := R, ready := Q } := by
          cases hmin : pyMinBy srtfKey Q with
          | none =>
            have hminS : pyMinBy srtfKey
                ({ s with remaining := R, ready := Q } : SRTFState).ready =
                none := hmin
            simp [srtfPhaseCpu, hc, hcompl, hminS]
          | some shortest =>
            have hminS : pyMinBy srtfKey
                ({ s with remaining := R, ready := Q } : SRTFState).ready =
                some shortest := hmin
            have hnlt : ¬shortest.remaining_time < c.remaining_time :=
              fun hlt => hpre ⟨shortest, hmin, hlt⟩
            simp [srtfPhaseCpu, hc, hcompl, hminS, hnlt]
        have hsc : srtfPhaseDispatch t { s with remaining := R, ready := Q } =
            { s with remaining := R, ready := Q } := by
          simp [srtfPhaseDispatch, hc]
        have hpermE : List.Perm (s.completed.map Process.pid ++ [c.pid] ++
            Q.map Process.pid ++ R.map Process.pid) (ps.map Process.pid) := by
          have := hP0
          rw [hcur1] at this
          simpa [List.append_assoc] using this
        have hwE : totalRem R + totalRem Q + c.remaining_time ≤
            totalBurst ps := by
          have := hinv.wBound
          rw [hcrem1] at this
          omega
        obtain ⟨hfin, hrem', hdec⟩ := srtfRunBreak_spec ps t
          { s with remaining := R, ready := Q } c hdone hcurS hcpos hcst
          (hinv.curRemLe c hc) (hinv.curExec c hc) (hinv.curResp c hc)
          hinv.tiles hinv.noAdj hpermE hRsorted hRA1 hRSub hRF hQA hQP hQL
          hQE hQR hwE hinv.compOk hinv.compLe
        have hstep : srtfStep s t = srtfPhaseBreak t (srtfPhaseRun t
            { s with remaining := R, ready := Q }) := by
          rw [srtfStep_phases s t hdone, hsa, hsb, hsc]
        rw [hstep]
        refine ⟨hfin, ?_⟩
        intro h0
        have hx2 := hxs
        rw [h0] at hx2
        have hxsnil : xs = [] := (List.append_eq_nil.mp hx2.symm).1
        have hRnil : R = [] := (List.append_eq_nil.mp hx2.symm).2
        constructor
        · rw [hrem']
          exact hRnil
        · rcases hdec with hd | hd
          · exact Or.inl hd
          · right
            dsimp only at hd
            rw [hcrem1]
            have hxs0 : totalRem xs = 0 := by
              rw [hxsnil]
              rfl
            omega

/-- The SRTF invariant is preserved along any contiguous block of
iterations. -/
theorem srtfFold_inv (ps : List Process) : ∀ (k t : Nat) (s : SRTFState),
    srtfInv ps t s →
    srtfInv ps (t + k) ((List.range' t k).foldl srtfStep s)
  | 0, t, s, h => by simpa using h
  | k + 1, t, s, h => by
    rw [List.range'_succ, List.foldl_cons]
    have h1 : srtfInv ps (t + 1) (srtfStep s t) := by
      rcases h with ⟨hd, hi⟩ | ⟨hd, hf⟩
      · exact (srtfStep_spec ps t s hd hi).1
      · rw [srtfStep_done s t hd]
        exact Or.inr ⟨hd, hf⟩
    have h2 := srtfFold_inv ps k (t + 1) (srtfStep s t) h1
    have harith : t + 1 + k = t + (k + 1) := by omega
    rw [harith] at h2
    exact h2

/-- Once the remaining pool is empty, `k` iterations with at most `k`
units of work left drive the SRTF loop to the `break`. -/
theorem srtfCountdown (ps : List Process) : ∀ (k t : Nat) (s : SRTFState),
    srtfInv ps t s → s.remaining = [] →
    totalRem s.ready + currentRem s ≤ k →
    ((List.range' t k).foldl srtfStep s).done = true ∧
      SDone ps ((List.range' t k).foldl srtfStep s)
  | 0, t, s, h, hrem, hw => by
    rcases h with ⟨hd, hi⟩ | ⟨hd, hf⟩
    · exfalso
      have hry0 : totalRem s.ready = 0 := by omega
      have hcr0 : currentRem s = 0 := by omega
      have hready : s.ready = [] := by
        cases hq : s.ready with
        | nil => rfl
        | cons a l =>
          have hpos := hi.readyPos a (by rw [hq]; exact List.mem_cons_self a l)
          have h0 := totalRem_eq_zero s.ready hry0 a
            (by rw [hq]; exact List.mem_cons_self a l)
          omega
      cases hcq : s.current with
      | none => exact hi.live ⟨hrem, hready, hcq⟩
      | some c =>
        have hcr : currentRem s = c.remaining_time := by simp [currentRem, hcq]
        have hc0 : c.remaining_time = 0 := by omega
        exact hi.curLive c hcq ((is_complete_iff c).mpr hc0) ⟨hrem, hready⟩
    · simpa using ⟨hd, hf⟩
  | k + 1, t, s, h, hrem, hw => by
    rw [List.range'_succ, List.foldl_cons]
    rcases h with ⟨hd, hi⟩ | ⟨hd, hf⟩
    · obtain ⟨hinv1, himp⟩ := srtfStep_spec ps t s hd hi
      obtain ⟨hrem1, hprog⟩ := himp hrem
      rcases hinv1 with ⟨hd1, hi1⟩ | ⟨hd1, hf1⟩
      · rcases hprog with hdone1 | hdec
        · rw [hd1] at hdone1
          exact absurd hdone1 (by simp)
        · exact srtfCountdown ps k (t + 1) (srtfStep s t)
            (Or.inl ⟨hd1, hi1⟩) hrem1 (by omega)
      · rw [srtfFold_done _ hd1]
        exact ⟨hd1, hf1⟩
    · rw [srtfStep_done s t hd, srtfFold_done s hd]
      exact ⟨hd, hf⟩

/-- Remaining work equals total burst for fresh inputs. -/
theorem totalRem_eq_totalBurst (ps : List Process)
    (h : ∀ p ∈ ps, p.remaining_time = p.burst_time) :
    totalRem ps = totalBurst ps := by
  unfold totalRem totalBurst
  rw [List.map_congr_left h]

/-- Bundle of facts about one SRTF run on a valid input: the `break`
fires within the `max_time` bound and the final state has all input
processes completed, with a tiled and merge-normalized Gantt sequence
and non-negative waiting/response statistics. -/
theorem srtf_master (ps : List Process) (hv : ValidInput ps) :
    (srtfRun ps).done = true ∧ SDone ps (srtfRun ps) := by
  obtain ⟨hne, hnodup, hpos⟩ := hv
  have hperm0 : List.Perm ((sortBy leArrivalPid ps).map Process.pid)
      (ps.map Process.pid) := (sortBy_perm leArrivalPid ps).map Process.pid
  have hsne : sortBy leArrivalPid ps ≠ [] := by
    intro habs
    have : ps.map Process.pid = [] := by
      have := hperm0.symm
      rw [habs] at this
      exact this.eq_nil
    exact hne (by simpa using this)
  have hfresh0 : ∀ p ∈ sortBy leArrivalPid ps,
      p.remaining_time = p.burst_time ∧ 0 < p.burst_time ∧
        p.start_time = -1 ∧ p.response_time = -1 := by
    intro p hp
    have hmem : p ∈ ps := (sortBy_perm leArrivalPid ps).mem_iff.mp hp
    obtain ⟨hb, hf⟩ := hpos p hmem
    refine ⟨?_, hb, ?_, ?_⟩
    · conv_lhs => rw [hf]
      rfl
    · conv_lhs => rw [hf]
      rfl
    · conv_lhs => rw [hf]
      rfl
  have hW0 : totalRem (sortBy leArrivalPid ps) = totalBurst ps := by
    have h1 : totalRem (sortBy leArrivalPid ps) = totalRem ps :=
      totalRem_perm (sortBy_perm leArrivalPid ps)
    rw [h1]
    refine totalRem_eq_totalBurst ps ?_
    intro p hp
    obtain ⟨-, hf⟩ := hpos p hp
    conv_lhs => rw [hf]
    rfl
  have hinv0 : SInv ps 0 (srtfInit ps) := by
    refine ⟨rfl, rfl, ?_, sortBy_arrival_pairwise ps, ?_, ?_, hfresh0, ?_, ?_,
      ?_, ?_, ?_, ?_, ?_, ?_, ?_, ?_, ?_, ?_, ?_, ?_⟩
    · show List.Perm (([] : List Process).map Process.pid ++
        currentPids (srtfInit ps) ++ ([] : List Process).map Process.pid ++
        (sortBy leArrivalPid ps).map Process.pid) (ps.map Process.pid)
      have : currentPids (srtfInit ps) = [] := rfl
      rw [this]
      simpa using hperm0
    · intro p _
      exact Nat.zero_le _
    · exact fun p hp => (sortBy_perm leArrivalPid ps).mem_iff.mp hp
    · intro p hp
      simp [srtfInit] at hp
    · intro p hp
      simp [srtfInit] at hp
    · intro p hp
      simp [srtfInit] at hp
    · intro p hp
      simp [srtfInit] at hp
    · intro p hp
      simp [srtfInit] at hp
    · intro c hcq
      simp [srtfInit] at hcq
    · intro c hcq
      simp [srtfInit] at hcq
    · intro c hcq
      simp [srtfInit] at hcq
    · intro c hcq
      simp [srtfInit] at hcq
    · intro c hcq
      simp [srtfInit] at hcq
    · intro hx
      exact hsne hx.1
    · show totalRem (sortBy leArrivalPid ps) + totalRem ([] : List Process) +
        currentRem (srtfInit ps) ≤ totalBurst ps
      have h1 : currentRem (srtfInit ps) = 0 := rfl
      have h2 : totalRem ([] : List Process) = 0 := rfl
      omega
    · intro c hcm
      simp [srtfInit] at hcm
    · intro c hcm
      simp [srtfInit] at hcm
  have hrun : srtfRun ps =
      (List.range' (maxArrival ps + 1) (totalBurst ps)).foldl srtfStep
        ((List.range' 0 (maxArrival ps + 1)).foldl srtfStep (srtfInit ps)) := by
    rw [srtfRun, List.range_eq_range', ← List.foldl_append]
    have hsplit : List.range' 0 (maxArrival ps + 1) ++
        List.range' (0 + (maxArrival ps + 1)) (totalBurst ps) =
        List.range' 0 (srtfMaxTime ps + 1) := by
      rw [List.range'_append_1]
      have : totalBurst ps + (maxArrival ps + 1) = srtfMaxTime ps + 1 := by
        unfold srtfMaxTime
        omega
      rw [this]
    rw [← hsplit]
    have : (0 : Nat) + (maxArrival ps + 1) = maxArrival ps + 1 := by omega
    rw [this]
  set smid := (List.range' 0 (maxArrival ps + 1)).foldl srtfStep (srtfInit ps)
    with hsmid
  have hmidinv : srtfInv ps (maxArrival ps + 1) smid := by
    have := srtfFold_inv ps (maxArrival ps + 1) 0 (srtfInit ps)
      (Or.inl ⟨rfl, hinv0⟩)
    simpa using this
  rcases hmidinv with ⟨hd, hi⟩ | ⟨hd, hf⟩
  · -- the break has not yet fired: all processes have arrived, count down
    have hremnil : smid.remaining = [] := by
      cases hq : smid.remaining with
      | nil => rfl
      | cons a l =>
        exfalso
        have hmem : a ∈ smid.remaining := by
          rw [hq]
          exact List.mem_cons_self a l
        have h1 := hi.remArr a hmem
        have h2 := le_maxArrival ps a (hi.remSub a hmem)
        omega
    have hwmid : totalRem smid.ready + currentRem smid ≤ totalBurst ps := by
      have := hi.wBound
      omega
    have := srtfCountdown ps (totalBurst ps) (maxArrival ps + 1) smid
      (Or.inl ⟨hd, hi⟩) hremnil hwmid
    rw [hrun]
    exact this
  · rw [hrun, srtfFold_done smid hd]
    exact ⟨hd, hf⟩

/-- A permutation of a duplicate-free list hits every element exactly
once. -/
theorem perm_count_one {l1 l2 : List Nat} (hperm : List.Perm l1 l2)
    (hnodup : l2.Nodup) : ∀ x ∈ l2, l1.count x = 1 := by
  intro x hx
  rw [hperm.count_eq]
  exact List.count_eq_one_of_mem hnodup hx

/-! ## Claim C2, amended part -/

/-- C2 (amended): for every policy on a valid input (quantum positive for
Round-Robin), the returned Gantt intervals exactly tile
`[0, max(completion_time))` — consecutive intervals meet, every gap is an
explicit IDLE interval, the last interval ends at the maximum completion
time, and no two intervals overlap — but the tiling starts at simulated
time 0, not at the minimum arrival time as the spec claims
(`c2_counterexample`). -/
theorem c2_amended (ps : List Process) (time_quantum : Nat)
    (hv : ValidInput ps) (hq : 0 < time_quantum) :
    (CodeTiling (FCFSScheduler.schedule ps) ∧
      (FCFSScheduler.schedule ps).gantt.Pairwise (fun u v => u.2.1 ≤ v.1)) ∧
    (∃ r, SJFScheduler.schedule ps = some r ∧ CodeTiling r ∧
      r.gantt.Pairwise (fun u v => u.2.1 ≤ v.1)) ∧
    (∃ r, PriorityScheduler.schedule ps = some r ∧ CodeTiling r ∧
      r.gantt.Pairwise (fun u v => u.2.1 ≤ v.1)) ∧
    (∃ r, RoundRobinScheduler.schedule ps time_quantum = some r ∧
      CodeTiling r ∧ r.gantt.Pairwise (fun u v => u.2.1 ≤ v.1)) ∧
    (CodeTiling (SRTFScheduler.schedule ps) ∧
      (SRTFScheduler.schedule ps).gantt.Pairwise (fun u v => u.2.1 ≤ v.1)) := by
  refine ⟨?_, ?_, ?_, ?_, ?_⟩
  · obtain ⟨tEnd, h1, h2, -, -, -⟩ := fcfs_master ps hv
    exact ⟨⟨tEnd, h1, h2⟩, tilesB_pairwise _ 0 tEnd h1⟩
  · obtain ⟨r, hr, ⟨tEnd, h1, h2⟩, -, -, -⟩ := np_master sjfKey ps hv
    exact ⟨r, hr, ⟨tEnd, h1, h2⟩, tilesB_pairwise _ 0 tEnd h1⟩
  · obtain ⟨r, hr, ⟨tEnd, h1, h2⟩, -, -, -⟩ := np_master priorityKey ps hv
    exact ⟨r, hr, ⟨tEnd, h1, h2⟩, tilesB_pairwise _ 0 tEnd h1⟩
  · obtain ⟨r, hr, ⟨tEnd, h1, h2⟩, -, -⟩ := rr_master ps time_quantum hv hq
    exact ⟨r, hr, ⟨tEnd, h1, h2⟩, tilesB_pairwise _ 0 tEnd h1⟩
  · obtain ⟨-, hf⟩ := srtf_master ps hv
    obtain ⟨tEnd, h1, h2⟩ := hf.tiles
    refine ⟨⟨tEnd, h1, ?_⟩, tilesB_pairwise _ 0 tEnd h1⟩
    show (tEnd : Int) = maxIntOf
      (((srtfRun ps).completed.map Process.get_statistics).map Stats.completion_time)
    rw [stats_completion_map]
    exact h2.symm

/-- Witness for `c2_amended` at the two-process input with an idle gap
and quantum 2. -/
theorem c2_witness :
    ValidInput witnessInput ∧ CodeTiling (FCFSScheduler.schedule witnessInput) :=
  ⟨by decide, (c2_amended witnessInput 2 (by decide) (by decide)).1.1⟩

/-! ## Claim C3, amended part -/

/-- C3 (amended): in the Gantt sequences of FCFS, SJF, Priority and SRTF
no two consecutive intervals carry the same label (SRTF merges adjacent
equal-label unit intervals as claimed); Round-Robin is excluded — it
appends one interval per dispatch without merging
(`c3_counterexample`). -/
theorem c3_amended (ps : List Process) (hv : ValidInput ps) :
    noAdjDupB (FCFSScheduler.schedule ps).gantt = true ∧
    (∃ r, SJFScheduler.schedule ps = some r ∧ noAdjDupB r.gantt = true) ∧
    (∃ r, PriorityScheduler.schedule ps = some r ∧ noAdjDupB r.gantt = true) ∧
    noAdjDupB (SRTFScheduler.schedule ps).gantt = true := by
  refine ⟨?_, ?_, ?_, ?_⟩
  · obtain ⟨tEnd, -, -, h3, -, -⟩ := fcfs_master ps hv
    exact h3
  · obtain ⟨r, hr, -, h3, -, -⟩ := np_master sjfKey ps hv
    exact ⟨r, hr, h3⟩
  · obtain ⟨r, hr, -, h3, -, -⟩ := np_master priorityKey ps hv
    exact ⟨r, hr, h3⟩
  · obtain ⟨-, hf⟩ := srtf_master ps hv
    exact hf.noAdj

/-- Witness for `c3_amended` at the two-process input with an idle gap. -/
theorem c3_witness :
    ValidInput witnessInput ∧
      noAdjDupB (FCFSScheduler.schedule witnessInput).gantt = true :=
  ⟨by decide, (c3_amended witnessInput (by decide)).1⟩

/-! ## Claim C7 (confirmed) -/

/-- C7: on every valid input (quantum positive for Round-Robin) all five
schedulers terminate — the SJF/Priority and Round-Robin `while` loops
within their fuel, SRTF with its `break` firing within the
`total burst + latest arrival` bound — and the returned statistics
contain exactly one entry per input pid. -/
theorem c7_theorem (ps : List Process) (time_quantum : Nat)
    (hv : ValidInput ps) (hq : 0 < time_quantum) :
    (List.Perm ((FCFSScheduler.schedule ps).stats.map Stats.pid)
        (ps.map Process.pid) ∧
      ∀ pid ∈ ps.map Process.pid,
        ((FCFSScheduler.schedule ps).stats.map Stats.pid).count pid = 1) ∧
    (∃ r, SJFScheduler.schedule ps = some r ∧
      List.Perm (r.stats.map Stats.pid) (ps.map Process.pid) ∧
      ∀ pid ∈ ps.map Process.pid, (r.stats.map Stats.pid).count pid = 1) ∧
    (∃ r, PriorityScheduler.schedule ps = some r ∧
      List.Perm (r.stats.map Stats.pid) (ps.map Process.pid) ∧
      ∀ pid ∈ ps.map Process.pid, (r.stats.map Stats.pid).count pid = 1) ∧
    (∃ r, RoundRobinScheduler.schedule ps time_quantum = some r ∧
      List.Perm (r.stats.map Stats.pid) (ps.map Process.pid) ∧
      ∀ pid ∈ ps.map Process.pid, (r.stats.map Stats.pid).count pid = 1) ∧
    ((srtfRun ps).done = true ∧
      List.Perm ((SRTFScheduler.schedule ps).stats.map Stats.pid)
        (ps.map Process.pid) ∧
      ∀ pid ∈ ps.map Process.pid,
        ((SRTFScheduler.schedule ps).stats.map Stats.pid).count pid = 1) := by
  have hnodup := hv.2.1
  refine ⟨?_, ?_, ?_, ?_, ?_⟩
  · obtain ⟨tEnd, -, -, -, h4, -⟩ := fcfs_master ps hv
    exact ⟨h4, perm_count_one h4 hnodup⟩
  · obtain ⟨r, hr, -, -, h4, -⟩ := np_master sjfKey ps hv
    exact ⟨r, hr, h4, perm_count_one h4 hnodup⟩
  · obtain ⟨r, hr, -, -, h4, -⟩ := np_master priorityKey ps hv
    exact ⟨r, hr, h4, perm_count_one h4 hnodup⟩
  · obtain ⟨r, hr, -, h4, -⟩ := rr_master ps time_quantum hv hq
    exact ⟨r, hr, h4, perm_count_one h4 hnodup⟩
  · obtain ⟨hdone, hf⟩ := srtf_master ps hv
    have h4 : List.Perm ((SRTFScheduler.schedule ps).stats.map Stats.pid)
        (ps.map Process.pid) := by
      show List.Perm
        (((srtfRun ps).completed.map Process.get_statistics).map Stats.pid) _
      rw [stats_pid_map]
      exact hf.pidsPerm
    exact ⟨hdone, h4, perm_count_one h4 hnodup⟩

/-- Witness for `c7_theorem` at the two-process input with an idle gap
and quantum 2. -/
theorem c7_witness :
    ValidInput witnessInput ∧ (0 < 2) ∧
      List.Perm ((FCFSScheduler.schedule witnessInput).stats.map Stats.pid)
        (witnessInput.map Process.pid) :=
  ⟨by decide, by decide, (c7_theorem witnessInput 2 (by decide) (by decide)).1.1⟩

/-! ## Claim C9 (confirmed) -/

/-- C9: on every valid input (quantum positive for Round-Robin), every
process in the statistics returned by any of the five policies has
non-negative waiting time and non-negative response time. -/
theorem c9_theorem (ps : List Process) (time_quantum : Nat)
    (hv : ValidInput ps) (hq : 0 < time_quantum) :
    (∀ st ∈ (FCFSScheduler.schedule ps).stats,
      0 ≤ st.waiting_time ∧ 0 ≤ st.response_time) ∧
    (∃ r, SJFScheduler.schedule ps = some r ∧
      ∀ st ∈ r.stats, 0 ≤ st.waiting_time ∧ 0 ≤ st.response_time) ∧
    (∃ r, PriorityScheduler.schedule ps = some r ∧
      ∀ st ∈ r.stats, 0 ≤ st.waiting_time ∧ 0 ≤ st.response_time) ∧
    (∃ r, RoundRobinScheduler.schedule ps time_quantum = some r ∧
      ∀ st ∈ r.stats, 0 ≤ st.waiting_time ∧ 0 ≤ st.response_time) ∧
    (∀ st ∈ (SRTFScheduler.schedule ps).stats,
      0 ≤ st.waiting_time ∧ 0 ≤ st.response_time) := by
  refine ⟨?_, ?_, ?_, ?_, ?_⟩
  · obtain ⟨tEnd, -, -, -, -, h5⟩ := fcfs_master ps hv
    exact h5
  · obtain ⟨r, hr, -, -, -, h5⟩ := np_master sjfKey ps hv
    exact ⟨r, hr, h5⟩
  · obtain ⟨r, hr, -, -, -, h5⟩ := np_master priorityKey ps hv
    exact ⟨r, hr, h5⟩
  · obtain ⟨r, hr, -, -, h5⟩ := rr_master ps time_quantum hv hq
    exact ⟨r, hr, h5⟩
  · obtain ⟨-, hf⟩ := srtf_master ps hv
    intro st hst
    obtain ⟨c, hcm, rfl⟩ := List.mem_map.mp hst
    exact hf.compOk c hcm

/-- Witness for `c9_theorem` at the two-process input with an idle gap
and quantum 2. -/
theorem c9_witness :
    ValidInput witnessInput ∧ (0 < 2) ∧
      ∀ st ∈ (FCFSScheduler.schedule witnessInput).stats,
        0 ≤ st.waiting_time ∧ 0 ≤ st.response_time :=
  ⟨by decide, by decide, (c9_theorem witnessInput 2 (by decide) (by decide)).1⟩

end OSLab
